import Mathlib

/-!
Verification of the circuit-synthesis core of the `ragu` repository.

The development shallowly embeds:

* the deferred wiring-polynomial evaluator of
  `crates/ragu_circuits/src/s/sy.rs` (virtual wires, reference counting,
  resolution, bound checks, the `eval` entry point),
* the staged witness builder of `crates/ragu_circuits/src/staging/builder.rs`,
* the `routine` implementations of the deferred evaluator and of the two
  emulator modes in `crates/ragu_core/src/drivers/emulator.rs`.

Rust `assert!`/index panics are modelled as a distinguished `panic` outcome,
separate from returned `Error` values.  Rust ownership (handle clones and
scope-end drops) is made explicit: circuits are represented as command
sequences over an environment of wire handles, where every environment entry
is one owned handle; cloning appends a handle and dropping removes one,
exactly mirroring the `Clone`/`Drop` impls of `sy.rs`.
-/

namespace Ragu

/-- Modelled from the spec: the symbolic coefficient type of the external
`arithmetic` crate (not under `src/`).  Spec §2/§3: tags
`{Zero, One, Arbitrary(value), NegativeArbitrary(value)}`, multiplication,
addition, and a `value()` projection onto the field. -/
inductive Coeff (F : Type) where
  | Zero
  | One
  | Arbitrary (v : F)
  | NegativeArbitrary (v : F)
  deriving DecidableEq

/-- Modelled from the spec: `Coeff::value()`, the projection to a field
element. -/
def Coeff.value {F : Type} [Field F] : Coeff F → F
  | .Zero => 0
  | .One => 1
  | .Arbitrary v => v
  | .NegativeArbitrary v => -v

/-- Modelled from the spec: coefficient multiplication (`coeff * gain`),
compatible with `value()`. -/
def Coeff.mul {F : Type} [Field F] : Coeff F → Coeff F → Coeff F
  | .Zero, _ => .Zero
  | _, .Zero => .Zero
  | .One, c => c
  | c, .One => c
  | .Arbitrary a, .Arbitrary b => .Arbitrary (a * b)
  | .Arbitrary a, .NegativeArbitrary b => .NegativeArbitrary (a * b)
  | .NegativeArbitrary a, .Arbitrary b => .NegativeArbitrary (a * b)
  | .NegativeArbitrary a, .NegativeArbitrary b => .Arbitrary (a * b)

/-- Modelled from the spec: coefficient addition (used by
`VirtualTable::add` on the accumulating `value` field), compatible with
`value()`. -/
def Coeff.add {F : Type} [Field F] : Coeff F → Coeff F → Coeff F
  | .Zero, c => c
  | c, .Zero => c
  | a, b => .Arbitrary (a.value + b.value)

theorem Coeff.value_mul {F : Type} [Field F] (a b : Coeff F) :
    (a.mul b).value = a.value * b.value := by
  cases a <;> cases b <;> simp [Coeff.mul, Coeff.value]

theorem Coeff.value_add {F : Type} [Field F] (a b : Coeff F) :
    (a.add b).value = a.value + b.value := by
  cases a <;> cases b <;> simp [Coeff.add, Coeff.value]

/-- `WireIndex` from `sy.rs`: a tagged index into one of the three gate-leg
arrays or the virtual-wire table. -/
inductive WireIndex where
  | A (i : Nat)
  | B (i : Nat)
  | C (i : Nat)
  | Virtual (i : Nat)
  deriving DecidableEq

/-- `VirtualWire` from `sy.rs`: refcount, accumulated terms, accumulated
value. -/
structure VirtualWire (F : Type) where
  refcount : Nat
  terms : List (WireIndex × Coeff F)
  value : Coeff F
  deriving DecidableEq

/-- The backward view of the structured polynomial `s(X, y)`: the growable
`a`, `b`, `c` coefficient arrays the evaluator writes into
(`structured::View<_, _, Backward>` in `sy.rs`). -/
structure BackView (F : Type) where
  a : List F
  b : List F
  c : List F
  deriving DecidableEq

/-- `VirtualTable` from `sy.rs`: the virtual-wire slots, the free list of
reusable slot indices, and the backward view into `s(X, y)`.
The free list is a stack; Rust pushes/pops at the end of a `Vec`, here we
push/pop at the head of a list (the same LIFO discipline). -/
structure VirtualTable (F : Type) where
  wires : List (VirtualWire F)
  free : List Nat
  sy : BackView F
  deriving DecidableEq

/-- `VirtualTable::add` (sy.rs:139-149): add `value.value()` into the
backward-view slot of an allocated wire, or `value` into the accumulating
`value` field of a virtual wire.  `none` models the Rust index-out-of-bounds
panic. -/
def VirtualTable.add {F : Type} [Field F] (t : VirtualTable F)
    (ix : WireIndex) (v : Coeff F) : Option (VirtualTable F) :=
  match ix with
  | .A i =>
    match t.sy.a[i]? with
    | some x => some { t with sy := { t.sy with a := t.sy.a.set i (x + v.value) } }
    | none => none
  | .B i =>
    match t.sy.b[i]? with
    | some x => some { t with sy := { t.sy with b := t.sy.b.set i (x + v.value) } }
    | none => none
  | .C i =>
    match t.sy.c[i]? with
    | some x => some { t with sy := { t.sy with c := t.sy.c.set i (x + v.value) } }
    | none => none
  | .Virtual i =>
    match t.wires[i]? with
    | some w => some { t with wires := t.wires.set i { w with value := w.value.add v } }
    | none => none

/-- Result of `VirtualTable::free`: either a Rust panic (failed `assert!` or
out-of-bounds index), fuel exhaustion of the embedding (shown unreachable
with sufficient fuel), or the updated table. -/
inductive FreeRes (F : Type) where
  | panic
  | fuel
  | ok (t : VirtualTable F)
  deriving DecidableEq

/-- The resolution loop body of `VirtualTable::free` (sy.rs:167-170): for
each stored term, add `value * coeff` to the term's target and recursively
free the target.  The recursive `free` call is passed in as `recur`. -/
def freeListGo {F : Type} [Field F]
    (recur : VirtualTable F → WireIndex → FreeRes F) (v : Coeff F) :
    List (WireIndex × Coeff F) → VirtualTable F → FreeRes F
  | [], t => .ok t
  | (w, c) :: rest, t =>
    match t.add w (v.mul c) with
    | none => .panic
    | some t₁ =>
      match recur t₁ w with
      | .ok t₂ => freeListGo recur v rest t₂
      | r => r

/-- `VirtualTable::free` (sy.rs:158-175), with explicit fuel.  Decrements the
refcount of a virtual wire (panic if it is already zero — the `assert!`),
and on reaching zero resolves it: the terms are swapped out, the accumulated
value is distributed to each term (recursively freeing each target), the
value is cleared and the slot index is pushed onto the free list.
Non-virtual wires are untouched. -/
def freeFuel {F : Type} [Field F] :
    Nat → VirtualTable F → WireIndex → FreeRes F
  | _, t, .A _ => .ok t
  | _, t, .B _ => .ok t
  | _, t, .C _ => .ok t
  | 0, _, .Virtual _ => .fuel
  | f + 1, t, .Virtual i =>
    match t.wires[i]? with
    | none => .panic
    | some w =>
      if w.refcount = 0 then .panic
      else if w.refcount = 1 then
        let t₂ : VirtualTable F :=
          { t with wires := t.wires.set i { refcount := 0, terms := [], value := w.value } }
        match freeListGo (freeFuel f) w.value w.terms t₂ with
        | .ok t₃ =>
          match t₃.wires[i]? with
          | some w₃ =>
            .ok { t₃ with wires := t₃.wires.set i { w₃ with value := .Zero },
                          free := i :: t₃.free }
          | none => .panic
        | r => r
      else .ok { t with wires := t.wires.set i { w with refcount := w.refcount - 1 } }

/-- `VirtualTable::update` (sy.rs:178-185): install the collected terms of a
freshly allocated virtual wire. -/
def VirtualTable.update {F : Type} (t : VirtualTable F) (i : Nat)
    (terms : List (WireIndex × Coeff F)) : Option (VirtualTable F) :=
  match t.wires[i]? with
  | some w => some { t with wires := t.wires.set i { w with terms := terms } }
  | none => none

/-- `VirtualTable::alloc` (sy.rs:188-208): pop a reusable slot from the free
list (asserting it is fully cleared) or grow the table; the new slot starts
with refcount 1 for the owning handle.  `none` models the failed asserts. -/
def VirtualTable.allocSlot {F : Type} [Field F] [DecidableEq F]
    (t : VirtualTable F) : Option (VirtualTable F × Nat) :=
  match t.free with
  | i :: rest =>
    match t.wires[i]? with
    | none => none
    | some w =>
      if w.refcount = 0 ∧ w.value = Coeff.Zero ∧ w.terms = [] then
        some ({ t with wires := t.wires.set i { w with refcount := 1 }, free := rest }, i)
      else none
  | [] =>
    some ({ t with wires := t.wires ++ [⟨1, [], Coeff.Zero⟩] }, t.wires.length)

/-- Sum of all refcounts in the table; the termination/fuel measure for
`freeFuel`. -/
def totalRef {F : Type} (t : VirtualTable F) : Nat :=
  (t.wires.map (fun w => w.refcount)).sum

/-- Number of references to virtual slot `k` in a term list. -/
def cntV {F : Type} (l : List (WireIndex × Coeff F)) (k : Nat) : Nat :=
  (l.filter (fun p => p.1 = WireIndex.Virtual k)).length

/-- Number of references to virtual slot `k` stored in term lists anywhere in
the table ("stored term-references"). -/
def SR {F : Type} (t : VirtualTable F) (k : Nat) : Nat :=
  (t.wires.map (fun w => cntV w.terms k)).sum

/-- `Rank` (spec §3, §6): the compile-time capacity bounds — `n()` maximum
multiplication gates, `num_coeffs()` maximum linear constraints.  The trait
lives in `crates/ragu_circuits/src/polynomials` (not under `src/`); only the
two bound accessors are consumed by the code under verification. -/
structure RankM where
  n : Nat
  numCoeffs : Nat
  deriving DecidableEq

/-- The error surface (`ragu_core::Error`, not under `src/`).  Modelled from
the spec (§7 kinds (a)-(d)) and the constructor applications visible in
`sy.rs` and `staging/builder.rs`. -/
inductive Error where
  | MultiplicationBoundExceeded (n : Nat)
  | LinearBoundExceeded (n : Nat)
  | InvalidWitness (msg : String)
  | Initialization
  deriving DecidableEq

/-- The state of the `Evaluator` driver (sy.rs:212-220).  Wire handles carry
only their `WireIndex` here; the shared table pointer is this state itself.
`ys` is ghost instrumentation: it records, for each successful
`enforce_zero`, the field element `self.current_y` that was wrapped as
`Coeff::Arbitrary(self.current_y)` and used as the constraint's multiplier
(sy.rs:341-344).  It influences nothing else. -/
structure EvalSt (F : Type) where
  multiplicationConstraints : Nat
  linearConstraints : Nat
  yInv : F
  currentY : F
  table : VirtualTable F
  availableB : Option WireIndex
  ys : List F
  deriving DecidableEq

/-- One linear-combination item as produced by circuit code against the
`LinearExpression` interface: either `add_term(wire, coeff)` (the wire named
by an environment position) or `gain(coeff)`. -/
inductive LCItem (F : Type) where
  | term (v : Nat) (c : Coeff F)
  | gain (c : Coeff F)
  deriving DecidableEq

/-- An `LCItem` with the wire reference resolved to a `WireIndex`. -/
inductive RItem (F : Type) where
  | term (w : WireIndex) (c : Coeff F)
  | gain (c : Coeff F)
  deriving DecidableEq

/-- Deep-embedded circuit commands against the `Driver` interface of the
deferred evaluator.  `cloneW`/`dropW` make the Rust `Clone`/`Drop` calls on
wire handles explicit; the environment is the collection of live handles. -/
inductive Cmd (F : Type) where
  | mulGate
  | allocW
  | addW (lc : List (LCItem F))
  | enforceZero (lc : List (LCItem F))
  | cloneW (v : Nat)
  | dropW (v : Nat)
  deriving DecidableEq

/-- Environment lookup.  Out-of-range references (which a well-typed Rust
circuit cannot even express) default to the `ONE` sentinel
`WireIndex::C(0)` (sy.rs:283-286). -/
def envGet (env : List WireIndex) (v : Nat) : WireIndex :=
  env.getD v (.C 0)

/-- Resolve the wire references of a linear combination against the
environment. -/
def resolveLC {F : Type} (env : List WireIndex) (lc : List (LCItem F)) :
    List (RItem F) :=
  lc.map (fun it =>
    match it with
    | .term v c => .term (envGet env v) c
    | .gain c => .gain c)

/-- The `TermCollector` fold (sy.rs:228-250): each `add_term` records
`(wire, coeff * gain)`; each `gain` multiplies the running gain. -/
def collectGo {F : Type} [Field F] :
    List (RItem F) → Coeff F → List (WireIndex × Coeff F)
  | [], _ => []
  | .term w c :: rest, g => (w, c.mul g) :: collectGo rest g
  | .gain c :: rest, g => collectGo rest (g.mul c)

/-- `Wire::increment_refcount` (sy.rs:70-74) applied once per stored term
reference, as `TermCollector::add_term` does.  `none` models the Rust
out-of-bounds panic. -/
def incRefs {F : Type} (t : VirtualTable F) :
    List (WireIndex × Coeff F) → Option (VirtualTable F)
  | [] => some t
  | (.Virtual k, _) :: rest =>
    match t.wires[k]? with
    | some w =>
      incRefs { t with wires := t.wires.set k { w with refcount := w.refcount + 1 } } rest
    | none => none
  | (_, _) :: rest => incRefs t rest

/-- The `TermEnforcer` fold (sy.rs:253-269): each `add_term` immediately adds
`coeff * gain` into the table at the wire's index; each `gain` multiplies
the running gain.  The initial gain is `Coeff::Arbitrary(current_y)`. -/
def enforceGo {F : Type} [Field F] (t : VirtualTable F) :
    List (RItem F) → Coeff F → Option (VirtualTable F)
  | [], _ => some t
  | .term w c :: rest, g =>
    match t.add w (c.mul g) with
    | some t₁ => enforceGo t₁ rest g
    | none => none
  | .gain c :: rest, g => enforceGo t rest (g.mul c)

/-- An evaluator configuration: driver state plus the live wire handles
(the environment).  Every environment entry is one owned `Wire` handle. -/
structure Config (F : Type) where
  st : EvalSt F
  env : List WireIndex
  deriving DecidableEq

/-- Result of one driver operation: a Rust panic, a returned error (with the
state the caller still holds, unchanged by a check-first failing call), or
the next configuration. -/
inductive StepRes (F : Type) where
  | panic
  | err (e : Error) (c : Config F)
  | ok (c : Config F)
  deriving DecidableEq

/-- `Evaluator::mul` (sy.rs:299-321): check the multiplication bound, then
push fresh zero coefficients onto the three backward-view arrays and hand
out the three gate-leg wires. -/
def mulCore {F : Type} [Field F] (R : RankM) (s : EvalSt F) :
    Except Error (EvalSt F × WireIndex × WireIndex × WireIndex) :=
  let idx := s.multiplicationConstraints
  if idx = R.n then .error (.MultiplicationBoundExceeded R.n)
  else
    let t := s.table
    let t' : VirtualTable F :=
      { t with sy := { a := t.sy.a ++ [0], b := t.sy.b ++ [0], c := t.sy.c ++ [0] } }
    .ok ({ s with multiplicationConstraints := idx + 1, table := t' },
         .A idx, .B idx, .C idx)

/-- One step of the deferred evaluator on a command, mirroring the
`Driver` impl of `Evaluator` (sy.rs:279-349) together with the handle
`Clone` (sy.rs:77-88) and `Drop` (sy.rs:90-96) impls. -/
def stepCmd {F : Type} [Field F] [DecidableEq F] (R : RankM) (c : Config F) :
    Cmd F → StepRes F
  | .mulGate =>
    match mulCore R c.st with
    | .error e => .err e c
    | .ok (s', a, b, cw) => .ok ⟨s', c.env ++ [a, b, cw]⟩
  | .allocW =>
    -- sy.rs:288-297: reuse the available `b` leg, else allocate a gate,
    -- stash its `b` leg and return its `a` leg (the `c` leg is dropped
    -- immediately; dropping a non-virtual wire is a no-op).
    match c.st.availableB with
    | some w => .ok ⟨{ c.st with availableB := none }, c.env ++ [w]⟩
    | none =>
      match mulCore R c.st with
      | .error e => .err e c
      | .ok (s', a, b, _) =>
        .ok ⟨{ s' with availableB := some b }, c.env ++ [a]⟩
  | .addW lc =>
    -- sy.rs:323-332: allocate a virtual slot, collect the terms (each
    -- stored reference incrementing its target's refcount), install them.
    match c.st.table.allocSlot with
    | none => .panic
    | some (t₁, i) =>
      let terms := collectGo (resolveLC c.env lc) Coeff.One
      match incRefs t₁ terms with
      | none => .panic
      | some t₂ =>
        match t₂.update i terms with
        | none => .panic
        | some t₃ => .ok ⟨{ c.st with table := t₃ }, c.env ++ [.Virtual i]⟩
  | .enforceZero lc =>
    -- sy.rs:334-349: check the linear bound, run the enforcer fold with
    -- initial gain `Arbitrary(current_y)`, then step `current_y` by `y⁻¹`.
    if c.st.linearConstraints = R.numCoeffs then
      .err (.LinearBoundExceeded R.numCoeffs) c
    else
      match enforceGo c.st.table (resolveLC c.env lc) (.Arbitrary c.st.currentY) with
      | none => .panic
      | some t' =>
        .ok ⟨{ c.st with linearConstraints := c.st.linearConstraints + 1,
                         table := t',
                         currentY := c.st.currentY * c.st.yInv,
                         ys := c.st.ys ++ [c.st.currentY] }, c.env⟩
  | .cloneW v =>
    -- sy.rs:77-88: cloning a virtual handle increments the refcount.
    match envGet c.env v with
    | .Virtual k =>
      match c.st.table.wires[k]? with
      | none => .panic
      | some w =>
        .ok ⟨{ c.st with table :=
                 { c.st.table with wires :=
                     c.st.table.wires.set k { w with refcount := w.refcount + 1 } } },
              c.env ++ [.Virtual k]⟩
    | w => .ok ⟨c.st, c.env ++ [w]⟩
  | .dropW v =>
    -- sy.rs:90-96: dropping a handle frees its wire.
    if v < c.env.length then
      match freeFuel (totalRef c.st.table + 1) c.st.table (envGet c.env v) with
      | .ok t' => .ok ⟨{ c.st with table := t' }, c.env.eraseIdx v⟩
      | _ => .panic
    else .ok c

/-- Result of running a command sequence (errors propagate out of `eval` via
`?`, discarding the evaluator as Rust does). -/
inductive RunSt (F : Type) where
  | panic
  | err (e : Error)
  | ok (c : Config F)
  deriving DecidableEq

/-- Run a command sequence through the deferred evaluator. -/
def runCmds {F : Type} [Field F] [DecidableEq F] (R : RankM) :
    List (Cmd F) → Config F → RunSt F
  | [], c => .ok c
  | cmd :: rest, c =>
    match stepCmd R c cmd with
    | .panic => .panic
    | .err e _ => .err e
    | .ok c' => runCmds R rest c'

/-- Drop every remaining wire handle, in order — the scope exit at the end of
`eval`'s inner block (sy.rs:427). -/
def dropEnv {F : Type} [Field F] :
    List WireIndex → VirtualTable F → Option (VirtualTable F)
  | [], t => some t
  | w :: rest, t =>
    match freeFuel (totalRef t + 1) t w with
    | .ok t' => dropEnv rest t'
    | _ => none

/-- Result of `evalInner`: the evaluator state after the circuit ran, the
trailing constraints were enforced, the linear-count assert passed and all
wire handles were dropped (but before the final zero-leak assert). -/
inductive EvalRes (F : Type) where
  | panic
  | err (e : Error)
  | ok (s : EvalSt F)
  deriving DecidableEq

/-- The initial evaluator state built by `eval` (sy.rs:399-407):
`y_inv = y⁻¹`, `current_y = y^(q-1)` for `q = num_linear_constraints`
(`invert().expect(..)` is total here since `eval` only reaches this point
for `y ≠ 0`). -/
def evalInit {F : Type} [Field F] (y : F) (q : Nat) : EvalSt F :=
  { multiplicationConstraints := 0
    linearConstraints := 0
    yInv := y⁻¹
    currentY := y ^ (q - 1)
    table := { wires := [], free := [], sy := { a := [], b := [], c := [] } }
    availableB := none
    ys := [] }

/-- The command sequence `eval` executes (sy.rs:409-425): the key gate
(whose `b` leg is dropped at the binding `(key_wire, _, one)`), the key
constraint `key_wire - key·one = 0`, the circuit itself, one `enforce_zero`
per circuit output, and the final `enforce_zero` on `one`.  After the key
gate the environment is `[key_wire, one] = [A 0, C 0]`, so the fixed
constraints refer to positions 0 and 1; the circuit's commands index past
them. -/
def evalCmds {F : Type} (prog : List (Cmd F)) (outputs : List Nat) (key : F) :
    List (Cmd F) :=
  [Cmd.mulGate, Cmd.dropW 1,
   Cmd.enforceZero [LCItem.term 0 Coeff.One, LCItem.term 1 (.NegativeArbitrary key)]]
  ++ prog
  ++ outputs.map (fun v => Cmd.enforceZero [LCItem.term v Coeff.One])
  ++ [Cmd.enforceZero [LCItem.term 1 Coeff.One]]

/-- `eval` (sy.rs:377-437) for `y ≠ 0`, up to and including the
`assert_eq!(evaluator.linear_constraints, num_linear_constraints)` check
and the scope-end drop of every wire handle, but stopping just before the
final zero-leak assert. -/
def evalInner {F : Type} [Field F] [DecidableEq F] (R : RankM)
    (prog : List (Cmd F)) (outputs : List Nat) (y key : F) (q : Nat) :
    EvalRes F :=
  match runCmds R (evalCmds prog outputs key) ⟨evalInit y q, []⟩ with
  | .panic => .panic
  | .err e => .err e
  | .ok c =>
    if c.st.linearConstraints = q then
      match dropEnv c.env c.st.table with
      | some t' => .ok { c.st with table := t' }
      | none => .panic
    else .panic

/-- Result of the full `eval`: panic, error, or the structured polynomial
(its backward view). -/
inductive PolyRes (F : Type) where
  | panic
  | err (e : Error)
  | ok (sy : BackView F)
  deriving DecidableEq

/-- The full `eval` (sy.rs:377-437): the `y = 0` early return pushes the
single `one` coefficient and builds no virtual table at all; otherwise the
evaluator runs and the zero-leak `assert_eq!(free.len(), wires.len())`
(sy.rs:433) is checked — a failure is a panic, not a returned error. -/
def evalModel {F : Type} [Field F] [DecidableEq F] (R : RankM)
    (prog : List (Cmd F)) (outputs : List Nat) (y key : F) (q : Nat) :
    PolyRes F :=
  if y = 0 then .ok { a := [], b := [], c := [1] }
  else
    match evalInner R prog outputs y key q with
    | .panic => .panic
    | .err e => .err e
    | .ok s =>
      if s.table.free.length = s.table.wires.length then .ok s.table.sy
      else .panic

/-! ## Staged witness builder (`staging/builder.rs`)

The `Driver` trait, the counting emulator `Emulator::counter()`, the gadget
traversal `Gadget::map`/`num_wires`, and `Driver::enforce_equal` live in
`ragu_core` outside `src/`; they are modelled from the spec (§4.4, §4.1):
a gadget is its wire traversal sequence, both the counting pass and the
injection passes walk that sequence in the same order, and `enforce_equal`
emits one equality constraint. -/

/-- Modelled from the spec: an abstract underlying driver, reduced to the
observables the staging claims are about — the allocated wires (with their
values), the equality constraints emitted by `enforce_equal` as
(live, reserved) id pairs, and a count of all other constraints. -/
structure UDriver (F : Type) where
  wireVals : List F
  eqPairs : List (Nat × Nat)
  internalConstraints : Nat
  deriving DecidableEq

/-- Modelled from the spec: `Driver::alloc` on the underlying driver;
returns the id of the new wire. -/
def UDriver.allocWire {F : Type} (d : UDriver F) (v : F) : UDriver F × Nat :=
  ({ d with wireVals := d.wireVals ++ [v] }, d.wireVals.length)

/-- Modelled from the spec: `Driver::enforce_equal`, recording one equality
constraint between a live wire and a reserved stage wire. -/
def UDriver.enforceEqual {F : Type} (d : UDriver F) (live reserved : Nat) :
    UDriver F :=
  { d with eqPairs := d.eqPairs ++ [(live, reserved)] }

/-- Modelled from the spec: a `Stage` implementation (the `Stage` trait is
external to `src/`).  `values` is the declared maximum (`Stage::values()`),
`countWires` is the wire count that `stage.witness(&mut Emulator::counter(),
Empty)?.num_wires()` reports during reservation, `liveVals` are the wires the
stage's witness allocates when run on a real driver, `gadgetIdx` is the
output gadget's wire traversal (as indices into the stage's own
allocations), and `internalCs` counts the constraints the witness itself
enforces.  `countWires` is kept separate from the gadget traversal length
because the claims under test concern exactly the case where the counting
pass and the actual execution disagree. -/
structure StageM (F : Type) where
  values : Nat
  numMultiplications : Nat
  countWires : Nat
  liveVals : List F
  gadgetIdx : List Nat
  internalCs : Nat
  deriving DecidableEq

/-- Modelled from the spec: running the stage's witness on the real driver:
its wires are allocated on the driver, its internal constraints are
enforced, and the computed (live) gadget's traversal is returned. -/
def StageM.witnessOn {F : Type} (s : StageM F) (d : UDriver F) :
    UDriver F × List Nat :=
  let base := d.wireVals.length
  ({ d with wireVals := d.wireVals ++ s.liveVals,
            internalConstraints := d.internalConstraints + s.internalCs },
   s.gadgetIdx.map (fun i => base + i))

/-- `StageGuard` (builder.rs:344-348): the stage and its pre-reserved wire
ids. -/
structure StageGuardM (F : Type) where
  stage : StageM F
  stageWires : List Nat
  deriving DecidableEq

/-- `StageBuilder::configure_stage` (builder.rs:404-440): count the stage's
wires with the counting emulator, check the declared bound, allocate that
many wires on the underlying driver with `Coeff::Zero` placeholder values,
and return the guard. -/
def configureStage {F : Type} [Field F] (d : UDriver F) (s : StageM F) :
    Except Error (StageGuardM F × UDriver F) :=
  let numWires := s.countWires
  if numWires > s.values then
    .error (.MultiplicationBoundExceeded s.numMultiplications)
  else
    let base := d.wireVals.length
    .ok (⟨s, (List.range numWires).map (fun i => base + i)⟩,
         { d with wireVals := d.wireVals ++ List.replicate numWires (Coeff.Zero.value) })

/-- `EnforcingInjector::convert_wire` (builder.rs:299-312) folded over the
computed gadget's traversal: take the next reserved stage wire (error
`InvalidWitness("not enough stage wires")` if the iterator is exhausted),
enforce equality between the live wire and the stage wire, and substitute
the stage wire into the output. -/
def enforceInject {F : Type} (d : UDriver F) :
    List Nat → List Nat → Except Error (UDriver F × List Nat)
  | [], _ => .ok (d, [])
  | _ :: _, [] => .error (.InvalidWitness ("not enough stage wires"))
  | lw :: lrest, sw :: srest =>
    match enforceInject (d.enforceEqual lw sw) lrest srest with
    | .ok (d', out) => .ok (d', sw :: out)
    | .error e => .error e

/-- `StageWireInjector::convert_wire` (builder.rs:320-331) folded over the
computed gadget's traversal: substitute the next reserved stage wire, with
no constraint; error if the iterator is exhausted.  `n` is the number of
wires the traversal visits. -/
def takeInject : List Nat → Nat → Except Error (List Nat)
  | _, 0 => .ok []
  | [], _ + 1 => .error (.InvalidWitness ("not enough stage wires"))
  | sw :: srest, n + 1 =>
    match takeInject srest n with
    | .ok out => .ok (sw :: out)
    | .error e => .error e

/-- `StageGuard::enforced` (builder.rs:356-371): run the stage's witness on
the real driver, then map the computed gadget through the
`EnforcingInjector`. -/
def StageGuardM.enforced {F : Type} (g : StageGuardM F) (d : UDriver F) :
    Except Error (UDriver F × List Nat) :=
  enforceInject (g.stage.witnessOn d).1 (g.stage.witnessOn d).2 g.stageWires

/-- `StageGuard::unenforced` (builder.rs:378-392): run the stage's witness on
a wireless emulator (the `_dr` parameter is unused — the underlying driver
is not touched at all), then map the computed gadget through the
`StageWireInjector`.  On the wireless emulator the computed gadget has the
same traversal shape, with unit wires. -/
def StageGuardM.unenforced {F : Type} (g : StageGuardM F) (d : UDriver F) :
    Except Error (UDriver F × List Nat) :=
  match takeInject g.stageWires g.stage.gadgetIdx.length with
  | .ok out => .ok (d, out)
  | .error e => .error e

/-- Reserving a sequence of stages in order (repeated
`configure_stage`/`add_stage`, builder.rs:442-466). -/
def reserveAll {F : Type} [Field F] (d : UDriver F) :
    List (StageM F) → Except Error (List (StageGuardM F) × UDriver F)
  | [] => .ok ([], d)
  | s :: rest =>
    match configureStage d s with
    | .error e => .error e
    | .ok (g, d') =>
      match reserveAll d' rest with
      | .ok (gs, d'') => .ok (g :: gs, d'')
      | .error e => .error e

/-! ## Routine handling (`Driver::routine` implementations)

`Routine::predict`/`execute` and the gadget machinery live in `ragu_core`
outside `src/`.  A routine is modelled by what its generic `predict` and
`execute` monomorphize to at each driver: at a wired emulator the input is a
wire carrying a (maybe-)value, at a wireless emulator it is a unit wire.
Input/output gadget kinds are specialised to a single wire. -/

/-- `MaybeWired` (emulator.rs:70-76) with a witness always present: the
wire representation of the wired emulator. -/
inductive WiredWire (F : Type) where
  | one
  | arbitrary (v : F)
  deriving DecidableEq

/-- `Prediction` (from `ragu_core::routines`): a known output plus
auxiliary data, or just auxiliary data. -/
inductive PredictionT (W A : Type) where
  | known (o : W) (a : A)
  | unknown (a : A)

/-- The auxiliary data a prediction carries, used by `execute` in either
case (`Prediction::Known(_, aux) | Prediction::Unknown(aux)`). -/
def PredictionT.aux {W A : Type} : PredictionT W A → A
  | .known _ a => a
  | .unknown a => a

/-- Modelled from the spec: one `Routine` implementation, monomorphized at
the two emulator drivers: `predictWired`/`executeWired` are what its
generic `predict`/`execute` do when handed the wired emulator and a wired
input wire; `predictWireless`/`executeWireless` are the same functions
handed a wireless emulator and its unit input wire. -/
structure RoutineEm (F A : Type) where
  predictWired : WiredWire F → PredictionT (WiredWire F) A
  predictWireless : Unit → PredictionT Unit A
  executeWired : WiredWire F → A → WiredWire F
  executeWireless : Unit → A → Unit

/-- `Emulator<Wired<_, _>>::routine` (emulator.rs:358-369): the prediction
pass runs on `self` — the wired emulator itself — and a `Known` output
short-circuits execution. -/
def wiredRoutine {F A : Type} (r : RoutineEm F A) (input : WiredWire F) :
    WiredWire F :=
  match r.predictWired input with
  | .known o _ => o
  | .unknown a => r.executeWired input a

/-- `Emulator<Wireless<_, _>>::routine` (emulator.rs:303-315): the
prediction pass runs on `self`, and a `Known` output short-circuits
execution. -/
def wirelessRoutine {F A : Type} (r : RoutineEm F A) (input : Unit) : Unit :=
  match r.predictWireless input with
  | .known o _ => o
  | .unknown a => r.executeWireless input a

/-- Modelled from the spec: a routine monomorphized for the deferred
evaluator: `predictWireless` is its generic `predict` at a wireless
emulator (the `dummy` of sy.rs:359, whose input is the gadget mapped to
unit wires), and `executeSy` is its `execute` on the evaluator itself. -/
structure RoutineSy (F A : Type) [Field F] where
  predictWireless : Unit → PredictionT Unit A
  executeSy : EvalSt F → A → Except Error (EvalSt F × WireIndex)

/-- `Evaluator::routine` (sy.rs:351-370): stash `available_b`, run the
prediction pass on a fresh throwaway wireless emulator with the input
mapped to unit wires, then — in the `Known` and `Unknown` arms alike —
execute the routine on `self` with the prediction's aux data, and restore
`available_b` on success (an error propagates out via `?` without
restoring, as the evaluator is abandoned). -/
def syRoutine {F A : Type} [Field F] (r : RoutineSy F A) (s : EvalSt F) :
    Except Error (EvalSt F × WireIndex) :=
  let tmp := s.availableB
  let s₁ : EvalSt F := { s with availableB := none }
  let a := (r.predictWireless ()).aux
  match r.executeSy s₁ a with
  | .ok (s₂, out) => .ok ({ s₂ with availableB := tmp }, out)
  | .error e => .error e

/-! ## Helper lemmas: staging injectors -/

theorem enforceInject_eq {F : Type} (live : List Nat) :
    ∀ (sw : List Nat) (d : UDriver F),
    enforceInject d live sw =
      if live.length ≤ sw.length then
        .ok ({ d with eqPairs := d.eqPairs ++ live.zip sw }, sw.take live.length)
      else .error (.InvalidWitness ("not enough stage wires")) := by
  induction live with
  | nil =>
    intro sw d
    simp [enforceInject]
  | cons lw lrest ih =>
    intro sw d
    cases sw with
    | nil => simp [enforceInject]
    | cons sw₀ srest =>
      simp only [enforceInject, UDriver.enforceEqual, ih]
      by_cases h : lrest.length ≤ srest.length
      · simp [h, List.zip_cons_cons, List.append_assoc]
      · simp [h]

theorem takeInject_eq (n : Nat) :
    ∀ sw : List Nat,
    takeInject sw n =
      if n ≤ sw.length then .ok (sw.take n)
      else .error (.InvalidWitness ("not enough stage wires")) := by
  induction n with
  | zero => intro sw; simp [takeInject]
  | succ m ih =>
    intro sw
    cases sw with
    | nil => simp [takeInject]
    | cons sw₀ srest =>
      simp only [takeInject, ih]
      by_cases h : m ≤ srest.length
      · simp [h]
      · simp [h]

theorem witnessOn_fst {F : Type} (s : StageM F) (d : UDriver F) :
    (s.witnessOn d).1 =
      { d with wireVals := d.wireVals ++ s.liveVals,
               internalConstraints := d.internalConstraints + s.internalCs } := rfl

theorem witnessOn_snd {F : Type} (s : StageM F) (d : UDriver F) :
    (s.witnessOn d).2 = s.gadgetIdx.map (fun i => d.wireVals.length + i) := rfl

theorem mem_zip_snd_take {α β : Type} :
    ∀ (l₁ : List α) (l₂ : List β) (p : α × β),
      p ∈ l₁.zip l₂ → p.2 ∈ l₂.take l₁.length := by
  intro l₁
  induction l₁ with
  | nil => intro l₂ p h; simp at h
  | cons a l ih =>
    intro l₂ p h
    cases l₂ with
    | nil => simp at h
    | cons b l₂ =>
      rw [List.zip_cons_cons, List.mem_cons] at h
      rcases h with h | h
      · subst h; simp
      · simpa using List.mem_cons_of_mem b (ih l₂ p h)

theorem mem_zip_fst {α β : Type} :
    ∀ (l₁ : List α) (l₂ : List β) (p : α × β), p ∈ l₁.zip l₂ → p.1 ∈ l₁ := by
  intro l₁
  induction l₁ with
  | nil => intro l₂ p h; simp at h
  | cons a l ih =>
    intro l₂ p h
    cases l₂ with
    | nil => simp at h
    | cons b l₂ =>
      rw [List.zip_cons_cons, List.mem_cons] at h
      rcases h with h | h
      · subst h; simp
      · exact List.mem_cons_of_mem a (ih l₂ p h)

theorem mem_drop_map_range {α : Type} (f : Nat → α) (n m : Nat) (x : α)
    (h : x ∈ ((List.range n).map f).drop m) : ∃ i, m ≤ i ∧ i < n ∧ x = f i := by
  rw [← List.map_drop] at h
  obtain ⟨i, hi, hfi⟩ := List.mem_map.mp h
  obtain ⟨j, hj, hij⟩ := List.mem_iff_getElem.mp hi
  have hjlen : j < n - m := by simpa using hj
  have hieq : i = m + j := by
    rw [List.getElem_drop, List.getElem_range] at hij
    exact hij.symm
  exact ⟨i, by omega, by omega, hfi.symm⟩

/-! ## C6, C7, C10 and C9 -/

/-- **C6** (stage wire conservation).  (1) A successful reservation call
allocates exactly the counted number of wires on the underlying driver and
changes nothing else; (2) reserving a sequence of stages allocates the sum
of the counted needs; (3) `unenforced` performs no operation at all on the
underlying driver; (4) a successful `enforced` adds exactly one equality
constraint per wire of the live computed gadget. -/
theorem stage_wire_conservation {F : Type} [Field F] :
    (∀ (d : UDriver F) (s : StageM F), s.countWires ≤ s.values →
      ∃ g d', configureStage d s = .ok (g, d') ∧
        d'.wireVals.length = d.wireVals.length + s.countWires ∧
        g.stageWires.length = s.countWires ∧
        d'.eqPairs = d.eqPairs ∧ d'.internalConstraints = d.internalConstraints) ∧
    (∀ (d : UDriver F) (stages : List (StageM F)),
      (∀ s ∈ stages, s.countWires ≤ s.values) →
      ∃ gs d', reserveAll d stages = .ok (gs, d') ∧
        d'.wireVals.length =
          d.wireVals.length + (stages.map (fun s => s.countWires)).sum) ∧
    (∀ (g : StageGuardM F) (d d' : UDriver F) (out : List Nat),
      g.unenforced d = .ok (d', out) → d' = d) ∧
    (∀ (g : StageGuardM F) (d d' : UDriver F) (out : List Nat),
      g.enforced d = .ok (d', out) →
        d'.eqPairs.length = d.eqPairs.length + g.stage.gadgetIdx.length) := by
  refine ⟨?_, ?_, ?_, ?_⟩
  · intro d s h
    refine ⟨⟨s, (List.range s.countWires).map (fun i => d.wireVals.length + i)⟩,
      { d with wireVals := d.wireVals ++ List.replicate s.countWires (Coeff.Zero.value) },
      ?_, ?_, ?_, rfl, rfl⟩
    · simp [configureStage, Nat.not_lt.mpr h]
    · simp
    · simp
  · intro d stages
    induction stages generalizing d with
    | nil => intro _; exact ⟨[], d, rfl, by simp⟩
    | cons s rest ih =>
      intro h
      have hs : s.countWires ≤ s.values := h s (by simp)
      obtain ⟨gs, d'', hrun, hlen⟩ :=
        ih { d with wireVals := d.wireVals ++ List.replicate s.countWires (Coeff.Zero.value) }
          (fun x hx => h x (by simp [hx]))
      refine ⟨⟨s, (List.range s.countWires).map (fun i => d.wireVals.length + i)⟩ :: gs,
        d'', ?_, ?_⟩
      · simp only [reserveAll, configureStage, Nat.not_lt.mpr hs, if_false, hrun]
      · simp at hlen
        simp [hlen]
        ring
  · intro g d d' out h
    unfold StageGuardM.unenforced at h
    rcases h' : takeInject g.stageWires g.stage.gadgetIdx.length with out' | e <;>
      simp [h'] at h
    exact h.1.symm
  · intro g d d' out h
    unfold StageGuardM.enforced at h
    rw [enforceInject_eq] at h
    by_cases hle : (g.stage.witnessOn d).2.length ≤ g.stageWires.length
    · rw [if_pos hle] at h
      cases h
      have h2 : (g.stage.witnessOn d).2.length = g.stage.gadgetIdx.length := by
        rw [witnessOn_snd]; simp
      have h3 : min g.stage.gadgetIdx.length g.stageWires.length =
          g.stage.gadgetIdx.length := Nat.min_eq_left (h2 ▸ hle)
      simp only [witnessOn_fst, List.length_append, List.length_zip, h2, h3]
    · rw [if_neg hle] at h
      cases h

/-- Witness for C6 at a concrete stage. -/
theorem stage_wire_conservation_witness :
    ∃ g d', configureStage (F := ℚ) ⟨[], [], 0⟩ ⟨2, 0, 2, [], [], 0⟩ = .ok (g, d') ∧
      d'.wireVals.length = 0 + 2 ∧ g.stageWires.length = 2 ∧
      d'.eqPairs = [] ∧ d'.internalConstraints = 0 :=
  stage_wire_conservation.1 ⟨[], [], 0⟩ ⟨2, 0, 2, [], [], 0⟩ (by decide)

/-- **C7**.  A successful `enforced` returns the pre-reserved stage wires
(at the corresponding traversal positions) as the gadget, with each live
wire equality-constrained to the reserved wire at the same position; it
fails with the invalid-witness (insufficient-stage-wires) error exactly when
the live traversal produces more wires than were reserved. -/
theorem enforced_returns_reserved_wires {F : Type} [Field F] :
    (∀ (g : StageGuardM F) (d : UDriver F),
      g.stage.gadgetIdx.length ≤ g.stageWires.length →
      g.enforced d =
        .ok ({ (g.stage.witnessOn d).1 with
                 eqPairs := (g.stage.witnessOn d).1.eqPairs ++
                   (g.stage.witnessOn d).2.zip g.stageWires },
             g.stageWires.take g.stage.gadgetIdx.length)) ∧
    (∀ (g : StageGuardM F) (d : UDriver F),
      g.stageWires.length < g.stage.gadgetIdx.length →
      g.enforced d = .error (.InvalidWitness ("not enough stage wires"))) := by
  constructor
  · intro g d h
    unfold StageGuardM.enforced
    rw [enforceInject_eq]
    rw [if_pos (by simpa [witnessOn_snd] using h)]
    simp [witnessOn_snd]
  · intro g d h
    unfold StageGuardM.enforced
    rw [enforceInject_eq]
    rw [if_neg (by simp [witnessOn_snd]; omega)]

/-- **C10** (implicit).  The invalid-witness error of the injectors is
raised only when the reserved-wire iterator is exhausted before the gadget
traversal completes; a traversal shorter than the reservation succeeds, the
surplus reserved wires are never consumed (they appear in no new equality
constraint and not in the returned gadget) and they keep the zero
placeholder values from reservation. -/
theorem stage_surplus_tolerated {F : Type} [Field F] :
    (∀ (g : StageGuardM F) (d : UDriver F) (e : Error),
      g.enforced d = .error e ↔
        (g.stageWires.length < g.stage.gadgetIdx.length ∧
         e = .InvalidWitness ("not enough stage wires"))) ∧
    (∀ (g : StageGuardM F) (d : UDriver F) (e : Error),
      g.unenforced d = .error e ↔
        (g.stageWires.length < g.stage.gadgetIdx.length ∧
         e = .InvalidWitness ("not enough stage wires"))) ∧
    (∀ (d : UDriver F) (s : StageM F) (g : StageGuardM F) (d₁ d₂ : UDriver F)
       (out : List Nat),
      configureStage d s = .ok (g, d₁) →
      s.gadgetIdx.length ≤ s.countWires →
      g.enforced d₁ = .ok (d₂, out) →
      out = g.stageWires.take s.gadgetIdx.length ∧
      (∀ w ∈ g.stageWires.drop s.gadgetIdx.length,
        d₂.wireVals[w]? = some 0 ∧
        ∀ p ∈ d₂.eqPairs.drop d₁.eqPairs.length, p.1 ≠ w ∧ p.2 ≠ w)) := by
  have hsnd : ∀ (g : StageGuardM F) (d : UDriver F),
      (g.stage.witnessOn d).2.length = g.stage.gadgetIdx.length := by
    intro g d; rw [witnessOn_snd]; simp
  refine ⟨?_, ?_, ?_⟩
  · intro g d e
    unfold StageGuardM.enforced
    rw [enforceInject_eq]
    by_cases hle : (g.stage.witnessOn d).2.length ≤ g.stageWires.length
    · rw [if_pos hle]
      rw [hsnd] at hle
      simp [Nat.not_lt.mpr hle]
    · rw [if_neg hle]
      rw [hsnd] at hle
      simp [Nat.lt_of_not_le hle, eq_comm]
  · intro g d e
    unfold StageGuardM.unenforced
    rw [takeInject_eq]
    by_cases hle : g.stage.gadgetIdx.length ≤ g.stageWires.length
    · rw [if_pos hle]
      simp [Nat.not_lt.mpr hle]
    · rw [if_neg hle]
      simp [Nat.lt_of_not_le hle, eq_comm]
  · intro d s g d₁ d₂ out hconf hlen henf
    unfold configureStage at hconf
    by_cases hb : s.countWires > s.values
    · rw [if_pos hb] at hconf; cases hconf
    rw [if_neg hb] at hconf
    simp only [Except.ok.injEq, Prod.mk.injEq] at hconf
    obtain ⟨hg, hd⟩ := hconf
    have hgs : g.stage = s := by rw [← hg]
    have hgw : g.stageWires =
        (List.range s.countWires).map (fun i => d.wireVals.length + i) := by rw [← hg]
    have hd₁v : d₁.wireVals =
        d.wireVals ++ List.replicate s.countWires (Coeff.Zero.value) := by rw [← hd]
    have hd₁e : d₁.eqPairs = d.eqPairs := by rw [← hd]
    have hd₁len : d₁.wireVals.length = d.wireVals.length + s.countWires := by
      rw [hd₁v]; simp
    have hlive : (g.stage.witnessOn d₁).2.length = s.gadgetIdx.length := by
      rw [hsnd, hgs]
    have hswlen : g.stageWires.length = s.countWires := by rw [hgw]; simp
    unfold StageGuardM.enforced at henf
    rw [enforceInject_eq, if_pos (by rw [hlive, hswlen]; exact hlen)] at henf
    simp only [Except.ok.injEq, Prod.mk.injEq] at henf
    obtain ⟨hd₂, hout⟩ := henf
    constructor
    · rw [← hout, hlive]
    intro w hw
    -- the surplus wire is `base + i` for some `gadgetIdx.length ≤ i < countWires`
    rw [hgw] at hw
    obtain ⟨i, hmi, hin, hwi⟩ := mem_drop_map_range _ _ _ _ hw
    subst hwi
    constructor
    · -- zero placeholder value retained
      have hv : d₂.wireVals = d₁.wireVals ++ g.stage.liveVals := by
        rw [← hd₂, witnessOn_fst]
      rw [hv, hd₁v]
      rw [List.getElem?_append_left (by simp; omega)]
      rw [List.getElem?_append_right (by omega)]
      have hidx : d.wireVals.length + i - d.wireVals.length = i := by omega
      rw [hidx]
      simp [Coeff.value, hin]
    · -- not consumed by any new equality constraint
      intro p hp
      have he : d₂.eqPairs =
          d₁.eqPairs ++ ((g.stage.witnessOn d₁).2.zip g.stageWires) := by
        rw [← hd₂, witnessOn_fst]
      rw [he, List.drop_left] at hp
      constructor
      · -- live wires sit strictly above every reserved wire
        have h1 := mem_zip_fst _ _ _ hp
        rw [witnessOn_snd] at h1
        obtain ⟨x, hx, hpx⟩ := List.mem_map.mp h1
        rw [← hpx, hd₁len]
        omega
      · -- the consumed reserved wires form a strict prefix
        have h2 := mem_zip_snd_take _ _ _ hp
        rw [hlive, hgw, ← List.map_take, List.take_range] at h2
        obtain ⟨k, hk, hpk⟩ := List.mem_map.mp h2
        rw [List.mem_range] at hk
        rw [← hpk]
        have hkg : k < s.gadgetIdx.length :=
          lt_of_lt_of_le hk (min_le_left _ _)
        omega

/-- Concrete data for the C10 witness: a stage that reserves two wires but
whose gadget traversal visits only one. -/
def c10s : StageM ℚ := ⟨2, 0, 2, [5], [0], 1⟩

def c10g : StageGuardM ℚ := ⟨c10s, [0, 1]⟩

def c10d₁ : UDriver ℚ := ⟨[0, 0], [], 0⟩

def c10d₂ : UDriver ℚ := ⟨[0, 0, 5], [(2, 0)], 1⟩

/-- Witness for C10: the surplus reserved wire `1` keeps its zero placeholder
and is never constrained. -/
theorem stage_surplus_tolerated_witness :
    ([0] : List Nat) = c10g.stageWires.take c10s.gadgetIdx.length ∧
    (∀ w ∈ c10g.stageWires.drop c10s.gadgetIdx.length,
      c10d₂.wireVals[w]? = some 0 ∧
      ∀ p ∈ c10d₂.eqPairs.drop c10d₁.eqPairs.length, p.1 ≠ w ∧ p.2 ≠ w) :=
  stage_surplus_tolerated.2.2 ⟨[], [], 0⟩ c10s c10g c10d₁ c10d₂ [0]
    (by rfl) (by decide) (by rfl)

/-- **C9** (y = 0 fixed point).  With `y = 0`, `eval` returns the polynomial
whose only backward coefficient is the `one` slot set to the multiplicative
identity, for every circuit, every mesh key, and every rank — no synthesis
and no virtual-wire machinery runs. -/
theorem eval_y_zero_fixed_point {F : Type} [Field F] [DecidableEq F] :
    ∀ (R : RankM) (prog : List (Cmd F)) (outputs : List Nat) (key : F) (q : Nat),
      evalModel R prog outputs 0 key q = .ok ⟨[], [], [1]⟩ := by
  intro R prog outputs key q
  simp [evalModel]

/-! ## C8: which driver runs the prediction pass -/

/-- A legal routine whose generic `predict` returns its input unchanged as a
`Known` output (so at the wired emulator the prediction is the wired input
wire itself). -/
def probeKnown : RoutineEm ℚ Nat where
  predictWired := fun w => .known w 0
  predictWireless := fun _ => .unknown 0
  executeWired := fun _ _ => .one
  executeWireless := fun _ _ => ()

/-- Identical to `probeKnown` on a wireless driver and in both `execute`
paths, but its `predict` at the wired emulator reports `Unknown`. -/
def probeUnknown : RoutineEm ℚ Nat where
  predictWired := fun _ => .unknown 0
  predictWireless := fun _ => .unknown 0
  executeWired := fun _ _ => .one
  executeWireless := fun _ _ => ()

/-- **C8 counterexample.**  The claim says every `routine` implementation —
including both emulator modes — runs the prediction pass on a throwaway
wireless sub-emulator distinct from the driver itself.  If that held for the
wired emulator, its result could depend on the routine only through the
routine's behaviour at a wireless driver (`predictWireless`) and its
execute paths.  The two probe routines agree on all of those, yet
`Emulator<Wired>::routine` distinguishes them: emulator.rs:365 passes
`self` — the wired emulator — to `predict`. -/
theorem routine_prediction_counterexample :
    probeKnown.predictWireless = probeUnknown.predictWireless ∧
    probeKnown.executeWired = probeUnknown.executeWired ∧
    probeKnown.executeWireless = probeUnknown.executeWireless ∧
    wiredRoutine probeKnown (.arbitrary 5) = .arbitrary 5 ∧
    wiredRoutine probeUnknown (.arbitrary 5) = .one ∧
    wiredRoutine probeKnown (.arbitrary 5) ≠
      wiredRoutine probeUnknown (.arbitrary 5) := by
  refine ⟨rfl, rfl, rfl, rfl, rfl, ?_⟩
  simp [wiredRoutine, probeKnown, probeUnknown]

/-- **C8 amended.**  The deferred evaluator runs the prediction pass on a
fresh throwaway wireless sub-emulator (with the input mapped to unit wires)
and then always executes the routine on itself, restoring `available_b` on
success; the two emulator modes run the prediction pass on the driver
itself (`self`) and skip execution when the prediction is `Known`. -/
theorem routine_prediction_drivers {F A : Type} [Field F] :
    (∀ (r : RoutineEm F A) (i o : WiredWire F) (a : A),
      r.predictWired i = .known o a → wiredRoutine r i = o) ∧
    (∀ (r : RoutineEm F A) (i : WiredWire F) (a : A),
      r.predictWired i = .unknown a → wiredRoutine r i = r.executeWired i a) ∧
    (∀ (r : RoutineEm F A) (o : Unit) (a : A),
      r.predictWireless () = .known o a → wirelessRoutine r () = o) ∧
    (∀ (r : RoutineSy F A) (s : EvalSt F) (e : Error),
      (∀ s' a, r.executeSy s' a = .error e) → syRoutine r s = .error e) ∧
    (∀ (r₁ r₂ : RoutineSy F A) (s : EvalSt F),
      r₁.executeSy = r₂.executeSy →
      (r₁.predictWireless ()).aux = (r₂.predictWireless ()).aux →
      syRoutine r₁ s = syRoutine r₂ s) ∧
    (∀ (r : RoutineSy F A) (s s₂ : EvalSt F) (out : WireIndex),
      r.executeSy { s with availableB := none } ((r.predictWireless ()).aux) =
        .ok (s₂, out) →
      syRoutine r s = .ok ({ s₂ with availableB := s.availableB }, out)) := by
  refine ⟨?_, ?_, ?_, ?_, ?_, ?_⟩
  · intro r i o a h
    simp [wiredRoutine, h]
  · intro r i a h
    simp [wiredRoutine, h]
  · intro r o a h
    simp [wirelessRoutine, h]
  · intro r s e h
    simp [syRoutine, h]
  · intro r₁ r₂ s h₁ h₂
    simp [syRoutine, h₁, h₂]
  · intro r s s₂ out h
    simp [syRoutine, h]

/-- Witness for the amended C8: at `probeKnown`, the wired emulator skips
execution and returns the predicted output; a deferred-evaluator routine
whose execute always errors makes `routine` error even though the
prediction is `Known`. -/
theorem routine_prediction_drivers_witness :
    wiredRoutine probeKnown (.arbitrary 3) = .arbitrary 3 ∧
    syRoutine
      (⟨fun _ => .known () 0, fun _ _ => .error Error.Initialization⟩ :
        RoutineSy ℚ Nat)
      (evalInit 1 1) = .error Error.Initialization :=
  ⟨routine_prediction_drivers.1 probeKnown (.arbitrary 3) (.arbitrary 3) 0 rfl,
   routine_prediction_drivers.2.2.2.1
     ⟨fun _ => .known () 0, fun _ _ => .error Error.Initialization⟩
     (evalInit 1 1) Error.Initialization (fun _ _ => rfl)⟩

/-- Witness for C7 at a concrete guard. -/
theorem enforced_returns_reserved_wires_witness :
    StageGuardM.enforced (F := ℚ) ⟨⟨1, 0, 1, [7], [0], 0⟩, [0]⟩ ⟨[0], [], 0⟩ =
      .ok ({ (StageM.witnessOn ⟨1, 0, 1, [7], [0], 0⟩ ⟨[0], [], 0⟩).1 with
               eqPairs := (StageM.witnessOn (F := ℚ) ⟨1, 0, 1, [7], [0], 0⟩ ⟨[0], [], 0⟩).1.eqPairs ++
                 (StageM.witnessOn (F := ℚ) ⟨1, 0, 1, [7], [0], 0⟩ ⟨[0], [], 0⟩).2.zip [0] },
           ([0] : List Nat).take 1) :=
  enforced_returns_reserved_wires.1 ⟨⟨1, 0, 1, [7], [0], 0⟩, [0]⟩ ⟨[0], [], 0⟩ (by decide)

/-! ## Counting lemmas for the refcount invariant -/

theorem sum_map_set {α : Type} (f : α → Nat) :
    ∀ (l : List α) (i : Nat) (x : α) (h : i < l.length),
      ((l.set i x).map f).sum + f (l.getD i x) = (l.map f).sum + f x := by
  intro l
  induction l with
  | nil => intro i x h; simp at h
  | cons a l ih =>
    intro i x h
    cases i with
    | zero => simp [List.set]; omega
    | succ j =>
      have := ih j x (by simpa using h)
      simp only [List.set, List.map_cons, List.sum_cons, List.getD_cons_succ]
      omega

theorem cntV_cons {F : Type} (w : WireIndex) (c : Coeff F)
    (l : List (WireIndex × Coeff F)) (k : Nat) :
    cntV ((w, c) :: l) k =
      (if w = WireIndex.Virtual k then 1 else 0) + cntV l k := by
  by_cases h : w = WireIndex.Virtual k <;> simp [cntV, h] <;> omega

theorem cntV_nil {F : Type} (k : Nat) : cntV ([] : List (WireIndex × Coeff F)) k = 0 := rfl

theorem cntV_pos_exists {F : Type} (l : List (WireIndex × Coeff F)) (k : Nat)
    (h : 0 < cntV l k) : ∃ c, (WireIndex.Virtual k, c) ∈ l := by
  induction l with
  | nil => simp [cntV] at h
  | cons p rest ih =>
    obtain ⟨w, c⟩ := p
    rw [cntV_cons] at h
    by_cases hw : w = WireIndex.Virtual k
    · exact ⟨c, by simp [hw]⟩
    · obtain ⟨c', hc'⟩ := ih (by simpa [hw] using h)
      exact ⟨c', by simp [hc']⟩

theorem sum_pos_exists {α : Type} (f : α → Nat) (l : List α)
    (h : 0 < (l.map f).sum) : ∃ x ∈ l, 0 < f x := by
  induction l with
  | nil => simp at h
  | cons a rest ih =>
    simp only [List.map_cons, List.sum_cons] at h
    by_cases ha : 0 < f a
    · exact ⟨a, by simp, ha⟩
    · obtain ⟨x, hx, hfx⟩ := ih (by omega)
      exact ⟨x, by simp [hx], hfx⟩

theorem mem_le_sum (l : List Nat) (a : Nat) (h : a ∈ l) : a ≤ l.sum := by
  induction l with
  | nil => simp at h
  | cons b rest ih =>
    rcases List.mem_cons.mp h with h | h
    · subst h; simp [List.sum_cons]
    · have := ih h; simp [List.sum_cons]; omega

theorem SR_pos_exists {F : Type} (t : VirtualTable F) (k : Nat)
    (h : 0 < SR t k) :
    ∃ (j : Nat) (w : VirtualWire F),
      t.wires[j]? = some w ∧ 0 < cntV w.terms k := by
  obtain ⟨w, hw, hcnt⟩ :=
    sum_pos_exists (fun (w : VirtualWire F) => cntV w.terms k) t.wires h
  obtain ⟨j, hj, hjw⟩ := List.mem_iff_getElem.mp hw
  refine ⟨j, w, ?_, hcnt⟩
  rw [List.getElem?_eq_getElem hj, hjw]

theorem cntV_le_SR {F : Type} (t : VirtualTable F) (i : Nat)
    (w : VirtualWire F) (hw : t.wires[i]? = some w) (k : Nat) :
    cntV w.terms k ≤ SR t k := by
  have hmem : w ∈ t.wires := by
    have hi : i < t.wires.length := by
      by_contra hcon
      rw [List.getElem?_eq_none (by omega)] at hw
      cases hw
    rw [List.getElem?_eq_getElem hi] at hw
    cases hw
    exact List.getElem_mem hi
  exact mem_le_sum _ _ (List.mem_map_of_mem (fun w => cntV w.terms k) hmem)

theorem refcount_le_totalRef {F : Type} (t : VirtualTable F) (i : Nat)
    (w : VirtualWire F) (hw : t.wires[i]? = some w) :
    w.refcount ≤ totalRef t := by
  have hmem : w ∈ t.wires := by
    have hi : i < t.wires.length := by
      by_contra hcon
      rw [List.getElem?_eq_none (by omega)] at hw
      cases hw
    rw [List.getElem?_eq_getElem hi] at hw
    cases hw
    exact List.getElem_mem hi
  exact mem_le_sum _ _ (List.mem_map_of_mem (fun w => w.refcount) hmem)

theorem SR_set {F : Type} (t : VirtualTable F) (i : Nat) (w x : VirtualWire F)
    (hw : t.wires[i]? = some w) (k : Nat) :
    SR { t with wires := t.wires.set i x } k + cntV w.terms k =
      SR t k + cntV x.terms k := by
  have hi : i < t.wires.length := by
    by_contra hcon
    rw [List.getElem?_eq_none (by omega)] at hw
    cases hw
  have := sum_map_set (fun w => cntV w.terms k) t.wires i x hi
  rw [List.getD_eq_getElem _ _ hi] at this
  rw [List.getElem?_eq_getElem hi] at hw
  cases hw
  exact this

theorem totalRef_set {F : Type} (t : VirtualTable F) (i : Nat)
    (w x : VirtualWire F) (hw : t.wires[i]? = some w) :
    totalRef { t with wires := t.wires.set i x } + w.refcount =
      totalRef t + x.refcount := by
  have hi : i < t.wires.length := by
    by_contra hcon
    rw [List.getElem?_eq_none (by omega)] at hw
    cases hw
  have := sum_map_set (fun w => w.refcount) t.wires i x hi
  rw [List.getD_eq_getElem _ _ hi] at this
  rw [List.getElem?_eq_getElem hi] at hw
  cases hw
  exact this

/-- The virtual-slot index of a wire, if any. -/
def WireIndex.virtIdx? : WireIndex → Option Nat
  | .Virtual k => some k
  | _ => none

/-- A wire index is in range for the table's arrays. -/
def wixRange {F : Type} (t : VirtualTable F) : WireIndex → Prop
  | .A i => i < t.sy.a.length
  | .B i => i < t.sy.b.length
  | .C i => i < t.sy.c.length
  | .Virtual k => k < t.wires.length

theorem wixRange_sy_congr {F : Type} (t t' : VirtualTable F)
    (ha : t'.sy.a.length = t.sy.a.length) (hb : t'.sy.b.length = t.sy.b.length)
    (hc : t'.sy.c.length = t.sy.c.length) (hw : t'.wires.length = t.wires.length)
    (ix : WireIndex) (h : wixRange t ix) : wixRange t' ix := by
  cases ix <;> simp_all [wixRange]

/-! ## The table invariant

`TInvE t h E` relates a virtual table to a ghost *handle count* `h`
(`h k` = number of owned `Wire` handles for slot `k`: 1 for the owning
handle plus one per outstanding clone) and a set `E` of slots that are
mid-resolution inside a recursive `free` cascade (refcount already zero and
terms already swapped out, but value not yet cleared and the slot not yet
pushed).  At the driver's operation boundaries `E = []`. -/
structure TInvE {F : Type} (t : VirtualTable F) (h : Nat → Nat)
    (E : List Nat) : Prop where
  refEq : ∀ (k : Nat) (w : VirtualWire F), t.wires[k]? = some w →
    w.refcount = h k + SR t k
  hZero : ∀ k : Nat, t.wires.length ≤ k → h k = 0
  termsRange : ∀ (j : Nat) (w : VirtualWire F), t.wires[j]? = some w →
    ∀ p ∈ w.terms, wixRange t p.1
  cleared : ∀ (k : Nat) (w : VirtualWire F), t.wires[k]? = some w →
    w.refcount = 0 → k ∉ E → w.terms = [] ∧ w.value = Coeff.Zero
  exclProp : ∀ k ∈ E, ∀ w : VirtualWire F, t.wires[k]? = some w →
    w.refcount = 0 ∧ w.terms = []
  exclLt : ∀ k ∈ E, k < t.wires.length
  exclFree : ∀ k ∈ E, k ∉ t.free
  freeNodup : t.free.Nodup
  freeLt : ∀ i ∈ t.free, i < t.wires.length
  freeZero : ∀ i ∈ t.free, ∀ w : VirtualWire F, t.wires[i]? = some w →
    w.refcount = 0
  zeroFree : ∀ (k : Nat) (w : VirtualWire F), t.wires[k]? = some w →
    w.refcount = 0 → k ∉ E → k ∈ t.free

/-- Term lists only ever shrink (to `[]`) under `free`. -/
def termShrink {F : Type} (t t' : VirtualTable F) : Prop :=
  ∀ (j : Nat) (w' : VirtualWire F), t'.wires[j]? = some w' →
    ∃ w : VirtualWire F, t.wires[j]? = some w ∧
      (w'.terms = w.terms ∨ w'.terms = [])

theorem termShrink_refl {F : Type} (t : VirtualTable F) : termShrink t t :=
  fun j w' hw' => ⟨w', hw', Or.inl rfl⟩

theorem termShrink_trans {F : Type} {t₁ t₂ t₃ : VirtualTable F}
    (h₁ : termShrink t₁ t₂) (h₂ : termShrink t₂ t₃) : termShrink t₁ t₃ := by
  intro j w₃ hw₃
  obtain ⟨w₂, hw₂, hc₂⟩ := h₂ j w₃ hw₃
  obtain ⟨w₁, hw₁, hc₁⟩ := h₁ j w₂ hw₂
  refine ⟨w₁, hw₁, ?_⟩
  rcases hc₂ with h | h <;> rcases hc₁ with h' | h' <;> simp [h, h']

theorem getElem?_set_cases {α : Type} (l : List α) (i j : Nat) (x : α) :
    (l.set i x)[j]? = if j = i ∧ i < l.length then some x else l[j]? := by
  by_cases hj : j = i
  · subst hj
    by_cases hi : j < l.length
    · simp [hi, List.getElem?_set_self hi]
    · rw [List.set_eq_of_length_le (by omega)]
      simp [hi]
  · rw [List.getElem?_set_ne (Ne.symm hj)]
    simp [hj]

theorem termShrink_set {F : Type} (t : VirtualTable F) (fr : List Nat)
    (sy' : BackView F) (i : Nat) (w x : VirtualWire F)
    (hw : t.wires[i]? = some w) (hx : x.terms = w.terms ∨ x.terms = []) :
    termShrink t { wires := t.wires.set i x, free := fr, sy := sy' } := by
  intro j w' hw'
  simp only at hw'
  rw [getElem?_set_cases] at hw'
  by_cases hj : j = i ∧ i < t.wires.length
  · rw [if_pos hj] at hw'
    cases hw'
    exact ⟨w, hj.1 ▸ hw, hx⟩
  · rw [if_neg hj] at hw'
    exact ⟨w', hw', Or.inl rfl⟩

theorem cntV_zero_of_range {F : Type} (t : VirtualTable F)
    (l : List (WireIndex × Coeff F)) (hr : ∀ p ∈ l, wixRange t p.1)
    (k : Nat) (hk : t.wires.length ≤ k) : cntV l k = 0 := by
  by_contra hc
  obtain ⟨c, hc⟩ := cntV_pos_exists l k (by omega)
  have := hr (WireIndex.Virtual k, c) hc
  simp [wixRange] at this
  omega

theorem SR_set_same_terms {F : Type} (t : VirtualTable F) (i : Nat)
    (w x : VirtualWire F) (hw : t.wires[i]? = some w)
    (hx : x.terms = w.terms) (k : Nat) :
    SR { t with wires := t.wires.set i x } k = SR t k := by
  have := SR_set t i w x hw k
  rw [hx] at this
  omega

theorem SR_congr_wires {F : Type} (t t' : VirtualTable F)
    (h : t'.wires = t.wires) (k : Nat) : SR t' k = SR t k := by
  simp [SR, h]

theorem getElem?_some_lt {α : Type} (l : List α) (i : Nat) (x : α)
    (h : l[i]? = some x) : i < l.length := by
  by_contra hc
  rw [List.getElem?_eq_none (by omega)] at h
  cases h

/-- Preservation of the invariant under a value-only update of a live slot
(the `Virtual` branch of `VirtualTable::add`). -/
theorem TInvE_value_set {F : Type} (t : VirtualTable F) (h : Nat → Nat)
    (E : List Nat) (i : Nat) (w x : VirtualWire F)
    (hw : t.wires[i]? = some w) (hxt : x.terms = w.terms)
    (hxr : x.refcount = w.refcount) (hnz : w.refcount ≠ 0)
    (hInv : TInvE t h E) :
    TInvE { t with wires := t.wires.set i x } h E := by
  have hi : i < t.wires.length := getElem?_some_lt _ _ _ hw
  have hSR : ∀ k, SR { t with wires := t.wires.set i x } k = SR t k :=
    SR_set_same_terms t i w x hw hxt
  have hiE : i ∉ E := by
    intro hmem
    exact hnz (hInv.exclProp i hmem w hw).1
  have hiF : i ∉ t.free := by
    intro hmem
    exact hnz (hInv.freeZero i hmem w hw)
  have hget : ∀ k, (t.wires.set i x)[k]? =
      if k = i ∧ i < t.wires.length then some x else t.wires[k]? :=
    fun k => getElem?_set_cases t.wires i k x
  constructor
  · intro k w₂ hk
    simp only at hk
    rw [hget k] at hk
    by_cases hki : k = i ∧ i < t.wires.length
    · rw [if_pos hki] at hk
      cases hk
      rw [hSR, hki.1, hxr]
      exact hInv.refEq i w (hki.1 ▸ hw)
    · rw [if_neg hki] at hk
      rw [hSR]
      exact hInv.refEq k w₂ hk
  · intro k hk
    simp only [List.length_set] at hk
    exact hInv.hZero k hk
  · intro j w₂ hj p hp
    simp only at hj
    rw [hget j] at hj
    have hxr' : ∀ q, wixRange t q → wixRange { t with wires := t.wires.set i x } q := by
      intro q hq
      cases q <;> simpa [wixRange] using hq
    by_cases hji : j = i ∧ i < t.wires.length
    · rw [if_pos hji] at hj
      cases hj
      rw [hxt] at hp
      exact hxr' _ (hInv.termsRange i w (hji.1 ▸ hw) p hp)
    · rw [if_neg hji] at hj
      exact hxr' _ (hInv.termsRange j w₂ hj p hp)
  · intro k w₂ hk hrc hkE
    simp only at hk
    rw [hget k] at hk
    by_cases hki : k = i ∧ i < t.wires.length
    · rw [if_pos hki] at hk
      cases hk
      rw [hxr] at hrc
      exact absurd hrc hnz
    · rw [if_neg hki] at hk
      exact hInv.cleared k w₂ hk hrc hkE
  · intro k hkE w₂ hk
    simp only at hk
    rw [hget k] at hk
    by_cases hki : k = i ∧ i < t.wires.length
    · exact absurd (hki.1 ▸ hkE) hiE
    · rw [if_neg hki] at hk
      exact hInv.exclProp k hkE w₂ hk
  · intro k hk
    simp only [List.length_set]
    exact hInv.exclLt k hk
  · intro k hk
    exact hInv.exclFree k hk
  · exact hInv.freeNodup
  · intro j hj
    simp only [List.length_set]
    exact hInv.freeLt j hj
  · intro j hj w₂ hk
    simp only at hk
    rw [hget j] at hk
    by_cases hji : j = i ∧ i < t.wires.length
    · exact absurd (hji.1 ▸ hj) hiF
    · rw [if_neg hji] at hk
      exact hInv.freeZero j hj w₂ hk
  · intro k w₂ hk hrc hkE
    simp only at hk
    rw [hget k] at hk
    by_cases hki : k = i ∧ i < t.wires.length
    · rw [if_pos hki] at hk
      cases hk
      rw [hxr] at hrc
      exact absurd hrc hnz
    · rw [if_neg hki] at hk
      exact hInv.zeroFree k w₂ hk hrc hkE

/-- Preservation of the invariant under a backward-view update that keeps
the array lengths (the allocated-wire branch of `VirtualTable::add`). -/
theorem TInvE_sy_set {F : Type} (t : VirtualTable F) (h : Nat → Nat)
    (E : List Nat) (sy' : BackView F)
    (ha : sy'.a.length = t.sy.a.length) (hb : sy'.b.length = t.sy.b.length)
    (hc : sy'.c.length = t.sy.c.length) (hInv : TInvE t h E) :
    TInvE { t with sy := sy' } h E := by
  constructor
  · exact hInv.refEq
  · exact hInv.hZero
  · intro j w hj p hp
    have := hInv.termsRange j w hj p hp
    cases hq : p.1 <;> simp_all [wixRange]
  · exact hInv.cleared
  · exact hInv.exclProp
  · exact hInv.exclLt
  · exact hInv.exclFree
  · exact hInv.freeNodup
  · exact hInv.freeLt
  · exact hInv.freeZero
  · exact hInv.zeroFree

/-- Entering resolution: the last reference to slot `i` is being consumed,
its terms are swapped out (becoming floating references counted by `cntV`)
and the slot joins the mid-resolution set. -/
theorem resolve_enter {F : Type} (t : VirtualTable F) (h : Nat → Nat)
    (E : List Nat) (i : Nat) (w : VirtualWire F)
    (hw : t.wires[i]? = some w) (hrc : w.refcount = 1)
    (hInv : TInvE t (fun k => if k = i then h k + 1 else h k) E) :
    TInvE { t with wires :=
        t.wires.set i { refcount := 0, terms := [], value := w.value } }
      (fun k => h k + cntV w.terms k) (i :: E) := by
  have hi : i < t.wires.length := getElem?_some_lt _ _ _ hw
  have hhi : h i + SR t i = 0 := by
    have := hInv.refEq i w hw
    simp [hrc] at this
    omega
  have hiE : i ∉ E := by
    intro hmem
    have := (hInv.exclProp i hmem w hw).1
    omega
  have hiF : i ∉ t.free := by
    intro hmem
    have := hInv.freeZero i hmem w hw
    omega
  have hcnti : cntV w.terms i = 0 := by
    have := cntV_le_SR t i w hw i
    omega
  have hSRsplit : ∀ k,
      SR { t with wires :=
        t.wires.set i { refcount := 0, terms := [], value := w.value } } k +
        cntV w.terms k = SR t k := by
    intro k
    have := SR_set t i w { refcount := 0, terms := [], value := w.value } hw k
    simpa [cntV_nil] using this
  have hget : ∀ k, (t.wires.set i
      { refcount := 0, terms := [], value := w.value })[k]? =
      if k = i ∧ i < t.wires.length then
        some { refcount := 0, terms := [], value := w.value }
      else t.wires[k]? :=
    fun k => getElem?_set_cases t.wires i k _
  have hrange : ∀ p ∈ w.terms, wixRange t p.1 :=
    fun p hp => hInv.termsRange i w hw p hp
  constructor
  · intro k w₂ hk
    simp only at hk
    rw [hget k] at hk
    by_cases hki : k = i ∧ i < t.wires.length
    · rw [if_pos hki] at hk
      cases hk
      obtain ⟨rfl, _⟩ := hki
      have := hSRsplit k
      simp
      omega
    · rw [if_neg hki] at hk
      have := hInv.refEq k w₂ hk
      have hne : ¬k = i := by
        intro hcon
        exact hki ⟨hcon, hi⟩
      rw [if_neg hne] at this
      have := hSRsplit k
      omega
  · intro k hk
    simp only [List.length_set] at hk
    have h1 := hInv.hZero k hk
    have hne : ¬k = i := by omega
    rw [if_neg hne] at h1
    have h2 := cntV_zero_of_range t w.terms hrange k hk
    omega
  · intro j w₂ hj p hp
    simp only at hj
    rw [hget j] at hj
    have hxr' := wixRange_sy_congr t { t with wires := t.wires.set i { refcount := 0, terms := [], value := w.value } } rfl rfl rfl (by simp)
    by_cases hji : j = i ∧ i < t.wires.length
    · rw [if_pos hji] at hj
      cases hj
      simp at hp
    · rw [if_neg hji] at hj
      exact hxr' _ (hInv.termsRange j w₂ hj p hp)
  · intro k w₂ hk hrc₂ hkE
    simp only at hk
    rw [hget k] at hk
    rw [List.mem_cons] at hkE
    push_neg at hkE
    by_cases hki : k = i ∧ i < t.wires.length
    · exact absurd hki.1 hkE.1
    · rw [if_neg hki] at hk
      exact hInv.cleared k w₂ hk hrc₂ hkE.2
  · intro k hkE w₂ hk
    simp only at hk
    rw [hget k] at hk
    rcases List.mem_cons.mp hkE with rfl | hkE'
    · rw [if_pos ⟨rfl, hi⟩] at hk
      cases hk
      exact ⟨rfl, rfl⟩
    · have hne : ¬k = i := by
        intro hcon
        exact hiE (hcon ▸ hkE')
      rw [if_neg (by simp [hne])] at hk
      exact hInv.exclProp k hkE' w₂ hk
  · intro k hkE
    simp only [List.length_set]
    rcases List.mem_cons.mp hkE with rfl | hkE'
    · exact hi
    · exact hInv.exclLt k hkE'
  · intro k hkE
    rcases List.mem_cons.mp hkE with rfl | hkE'
    · exact hiF
    · exact hInv.exclFree k hkE'
  · exact hInv.freeNodup
  · intro j hj
    simp only [List.length_set]
    exact hInv.freeLt j hj
  · intro j hj w₂ hk
    simp only at hk
    rw [hget j] at hk
    by_cases hji : j = i ∧ i < t.wires.length
    · exact absurd (hji.1 ▸ hj) hiF
    · rw [if_neg hji] at hk
      exact hInv.freeZero j hj w₂ hk
  · intro k w₂ hk hrc₂ hkE
    simp only at hk
    rw [hget k] at hk
    rw [List.mem_cons] at hkE
    push_neg at hkE
    by_cases hki : k = i ∧ i < t.wires.length
    · exact absurd hki.1 hkE.1
    · rw [if_neg hki] at hk
      exact hInv.zeroFree k w₂ hk hrc₂ hkE.2

/-- Leaving resolution: the distributed slot's value is cleared and the slot
is pushed onto the free list, leaving the mid-resolution set. -/
theorem resolve_exit {F : Type} (t : VirtualTable F) (h : Nat → Nat)
    (E : List Nat) (i : Nat) (w : VirtualWire F)
    (hw : t.wires[i]? = some w) (hiE : i ∉ E)
    (hInv : TInvE t h (i :: E)) :
    TInvE { t with wires := t.wires.set i { w with value := Coeff.Zero },
                   free := i :: t.free } h E := by
  have hi : i < t.wires.length := getElem?_some_lt _ _ _ hw
  obtain ⟨hrc0, hterms⟩ := hInv.exclProp i (by simp) w hw
  have hhi : h i + SR t i = 0 := by
    have := hInv.refEq i w hw
    omega
  have hiF : i ∉ t.free := hInv.exclFree i (by simp)
  have hSR : ∀ k, SR { t with wires := t.wires.set i { w with value := Coeff.Zero }, free := i :: t.free } k = SR t k := by
    intro k
    have h1 := SR_set t i w { w with value := Coeff.Zero } hw k
    have h2 : SR { t with wires := t.wires.set i { w with value := Coeff.Zero }, free := i :: t.free } k = SR { t with wires := t.wires.set i { w with value := Coeff.Zero } } k := SR_congr_wires _ _ rfl k
    simp only at h1
    omega
  have hget : ∀ k, (t.wires.set i { w with value := Coeff.Zero })[k]? =
      if k = i ∧ i < t.wires.length then some { w with value := Coeff.Zero }
      else t.wires[k]? :=
    fun k => getElem?_set_cases t.wires i k _
  constructor
  · intro k w₂ hk
    simp only at hk
    rw [hget k] at hk
    rw [hSR]
    by_cases hki : k = i ∧ i < t.wires.length
    · rw [if_pos hki] at hk
      cases hk
      obtain ⟨rfl, _⟩ := hki
      simp [hrc0]
      omega
    · rw [if_neg hki] at hk
      exact hInv.refEq k w₂ hk
  · intro k hk
    simp only [List.length_set] at hk
    exact hInv.hZero k hk
  · intro j w₂ hj p hp
    simp only at hj
    rw [hget j] at hj
    have hxr' := wixRange_sy_congr t { t with wires := t.wires.set i { w with value := Coeff.Zero }, free := i :: t.free } rfl rfl rfl (by simp)
    by_cases hji : j = i ∧ i < t.wires.length
    · rw [if_pos hji] at hj
      cases hj
      rw [hterms] at hp
      simp at hp
    · rw [if_neg hji] at hj
      exact hxr' _ (hInv.termsRange j w₂ hj p hp)
  · intro k w₂ hk hrc₂ hkE
    simp only at hk
    rw [hget k] at hk
    by_cases hki : k = i ∧ i < t.wires.length
    · rw [if_pos hki] at hk
      cases hk
      exact ⟨hterms, rfl⟩
    · rw [if_neg hki] at hk
      have hne : ¬k = i := fun hcon => hki ⟨hcon, hi⟩
      exact hInv.cleared k w₂ hk hrc₂ (by simp [hne, hkE])
  · intro k hkE w₂ hk
    simp only at hk
    rw [hget k] at hk
    have hne : ¬k = i := fun hcon => hiE (hcon ▸ hkE)
    rw [if_neg (by simp [hne])] at hk
    exact hInv.exclProp k (by simp [hkE]) w₂ hk
  · intro k hkE
    simp only [List.length_set]
    exact hInv.exclLt k (by simp [hkE])
  · intro k hkE
    have hne : ¬k = i := fun hcon => hiE (hcon ▸ hkE)
    simp only [List.mem_cons]
    push_neg
    exact ⟨hne, hInv.exclFree k (by simp [hkE])⟩
  · simp only [List.nodup_cons]
    exact ⟨hiF, hInv.freeNodup⟩
  · intro j hj
    simp only [List.length_set]
    rcases List.mem_cons.mp hj with rfl | hj'
    · exact hi
    · exact hInv.freeLt j hj'
  · intro j hj w₂ hk
    simp only at hk
    rw [hget j] at hk
    rcases List.mem_cons.mp hj with rfl | hj'
    · rw [if_pos ⟨rfl, hi⟩] at hk
      cases hk
      exact hrc0
    · have hne : ¬j = i := fun hcon => hiF (hcon ▸ hj')
      rw [if_neg (by simp [hne])] at hk
      exact hInv.freeZero j hj' w₂ hk
  · intro k w₂ hk hrc₂ hkE
    simp only at hk
    rw [hget k] at hk
    by_cases hki : k = i ∧ i < t.wires.length
    · simp [hki.1]
    · rw [if_neg hki] at hk
      have hne : ¬k = i := fun hcon => hki ⟨hcon, hi⟩
      simp only [List.mem_cons]
      exact Or.inr (hInv.zeroFree k w₂ hk hrc₂ (by simp [hne, hkE]))

theorem totalRef_congr_wires {F : Type} (t t' : VirtualTable F)
    (h : t'.wires = t.wires) : totalRef t' = totalRef t := by
  simp [totalRef, h]

theorem TInvE_h_congr {F : Type} (t : VirtualTable F) (h h' : Nat → Nat)
    (E : List Nat) (hpt : ∀ k, h' k = h k) (hInv : TInvE t h' E) :
    TInvE t h E := by
  constructor
  · intro k w hw
    rw [← hpt k]
    exact hInv.refEq k w hw
  · intro k hk
    rw [← hpt k]
    exact hInv.hZero k hk
  · exact hInv.termsRange
  · exact hInv.cleared
  · exact hInv.exclProp
  · exact hInv.exclLt
  · exact hInv.exclFree
  · exact hInv.freeNodup
  · exact hInv.freeLt
  · exact hInv.freeZero
  · exact hInv.zeroFree

theorem termShrink_wires_eq {F : Type} (t t' : VirtualTable F)
    (h : t'.wires = t.wires) : termShrink t t' := by
  intro j w' hw'
  rw [h] at hw'
  exact ⟨w', hw', Or.inl rfl⟩

theorem virtIdx?_some {k : Nat} : ∀ {w : WireIndex},
    w.virtIdx? = some k → w = .Virtual k := by
  intro w
  cases w <;> simp [WireIndex.virtIdx?]

theorem virtIdx?_none_ne {w : WireIndex} (h : w.virtIdx? = none) (k : Nat) :
    w ≠ .Virtual k := by
  cases w <;> simp [WireIndex.virtIdx?] at h ⊢

/-- Decrementing the refcount of a slot holding at least two references,
consuming one ghost handle. -/
theorem TInvE_decrement {F : Type} (t : VirtualTable F) (h : Nat → Nat)
    (E : List Nat) (i : Nat) (w : VirtualWire F)
    (hw : t.wires[i]? = some w) (h2 : 2 ≤ w.refcount)
    (hInv : TInvE t (fun k => if k = i then h k + 1 else h k) E) :
    TInvE { t with wires :=
        t.wires.set i { w with refcount := w.refcount - 1 } } h E := by
  have hi : i < t.wires.length := getElem?_some_lt _ _ _ hw
  have hSR : ∀ k,
      SR { t with wires :=
        t.wires.set i { w with refcount := w.refcount - 1 } } k = SR t k :=
    SR_set_same_terms t i w _ hw rfl
  have hiE : i ∉ E := by
    intro hmem
    have := (hInv.exclProp i hmem w hw).1
    omega
  have hiF : i ∉ t.free := by
    intro hmem
    have := hInv.freeZero i hmem w hw
    omega
  have hget : ∀ k, (t.wires.set i { w with refcount := w.refcount - 1 })[k]? =
      if k = i ∧ i < t.wires.length then
        some { w with refcount := w.refcount - 1 }
      else t.wires[k]? :=
    fun k => getElem?_set_cases t.wires i k _
  constructor
  · intro k w₂ hk
    simp only at hk
    rw [hget k] at hk
    rw [hSR]
    by_cases hki : k = i ∧ i < t.wires.length
    · rw [if_pos hki] at hk
      cases hk
      obtain ⟨rfl, _⟩ := hki
      have := hInv.refEq k w hw
      simp at this
      simp
      omega
    · rw [if_neg hki] at hk
      have := hInv.refEq k w₂ hk
      have hne : ¬k = i := fun hcon => hki ⟨hcon, hi⟩
      rw [if_neg hne] at this
      exact this
  · intro k hk
    simp only [List.length_set] at hk
    have h1 := hInv.hZero k hk
    have hne : ¬k = i := by omega
    rwa [if_neg hne] at h1
  · intro j w₂ hj p hp
    simp only at hj
    rw [hget j] at hj
    have hxr' := wixRange_sy_congr t { t with wires := t.wires.set i { w with refcount := w.refcount - 1 } } rfl rfl rfl (by simp)
    by_cases hji : j = i ∧ i < t.wires.length
    · rw [if_pos hji] at hj
      cases hj
      exact hxr' _ (hInv.termsRange i w (hji.1 ▸ hw) p hp)
    · rw [if_neg hji] at hj
      exact hxr' _ (hInv.termsRange j w₂ hj p hp)
  · intro k w₂ hk hrc hkE
    simp only at hk
    rw [hget k] at hk
    by_cases hki : k = i ∧ i < t.wires.length
    · rw [if_pos hki] at hk
      cases hk
      simp at hrc
      omega
    · rw [if_neg hki] at hk
      exact hInv.cleared k w₂ hk hrc hkE
  · intro k hkE w₂ hk
    simp only at hk
    rw [hget k] at hk
    by_cases hki : k = i ∧ i < t.wires.length
    · exact absurd (hki.1 ▸ hkE) hiE
    · rw [if_neg hki] at hk
      exact hInv.exclProp k hkE w₂ hk
  · intro k hk
    simp only [List.length_set]
    exact hInv.exclLt k hk
  · exact hInv.exclFree
  · exact hInv.freeNodup
  · intro j hj
    simp only [List.length_set]
    exact hInv.freeLt j hj
  · intro j hj w₂ hk
    simp only at hk
    rw [hget j] at hk
    by_cases hji : j = i ∧ i < t.wires.length
    · exact absurd (hji.1 ▸ hj) hiF
    · rw [if_neg hji] at hk
      exact hInv.freeZero j hj w₂ hk
  · intro k w₂ hk hrc hkE
    simp only at hk
    rw [hget k] at hk
    by_cases hki : k = i ∧ i < t.wires.length
    · rw [if_pos hki] at hk
      cases hk
      simp at hrc
      omega
    · rw [if_neg hki] at hk
      exact hInv.zeroFree k w₂ hk hrc hkE

/-- Specification-side distribution into the backward view: add `x` at the
slot addressed by an allocated wire index. -/
def BackView.addVal {F : Type} [Field F] (sy : BackView F) (ix : WireIndex)
    (x : F) : BackView F :=
  match ix with
  | .A i => { sy with a := sy.a.set i (sy.a.getD i 0 + x) }
  | .B i => { sy with b := sy.b.set i (sy.b.getD i 0 + x) }
  | .C i => { sy with c := sy.c.set i (sy.c.getD i 0 + x) }
  | .Virtual _ => sy

theorem freeFuel_nonvirt {F : Type} [Field F] [DecidableEq F] (f : Nat)
    (t : VirtualTable F) (w : WireIndex) (h : w.virtIdx? = none) :
    freeFuel f t w = .ok t := by
  cases w with
  | A i => cases f <;> rfl
  | B i => cases f <;> rfl
  | C i => cases f <;> rfl
  | Virtual k => simp [WireIndex.virtIdx?] at h

theorem add_eq_addVal {F : Type} [Field F] [DecidableEq F]
    (t : VirtualTable F) (ix : WireIndex) (v : Coeff F)
    (hr : wixRange t ix) (hnv : ix.virtIdx? = none) :
    t.add ix v = some { t with sy := t.sy.addVal ix v.value } := by
  cases ix with
  | A i =>
    have h : t.sy.a[i]? = some t.sy.a[i] :=
      (List.getElem?_eq_some_getElem_iff _ _ hr).mpr trivial
    simp [VirtualTable.add, h, BackView.addVal, List.getD_eq_getElem _ _ hr]
  | B i =>
    have h : t.sy.b[i]? = some t.sy.b[i] :=
      (List.getElem?_eq_some_getElem_iff _ _ hr).mpr trivial
    simp [VirtualTable.add, h, BackView.addVal, List.getD_eq_getElem _ _ hr]
  | C i =>
    have h : t.sy.c[i]? = some t.sy.c[i] :=
      (List.getElem?_eq_some_getElem_iff _ _ hr).mpr trivial
    simp [VirtualTable.add, h, BackView.addVal, List.getD_eq_getElem _ _ hr]
  | Virtual k => simp [WireIndex.virtIdx?] at hnv

theorem addVal_len_a {F : Type} [Field F] (sy : BackView F) (ix : WireIndex)
    (x : F) : (sy.addVal ix x).a.length = sy.a.length := by
  cases ix <;> simp [BackView.addVal]

theorem addVal_len_b {F : Type} [Field F] (sy : BackView F) (ix : WireIndex)
    (x : F) : (sy.addVal ix x).b.length = sy.b.length := by
  cases ix <;> simp [BackView.addVal]

theorem addVal_len_c {F : Type} [Field F] (sy : BackView F) (ix : WireIndex)
    (x : F) : (sy.addVal ix x).c.length = sy.c.length := by
  cases ix <;> simp [BackView.addVal]

/-- Correctness of `VirtualTable::free` on a slot losing one reference:
under the invariant (with the extra reference accounted), `free` returns
without panicking, the invariant is re-established with the reference
consumed, the table's shape is preserved and the total refcount strictly
drops. -/
def FreeOk (F : Type) [Field F] [DecidableEq F] (f : Nat) : Prop :=
  ∀ (t : VirtualTable F) (i : Nat) (h : Nat → Nat) (E : List Nat),
    TInvE t (fun k => if k = i then h k + 1 else h k) E →
    totalRef t < f →
    ∃ t' : VirtualTable F, freeFuel f t (.Virtual i) = .ok t' ∧ TInvE t' h E ∧
      t'.wires.length = t.wires.length ∧
      t'.sy.a.length = t.sy.a.length ∧
      t'.sy.b.length = t.sy.b.length ∧
      t'.sy.c.length = t.sy.c.length ∧
      totalRef t' < totalRef t ∧
      termShrink t t'

/-- Correctness of the resolution loop: the floating references held by the
detached term list `l` are consumed one by one. -/
def FreeListOk (F : Type) [Field F] [DecidableEq F] (f : Nat) : Prop :=
  ∀ (t : VirtualTable F) (v : Coeff F) (l : List (WireIndex × Coeff F))
    (h : Nat → Nat) (E : List Nat),
    TInvE t (fun k => h k + cntV l k) E →
    (∀ p ∈ l, wixRange t p.1) →
    totalRef t < f →
    ∃ t' : VirtualTable F, freeListGo (freeFuel f) v l t = .ok t' ∧
      TInvE t' h E ∧
      t'.wires.length = t.wires.length ∧
      t'.sy.a.length = t.sy.a.length ∧
      t'.sy.b.length = t.sy.b.length ∧
      t'.sy.c.length = t.sy.c.length ∧
      totalRef t' ≤ totalRef t ∧
      termShrink t t'

theorem freeList_ok_of_free_ok {F : Type} [Field F] [DecidableEq F]
    (f : Nat) (hF : FreeOk F f) : FreeListOk F f := by
  intro t v l h E
  revert t
  induction l with
  | nil =>
    intro t hInv hr hfuel
    refine ⟨t, rfl, ?_, rfl, rfl, rfl, rfl, le_refl _, termShrink_refl t⟩
    exact TInvE_h_congr t h _ E (fun k => by simp [cntV_nil]) hInv
  | cons p rest ih =>
    obtain ⟨w0, c0⟩ := p
    intro t hInv hr hfuel
    rw [freeListGo]
    cases hv : w0.virtIdx? with
    | none =>
      have hr0 : wixRange t w0 := hr (w0, c0) (by simp)
      rw [add_eq_addVal t w0 (v.mul c0) hr0 hv]
      dsimp only
      rw [freeFuel_nonvirt f _ w0 hv]
      have hInv₁ : TInvE { t with sy := t.sy.addVal w0 (v.mul c0).value }
          (fun k => h k + cntV rest k) E := by
        refine TInvE_sy_set t _ E _ (addVal_len_a _ _ _) (addVal_len_b _ _ _)
          (addVal_len_c _ _ _) ?_
        refine TInvE_h_congr t _ _ E ?_ hInv
        intro k
        rw [cntV_cons]
        have := virtIdx?_none_ne hv k
        simp [this]
      have htot₁ : totalRef { t with sy := t.sy.addVal w0 (v.mul c0).value } =
          totalRef t :=
        totalRef_congr_wires { t with sy := t.sy.addVal w0 (v.mul c0).value } t rfl
      obtain ⟨t₂, hrun, hInv₂, hl1, hl2, hl3, hl4, htot, hshr⟩ :=
        ih { t with sy := t.sy.addVal w0 (v.mul c0).value } hInv₁
          (fun q hq =>
            wixRange_sy_congr t { t with sy := t.sy.addVal w0 (v.mul c0).value }
              (addVal_len_a _ _ _) (addVal_len_b _ _ _) (addVal_len_c _ _ _)
              rfl q.1 (hr q (by simp [hq])))
          (by rw [htot₁]; exact hfuel)
      refine ⟨t₂, hrun, hInv₂, by simpa using hl1,
        by rw [hl2]; exact addVal_len_a _ _ _,
        by rw [hl3]; exact addVal_len_b _ _ _,
        by rw [hl4]; exact addVal_len_c _ _ _,
        by rw [htot₁] at htot; exact htot,
        termShrink_trans
          (termShrink_wires_eq t { t with sy := t.sy.addVal w0 (v.mul c0).value }
            rfl) hshr⟩
    | some k₀ =>
      have hw0 : w0 = .Virtual k₀ := virtIdx?_some hv
      subst hw0
      have hr0 : k₀ < t.wires.length := by
        have := hr (WireIndex.Virtual k₀, c0) (by simp)
        simpa [wixRange] using this
      obtain ⟨wk, hwk⟩ : ∃ wk : VirtualWire F, t.wires[k₀]? = some wk := by
        rw [List.getElem?_eq_getElem hr0]
        exact ⟨_, rfl⟩
      have hcntpos : 1 ≤ cntV ((WireIndex.Virtual k₀, c0) :: rest) k₀ := by
        rw [cntV_cons]
        simp
      have hrcpos : wk.refcount ≠ 0 := by
        have := hInv.refEq k₀ wk hwk
        simp only at this
        omega
      have hadd : t.add (.Virtual k₀) (v.mul c0) =
          some { t with
            wires := t.wires.set k₀ { wk with value := wk.value.add (v.mul c0) } } := by
        simp [VirtualTable.add, hwk]
      rw [hadd]
      dsimp only
      have hInv₁ : TInvE { t with
            wires := t.wires.set k₀ { wk with value := wk.value.add (v.mul c0) } }
          (fun k => h k + cntV ((WireIndex.Virtual k₀, c0) :: rest) k) E :=
        TInvE_value_set t _ E k₀ wk _ hwk rfl rfl hrcpos hInv
      have hInv₁' : TInvE { t with
            wires := t.wires.set k₀ { wk with value := wk.value.add (v.mul c0) } }
          (fun k => if k = k₀ then (h k + cntV rest k) + 1
            else (h k + cntV rest k)) E := by
        refine TInvE_h_congr _ _ _ E ?_ hInv₁
        intro k
        rw [cntV_cons]
        by_cases hk : k = k₀
        · subst hk
          simp
          omega
        · have hne : ¬(WireIndex.Virtual k₀ = WireIndex.Virtual k) := by
            simp
            omega
          simp [hk, hne]
      have htot₁ : totalRef { t with
            wires := t.wires.set k₀ { wk with value := wk.value.add (v.mul c0) } } =
          totalRef t := by
        have := totalRef_set t k₀ wk
          { wk with value := wk.value.add (v.mul c0) } hwk
        simp only at this
        omega
      obtain ⟨t₂, hfree, hInv₂, hL1, hL2, hL3, hL4, htot₂, hshr₂⟩ :=
        hF { t with
            wires := t.wires.set k₀ { wk with value := wk.value.add (v.mul c0) } }
          k₀ (fun k => h k + cntV rest k) E hInv₁' (by rw [htot₁]; exact hfuel)
      rw [hfree]
      dsimp only
      obtain ⟨t₃, hrun₃, hInv₃, hM1, hM2, hM3, hM4, htot₃, hshr₃⟩ :=
        ih t₂ hInv₂
          (fun q hq => by
            refine wixRange_sy_congr t t₂ ?_ ?_ ?_ ?_ q.1 (hr q (by simp [hq]))
            · rw [hL2]
            · rw [hL3]
            · rw [hL4]
            · rw [hL1]; simp)
          (by
            rw [htot₁] at htot₂
            omega)
      refine ⟨t₃, hrun₃, hInv₃, ?_, ?_, ?_, ?_, ?_, ?_⟩
      · rw [hM1, hL1]; simp
      · rw [hM2, hL2]
      · rw [hM3, hL3]
      · rw [hM4, hL4]
      · rw [htot₁] at htot₂
        omega
      · refine termShrink_trans ?_ (termShrink_trans hshr₂ hshr₃)
        exact termShrink_set t t.free t.sy k₀ wk _ hwk (Or.inl rfl)

theorem free_ok_of_freeList_ok {F : Type} [Field F] [DecidableEq F]
    (f : Nat) (hL : FreeListOk F f) : FreeOk F (f + 1) := by
  intro t i h E hInv hfuel
  have hi : i < t.wires.length := by
    by_contra hc
    have := hInv.hZero i (by omega)
    simp at this
  obtain ⟨w, hw⟩ : ∃ w : VirtualWire F, t.wires[i]? = some w := by
    rw [List.getElem?_eq_getElem hi]
    exact ⟨_, rfl⟩
  have hrcEq := hInv.refEq i w hw
  simp at hrcEq
  have hiE : i ∉ E := by
    intro hm
    have := (hInv.exclProp i hm w hw).1
    omega
  by_cases h1 : w.refcount = 1
  · -- last reference: resolve
    have hEnter := resolve_enter t h E i w hw h1 hInv
    have hranges₂ : ∀ p ∈ w.terms,
        wixRange { t with
          wires := t.wires.set i { refcount := 0, terms := [], value := w.value } }
          p.1 :=
      fun p hp =>
        wixRange_sy_congr t { t with
            wires := t.wires.set i { refcount := 0, terms := [], value := w.value } }
          rfl rfl rfl (by simp) p.1 (hInv.termsRange i w hw p hp)
    have htotpos : 1 ≤ totalRef t := by
      have := refcount_le_totalRef t i w hw
      omega
    have hfuel₂ : totalRef { t with
        wires := t.wires.set i { refcount := 0, terms := [], value := w.value } } < f := by
      have := totalRef_set t i w
        { refcount := 0, terms := [], value := w.value } hw
      simp only at this
      omega
    obtain ⟨t₃, hrun, hInv₃, hL1, hL2, hL3, hL4, htot₃, hshr₃⟩ :=
      hL { t with
          wires := t.wires.set i { refcount := 0, terms := [], value := w.value } }
        w.value w.terms h (i :: E) hEnter hranges₂ hfuel₂
    have hi₃ : i < t₃.wires.length := by
      rw [hL1]
      simpa using hi
    obtain ⟨w₃, hw₃⟩ : ∃ w₃ : VirtualWire F, t₃.wires[i]? = some w₃ := by
      rw [List.getElem?_eq_getElem hi₃]
      exact ⟨_, rfl⟩
    have hExit := resolve_exit t₃ h E i w₃ hw₃ hiE hInv₃
    refine ⟨_, ?_, hExit, ?_, ?_, ?_, ?_, ?_, ?_⟩
    · rw [freeFuel, hw]
      dsimp only
      rw [if_neg (by omega), if_pos h1]
      rw [hrun]
      dsimp only
      rw [hw₃]
    · simp only [List.length_set]
      rw [hL1]
      simp
    · rw [hL2]
    · rw [hL3]
    · rw [hL4]
    · have h₄ : totalRef { t₃ with
          wires := t₃.wires.set i { w₃ with value := Coeff.Zero },
          free := i :: t₃.free } = totalRef t₃ := by
        have h5 := totalRef_set t₃ i w₃ { w₃ with value := Coeff.Zero } hw₃
        have h6 := totalRef_congr_wires
          { t₃ with
            wires := t₃.wires.set i { w₃ with value := Coeff.Zero },
            free := i :: t₃.free }
          { t₃ with wires := t₃.wires.set i { w₃ with value := Coeff.Zero } } rfl
        simp only at h5 h6
        omega
      have h7 : totalRef { t with
          wires := t.wires.set i { refcount := 0, terms := [], value := w.value } } + 1 =
          totalRef t := by
        have := totalRef_set t i w
          { refcount := 0, terms := [], value := w.value } hw
        simp only at this
        omega
      omega
    · refine termShrink_trans
        (termShrink_set t t.free t.sy i w _ hw (Or.inr rfl))
        (termShrink_trans hshr₃
          (termShrink_set t₃ (i :: t₃.free) t₃.sy i w₃ _ hw₃ (Or.inl rfl)))
  · -- not the last reference: decrement only
    have h2 : 2 ≤ w.refcount := by omega
    refine ⟨_, ?_, TInvE_decrement t h E i w hw h2 hInv, ?_, rfl, rfl, rfl, ?_, ?_⟩
    · rw [freeFuel, hw]
      dsimp only
      rw [if_neg (by omega), if_neg h1]
    · simp
    · have := totalRef_set t i w { w with refcount := w.refcount - 1 } hw
      simp only at this
      omega
    · exact termShrink_set t t.free t.sy i w _ hw (Or.inl rfl)

theorem free_master {F : Type} [Field F] [DecidableEq F] :
    ∀ f : Nat, FreeOk F f := by
  intro f
  induction f with
  | zero =>
    intro t i h E _ hfuel
    omega
  | succ f ih =>
    exact free_ok_of_freeList_ok f (freeList_ok_of_free_ok f ih)

theorem freeList_master {F : Type} [Field F] [DecidableEq F]
    (f : Nat) : FreeListOk F f :=
  freeList_ok_of_free_ok f (free_master f)

/-! ## Step-level helper lemmas -/

theorem SR_append {F : Type} (t : VirtualTable F) (x : VirtualWire F)
    (k : Nat) :
    SR { t with wires := t.wires ++ [x] } k = SR t k + cntV x.terms k := by
  simp [SR]

theorem totalRef_append {F : Type} (t : VirtualTable F) (x : VirtualWire F) :
    totalRef { t with wires := t.wires ++ [x] } = totalRef t + x.refcount := by
  simp [totalRef]

theorem SR_eq_zero_of_termsRange {F : Type} (t : VirtualTable F)
    (htr : ∀ (j : Nat) (w : VirtualWire F), t.wires[j]? = some w →
      ∀ p ∈ w.terms, wixRange t p.1)
    (k : Nat) (hk : t.wires.length ≤ k) : SR t k = 0 := by
  by_contra hc
  obtain ⟨j, w, hw, hcnt⟩ := SR_pos_exists t k (by omega)
  obtain ⟨c, hcmem⟩ := cntV_pos_exists w.terms k hcnt
  have := htr j w hw (WireIndex.Virtual k, c) hcmem
  simp [wixRange] at this
  omega

theorem wixRange_mono {F : Type} (t t' : VirtualTable F)
    (ha : t.sy.a.length ≤ t'.sy.a.length) (hb : t.sy.b.length ≤ t'.sy.b.length)
    (hc : t.sy.c.length ≤ t'.sy.c.length)
    (hw : t.wires.length ≤ t'.wires.length)
    (ix : WireIndex) (h : wixRange t ix) : wixRange t' ix := by
  cases ix <;> simp_all [wixRange] <;> omega

/-- Incrementing the refcount of a live slot (handle clone), adding one
ghost handle. -/
theorem TInvE_increment {F : Type} (t : VirtualTable F) (h : Nat → Nat)
    (i : Nat) (w : VirtualWire F) (hw : t.wires[i]? = some w)
    (hrc : w.refcount ≠ 0) (hInv : TInvE t h []) :
    TInvE { t with wires :=
        t.wires.set i { w with refcount := w.refcount + 1 } }
      (fun k => if k = i then h k + 1 else h k) [] := by
  have hi : i < t.wires.length := getElem?_some_lt _ _ _ hw
  have hSR : ∀ k,
      SR { t with wires :=
        t.wires.set i { w with refcount := w.refcount + 1 } } k = SR t k :=
    SR_set_same_terms t i w _ hw rfl
  have hget : ∀ k, (t.wires.set i { w with refcount := w.refcount + 1 })[k]? =
      if k = i ∧ i < t.wires.length then
        some { w with refcount := w.refcount + 1 }
      else t.wires[k]? :=
    fun k => getElem?_set_cases t.wires i k _
  constructor
  · intro k w₂ hk
    simp only at hk
    rw [hget k] at hk
    rw [hSR]
    by_cases hki : k = i ∧ i < t.wires.length
    · rw [if_pos hki] at hk
      cases hk
      obtain ⟨rfl, _⟩ := hki
      have := hInv.refEq k w hw
      simp
      omega
    · rw [if_neg hki] at hk
      have hne : ¬k = i := fun hcon => hki ⟨hcon, hi⟩
      rw [if_neg hne]
      exact hInv.refEq k w₂ hk
  · intro k hk
    simp only [List.length_set] at hk
    have hne : ¬k = i := by omega
    rw [if_neg hne]
    exact hInv.hZero k hk
  · intro j w₂ hj p hp
    simp only at hj
    rw [hget j] at hj
    have hxr' := wixRange_sy_congr t { t with wires := t.wires.set i { w with refcount := w.refcount + 1 } } rfl rfl rfl (by simp)
    by_cases hji : j = i ∧ i < t.wires.length
    · rw [if_pos hji] at hj
      cases hj
      exact hxr' _ (hInv.termsRange i w (hji.1 ▸ hw) p hp)
    · rw [if_neg hji] at hj
      exact hxr' _ (hInv.termsRange j w₂ hj p hp)
  · intro k w₂ hk hrc hkE
    simp only at hk
    rw [hget k] at hk
    by_cases hki : k = i ∧ i < t.wires.length
    · rw [if_pos hki] at hk
      cases hk
      simp at hrc
    · rw [if_neg hki] at hk
      exact hInv.cleared k w₂ hk hrc hkE
  · intro k hk
    simp at hk
  · intro k hk
    simp at hk
  · intro k hk
    simp at hk
  · exact hInv.freeNodup
  · intro j hj
    simp only [List.length_set]
    exact hInv.freeLt j hj
  · intro j hj w₂ hk
    simp only at hk
    rw [hget j] at hk
    by_cases hji : j = i ∧ i < t.wires.length
    · exfalso
      have h0 := hInv.freeZero j hj w (hji.1 ▸ hw)
      exact hrc h0
    · rw [if_neg hji] at hk
      exact hInv.freeZero j hj w₂ hk
  · intro k w₂ hk hrc₂ hkE
    simp only at hk
    rw [hget k] at hk
    by_cases hki : k = i ∧ i < t.wires.length
    · rw [if_pos hki] at hk
      cases hk
      simp at hrc₂
    · rw [if_neg hki] at hk
      exact hInv.zeroFree k w₂ hk hrc₂ hkE

theorem incRefs_spec {F : Type} :
    ∀ (l : List (WireIndex × Coeff F)) (t : VirtualTable F),
      (∀ p ∈ l, ∀ k : Nat, p.1 = WireIndex.Virtual k → k < t.wires.length) →
      ∃ t' : VirtualTable F, incRefs t l = some t' ∧
        t'.wires.length = t.wires.length ∧ t'.free = t.free ∧ t'.sy = t.sy ∧
        (∀ k, SR t' k = SR t k) ∧
        (∀ (k : Nat) (w : VirtualWire F), t.wires[k]? = some w →
          ∃ w' : VirtualWire F, t'.wires[k]? = some w' ∧
            w'.refcount = w.refcount + cntV l k ∧ w'.terms = w.terms ∧
            w'.value = w.value) := by
  intro l
  induction l with
  | nil =>
    intro t _
    refine ⟨t, rfl, rfl, rfl, rfl, fun k => rfl, ?_⟩
    intro k w hw
    exact ⟨w, hw, by simp [cntV_nil], rfl, rfl⟩
  | cons p rest ih =>
    obtain ⟨w0, c0⟩ := p
    intro t hr
    cases w0 with
    | Virtual k₀ =>
      have hk₀ : k₀ < t.wires.length :=
        hr (WireIndex.Virtual k₀, c0) (by simp) k₀ rfl
      obtain ⟨w, hw⟩ : ∃ w : VirtualWire F, t.wires[k₀]? = some w := by
        rw [List.getElem?_eq_getElem hk₀]
        exact ⟨_, rfl⟩
      rw [incRefs, hw]
      obtain ⟨t', hrun, hlen, hfree, hsy, hSR, hpt⟩ :=
        ih { t with wires := t.wires.set k₀ { w with refcount := w.refcount + 1 } }
          (fun q hq k hk => by
            have := hr q (by simp [hq]) k hk
            simpa using this)
      refine ⟨t', hrun, by simpa using hlen, by rw [hfree], by rw [hsy], ?_, ?_⟩
      · intro k
        rw [hSR k,
          SR_set_same_terms t k₀ w { w with refcount := w.refcount + 1 } hw rfl]
      · intro k w₂ hw₂
        by_cases hk : k = k₀
        · subst hk
          have hweq : w₂ = w := by
            rw [hw] at hw₂
            cases hw₂
            rfl
          subst hweq
          obtain ⟨w', hw', hrc', ht', hv'⟩ := hpt k
            { w₂ with refcount := w₂.refcount + 1 }
            (by
              simp only
              rw [getElem?_set_cases]
              rw [if_pos ⟨rfl, hk₀⟩])
          refine ⟨w', hw', ?_, ht', hv'⟩
          rw [hrc', cntV_cons]
          simp
          omega
        · obtain ⟨w', hw', hrc', ht', hv'⟩ := hpt k w₂
            (by
              simp only
              rw [getElem?_set_cases]
              rw [if_neg (by intro hcon; exact hk hcon.1)]
              exact hw₂)
          refine ⟨w', hw', ?_, ht', hv'⟩
          rw [hrc', cntV_cons]
          have : ¬(WireIndex.Virtual k₀ = WireIndex.Virtual k) := by
            simp
            omega
          simp [this]
    | A j =>
      rw [incRefs]
      case x_1 => intro k hcon; cases hcon
      obtain ⟨t', hrun, hlen, hfree, hsy, hSR, hpt⟩ :=
        ih t (fun q hq k hk => hr q (by simp [hq]) k hk)
      refine ⟨t', hrun, hlen, hfree, hsy, hSR, ?_⟩
      intro k w₂ hw₂
      obtain ⟨w', hw', hrc', ht', hv'⟩ := hpt k w₂ hw₂
      refine ⟨w', hw', ?_, ht', hv'⟩
      rw [hrc', cntV_cons]
      simp
    | B j =>
      rw [incRefs]
      case x_1 => intro k hcon; cases hcon
      obtain ⟨t', hrun, hlen, hfree, hsy, hSR, hpt⟩ :=
        ih t (fun q hq k hk => hr q (by simp [hq]) k hk)
      refine ⟨t', hrun, hlen, hfree, hsy, hSR, ?_⟩
      intro k w₂ hw₂
      obtain ⟨w', hw', hrc', ht', hv'⟩ := hpt k w₂ hw₂
      refine ⟨w', hw', ?_, ht', hv'⟩
      rw [hrc', cntV_cons]
      simp
    | C j =>
      rw [incRefs]
      case x_1 => intro k hcon; cases hcon
      obtain ⟨t', hrun, hlen, hfree, hsy, hSR, hpt⟩ :=
        ih t (fun q hq k hk => hr q (by simp [hq]) k hk)
      refine ⟨t', hrun, hlen, hfree, hsy, hSR, ?_⟩
      intro k w₂ hw₂
      obtain ⟨w', hw', hrc', ht', hv'⟩ := hpt k w₂ hw₂
      refine ⟨w', hw', ?_, ht', hv'⟩
      rw [hrc', cntV_cons]
      simp

/-! ## C3: resolution semantics -/

/-- Specification-side distribution of an accumulated value over a term
list: `value * coeff` is added at each term's slot. -/
def distributeView {F : Type} [Field F] (sy : BackView F) (v : Coeff F) :
    List (WireIndex × Coeff F) → BackView F
  | [] => sy
  | (w, c) :: rest => distributeView (sy.addVal w (v.mul c).value) v rest

theorem freeListGo_flat {F : Type} [Field F] [DecidableEq F] (f : Nat)
    (v : Coeff F) :
    ∀ (l : List (WireIndex × Coeff F)) (t : VirtualTable F),
      (∀ p ∈ l, p.1.virtIdx? = none) →
      (∀ p ∈ l, wixRange t p.1) →
      freeListGo (freeFuel f) v l t = .ok { t with sy := distributeView t.sy v l } := by
  intro l
  induction l with
  | nil => intro t _ _; simp [freeListGo, distributeView]
  | cons p rest ih =>
    intro t hnv hr
    obtain ⟨w, c⟩ := p
    have hnv₀ : w.virtIdx? = none := hnv (w, c) (by simp)
    have hr₀ : wixRange t w := hr (w, c) (by simp)
    rw [freeListGo, add_eq_addVal t w (v.mul c) hr₀ hnv₀]
    dsimp only
    rw [freeFuel_nonvirt f _ w hnv₀]
    dsimp only
    rw [ih _ (fun q hq => hnv q (by simp [hq]))
        (fun q hq => by
          refine wixRange_sy_congr t _ ?_ ?_ ?_ ?_ _ (hr q (by simp [hq])) <;>
            cases w <;> simp [BackView.addVal])]
    rw [distributeView]

/-- **C3** (resolution semantics of `VirtualTable::free`).  (1) Freeing a
virtual wire whose refcount is at least 2 only decrements the refcount.
(2) When the refcount reaches zero and all stored terms target allocated
wires, the accumulated value is distributed — `value * coeff` added into
each term's backward-view slot — the wire's terms and value are cleared, and
its slot is pushed onto the free list.  (3) A reference to a virtual wire
cascades: resolving wire 1, whose sole term targets virtual wire 0, adds
`value·coeff` into wire 0's accumulating value and recursively resolves
wire 0 into the backward view, clearing and freeing both slots. -/
theorem virtual_wire_resolution {F : Type} [Field F] [DecidableEq F] :
    (∀ (t : VirtualTable F) (i : Nat) (w : VirtualWire F) (f : Nat),
      t.wires[i]? = some w → 2 ≤ w.refcount →
      freeFuel (f + 1) t (.Virtual i) =
        .ok { t with wires := t.wires.set i { w with refcount := w.refcount - 1 } }) ∧
    (∀ (t : VirtualTable F) (i : Nat) (w : VirtualWire F) (f : Nat),
      t.wires[i]? = some w → w.refcount = 1 →
      (∀ p ∈ w.terms, p.1.virtIdx? = none) →
      (∀ p ∈ w.terms, wixRange t p.1) →
      freeFuel (f + 1) t (.Virtual i) =
        .ok { wires := t.wires.set i ⟨0, [], Coeff.Zero⟩,
              free := i :: t.free,
              sy := distributeView t.sy w.value w.terms }) ∧
    (∀ (a0 v0 v1 c0 c1 : F),
      freeFuel 3
        (⟨[⟨1, [(.A 0, .Arbitrary c0)], .Arbitrary v0⟩,
           ⟨1, [(.Virtual 0, .Arbitrary c1)], .Arbitrary v1⟩], [],
          ⟨[a0], [], []⟩⟩ : VirtualTable F)
        (.Virtual 1) =
      .ok ⟨[⟨0, [], Coeff.Zero⟩, ⟨0, [], Coeff.Zero⟩], [1, 0],
           ⟨[a0 + (v0 + v1 * c1) * c0], [], []⟩⟩) := by
  refine ⟨?_, ?_, ?_⟩
  · intro t i w f hw h2
    rw [freeFuel, hw]
    dsimp only
    rw [if_neg (show ¬w.refcount = 0 by omega),
        if_neg (show ¬w.refcount = 1 by omega)]
  · intro t i w f hw h1 hnv hr
    have hi : i < t.wires.length := by
      by_contra hcon
      rw [List.getElem?_eq_none (by omega)] at hw
      cases hw
    rw [freeFuel, hw]
    dsimp only
    rw [if_neg (show ¬w.refcount = 0 by omega), if_pos h1]
    rw [freeListGo_flat f w.value w.terms _
        (fun q hq => hnv q hq)
        (fun q hq =>
          wixRange_sy_congr t
            { t with wires :=
                t.wires.set i { refcount := 0, terms := [], value := w.value } }
            rfl rfl rfl (by simp) q.1 (hr q hq))]
    dsimp only
    rw [show (t.wires.set i { refcount := 0, terms := [], value := w.value })[i]? =
        some { refcount := 0, terms := [], value := w.value } from
      List.getElem?_set_self hi]
    dsimp only
    simp [List.set_set]
  · intro a0 v0 v1 c0 c1
    rfl

/-- Witness for C3: a table with one virtual wire of refcount 1 holding the
term `(A 0, 1·)`; resolving it pushes the value into the backward view. -/
theorem virtual_wire_resolution_witness :
    freeFuel 2
      (⟨[⟨1, [(.A 0, Coeff.One)], .Arbitrary 3⟩], [], ⟨[(2 : ℚ)], [], []⟩⟩ :
        VirtualTable ℚ)
      (.Virtual 0) =
    .ok { wires := [⟨1, [(.A 0, Coeff.One)], .Arbitrary (3 : ℚ)⟩].set 0 ⟨0, [], Coeff.Zero⟩,
          free := [0],
          sy := distributeView ⟨[(2 : ℚ)], [], []⟩ (.Arbitrary 3) [(.A 0, Coeff.One)] } :=
  virtual_wire_resolution.2.1
    ⟨[⟨1, [(.A 0, Coeff.One)], .Arbitrary 3⟩], [], ⟨[(2 : ℚ)], [], []⟩⟩ 0
    ⟨1, [(.A 0, Coeff.One)], .Arbitrary 3⟩ 1 rfl rfl
    (by intro p hp; simp at hp; subst hp; rfl)
    (by intro p hp; simp at hp; subst hp; simp [wixRange])

/-! ## C5: bound enforcement -/

theorem runMul_iter {F : Type} [Field F] [DecidableEq F] (R : RankM) :
    ∀ (k : Nat) (c : Config F), c.st.multiplicationConstraints + k ≤ R.n →
    ∃ c', runCmds R (List.replicate k Cmd.mulGate) c = .ok c' ∧
      c'.st.multiplicationConstraints = c.st.multiplicationConstraints + k ∧
      (∃ la, c'.st.table.sy.a = c.st.table.sy.a ++ la ∧ la.length = k) ∧
      (∃ lb, c'.st.table.sy.b = c.st.table.sy.b ++ lb ∧ lb.length = k) ∧
      (∃ lc, c'.st.table.sy.c = c.st.table.sy.c ++ lc ∧ lc.length = k) ∧
      c'.st.linearConstraints = c.st.linearConstraints ∧
      c'.st.table.wires = c.st.table.wires ∧
      c'.st.table.free = c.st.table.free := by
  intro k
  induction k with
  | zero =>
    intro c _
    exact ⟨c, rfl, by omega, ⟨[], by simp⟩, ⟨[], by simp⟩, ⟨[], by simp⟩, rfl, rfl, rfl⟩
  | succ m ih =>
    intro c h
    have hne : c.st.multiplicationConstraints ≠ R.n := by omega
    obtain ⟨c', hrun, hm, ⟨la, hla, hlal⟩, ⟨lb, hlb, hlbl⟩, ⟨lc, hlc, hlcl⟩,
        hlin, hw, hf⟩ :=
      ih ⟨{ c.st with
              multiplicationConstraints := c.st.multiplicationConstraints + 1,
              table := { c.st.table with sy :=
                { a := c.st.table.sy.a ++ [0], b := c.st.table.sy.b ++ [0],
                  c := c.st.table.sy.c ++ [0] } } },
          c.env ++ [.A c.st.multiplicationConstraints, .B c.st.multiplicationConstraints,
                    .C c.st.multiplicationConstraints]⟩ (by simp; omega)
    refine ⟨c', ?_, by simp at hm; omega,
      ⟨0 :: la, by simp at hla; simp [hla], by simp [hlal]⟩,
      ⟨0 :: lb, by simp at hlb; simp [hlb], by simp [hlbl]⟩,
      ⟨0 :: lc, by simp at hlc; simp [hlc], by simp [hlcl]⟩,
      by simpa using hlin, by simpa using hw, by simpa using hf⟩
    rw [List.replicate_succ, runCmds]
    simp only [stepCmd, mulCore, if_neg hne]
    exact hrun

theorem runMul_fail {F : Type} [Field F] [DecidableEq F] (R : RankM) :
    ∀ (k : Nat) (c : Config F), c.st.multiplicationConstraints + k = R.n →
    runCmds R (List.replicate (k + 1) Cmd.mulGate) c =
      .err (.MultiplicationBoundExceeded R.n) := by
  intro k
  induction k with
  | zero =>
    intro c h
    simp at h
    rw [List.replicate_succ, runCmds]
    simp [stepCmd, mulCore, h]
  | succ m ih =>
    intro c h
    have hne : c.st.multiplicationConstraints ≠ R.n := by omega
    rw [List.replicate_succ, runCmds]
    simp only [stepCmd, mulCore, if_neg hne]
    exact ih _ (by simp; omega)

theorem runEnforce_iter {F : Type} [Field F] [DecidableEq F] (R : RankM) :
    ∀ (k : Nat) (c : Config F), c.st.linearConstraints + k ≤ R.numCoeffs →
    ∃ c', runCmds R (List.replicate k (Cmd.enforceZero [])) c = .ok c' ∧
      c'.st.linearConstraints = c.st.linearConstraints + k ∧
      c'.st.multiplicationConstraints = c.st.multiplicationConstraints := by
  intro k
  induction k with
  | zero => intro c _; exact ⟨c, rfl, by omega, rfl⟩
  | succ m ih =>
    intro c h
    have hne : c.st.linearConstraints ≠ R.numCoeffs := by omega
    obtain ⟨c', hrun, hl, hm⟩ :=
      ih ⟨{ c.st with
              linearConstraints := c.st.linearConstraints + 1,
              currentY := c.st.currentY * c.st.yInv,
              ys := c.st.ys ++ [c.st.currentY] }, c.env⟩ (by simp; omega)
    refine ⟨c', ?_, by simp at hl; omega, by simpa using hm⟩
    rw [List.replicate_succ, runCmds]
    simp only [stepCmd, if_neg hne, resolveLC, List.map_nil, enforceGo]
    exact hrun

theorem runEnforce_fail {F : Type} [Field F] [DecidableEq F] (R : RankM) :
    ∀ (k : Nat) (c : Config F), c.st.linearConstraints + k = R.numCoeffs →
    runCmds R (List.replicate (k + 1) (Cmd.enforceZero [])) c =
      .err (.LinearBoundExceeded R.numCoeffs) := by
  intro k
  induction k with
  | zero =>
    intro c h
    simp at h
    rw [List.replicate_succ, runCmds]
    simp [stepCmd, h]
  | succ m ih =>
    intro c h
    have hne : c.st.linearConstraints ≠ R.numCoeffs := by omega
    rw [List.replicate_succ, runCmds]
    simp only [stepCmd, if_neg hne, resolveLC, List.map_nil, enforceGo]
    exact ih _ (by simp; omega)

/-- **C5** (bound enforcement).  `mul` fails with
`MultiplicationBoundExceeded(R::n())` exactly on the call made at count
`R::n()` — i.e. the `(n+1)`-th call of a fresh run — returning the caller's
state untouched (the check precedes every mutation), with all previously
allocated gate slots still present; `enforce_zero` behaves the same with
`LinearBoundExceeded(R::num_coeffs())` on the `(num_coeffs+1)`-th call. -/
theorem bound_enforcement {F : Type} [Field F] [DecidableEq F] :
    (∀ (R : RankM) (c : Config F), c.st.multiplicationConstraints = R.n →
      stepCmd R c .mulGate = .err (.MultiplicationBoundExceeded R.n) c) ∧
    (∀ (R : RankM) (c : Config F) (lc : List (LCItem F)),
      c.st.linearConstraints = R.numCoeffs →
      stepCmd R c (.enforceZero lc) = .err (.LinearBoundExceeded R.numCoeffs) c) ∧
    (∀ (R : RankM) (c : Config F) (k : Nat),
      c.st.multiplicationConstraints = 0 → k ≤ R.n →
      ∃ c', runCmds R (List.replicate k Cmd.mulGate) c = .ok c' ∧
        c'.st.multiplicationConstraints = k ∧
        c'.st.table.sy.a.length = c.st.table.sy.a.length + k ∧
        (∃ la, c'.st.table.sy.a = c.st.table.sy.a ++ la)) ∧
    (∀ (R : RankM) (c : Config F), c.st.multiplicationConstraints = 0 →
      runCmds R (List.replicate (R.n + 1) Cmd.mulGate) c =
        .err (.MultiplicationBoundExceeded R.n)) ∧
    (∀ (R : RankM) (c : Config F) (k : Nat),
      c.st.linearConstraints = 0 → k ≤ R.numCoeffs →
      ∃ c', runCmds R (List.replicate k (Cmd.enforceZero [])) c = .ok c' ∧
        c'.st.linearConstraints = k) ∧
    (∀ (R : RankM) (c : Config F), c.st.linearConstraints = 0 →
      runCmds R (List.replicate (R.numCoeffs + 1) (Cmd.enforceZero [])) c =
        .err (.LinearBoundExceeded R.numCoeffs)) := by
  refine ⟨?_, ?_, ?_, ?_, ?_, ?_⟩
  · intro R c h
    simp [stepCmd, mulCore, h]
  · intro R c lc h
    simp [stepCmd, h]
  · intro R c k h hk
    obtain ⟨c', hrun, hm, ⟨la, hla, hlal⟩, _, _, _, _, _⟩ :=
      runMul_iter R k c (by omega)
    exact ⟨c', hrun, by omega, by simp [hla, hlal], ⟨la, hla⟩⟩
  · intro R c h
    exact runMul_fail R R.n c (by omega)
  · intro R c k h hk
    obtain ⟨c', hrun, hl, _⟩ := runEnforce_iter R k c (by omega)
    exact ⟨c', hrun, by omega⟩
  · intro R c h
    exact runEnforce_fail R R.numCoeffs c (by omega)

/-- Witness for C5 with `n = 1`, `num_coeffs = 1` at a fresh configuration:
the second `mul` call and the second `enforce_zero` call fail with the
right kinds, state untouched. -/
theorem bound_enforcement_witness :
    stepCmd (F := ℚ) ⟨1, 1⟩
        ⟨{ evalInit 1 1 with multiplicationConstraints := 1 }, []⟩ .mulGate =
      .err (.MultiplicationBoundExceeded 1)
        ⟨{ evalInit 1 1 with multiplicationConstraints := 1 }, []⟩ ∧
    runCmds (F := ℚ) ⟨1, 1⟩ (List.replicate 2 (Cmd.enforceZero []))
        ⟨evalInit 1 1, []⟩ = .err (.LinearBoundExceeded 1) :=
  ⟨bound_enforcement.1 ⟨1, 1⟩
     ⟨{ evalInit 1 1 with multiplicationConstraints := 1 }, []⟩ rfl,
   bound_enforcement.2.2.2.2.2 ⟨1, 1⟩ ⟨evalInit 1 1, []⟩ rfl⟩

/-! ## Handle counting: the environment as the ghost handle multiset -/

/-- Number of live handles in the environment that point at virtual slot
`k`: one for the owning handle plus one per outstanding clone. -/
def hEnv (env : List WireIndex) (k : Nat) : Nat :=
  (env.filter (fun w => w = WireIndex.Virtual k)).length

theorem hEnv_nil (k : Nat) : hEnv [] k = 0 := rfl

theorem hEnv_append (env1 env2 : List WireIndex) (k : Nat) :
    hEnv (env1 ++ env2) k = hEnv env1 k + hEnv env2 k := by
  simp [hEnv]

theorem hEnv_cons (w : WireIndex) (env : List WireIndex) (k : Nat) :
    hEnv (w :: env) k =
      (if w = WireIndex.Virtual k then 1 else 0) + hEnv env k := by
  by_cases h : w = WireIndex.Virtual k <;> simp [hEnv, h] <;> omega

theorem hEnv_pos_of_mem (env : List WireIndex) (k : Nat)
    (h : WireIndex.Virtual k ∈ env) : 0 < hEnv env k := by
  induction env with
  | nil => simp at h
  | cons w rest ih =>
    rw [hEnv_cons]
    rcases List.mem_cons.mp h with h | h
    · simp [← h]
    · have := ih h
      omega

theorem hEnv_append_nonvirt (env : List WireIndex) (w : WireIndex)
    (hw : w.virtIdx? = none) (k : Nat) : hEnv (env ++ [w]) k = hEnv env k := by
  rw [hEnv_append, hEnv_cons, hEnv_nil]
  simp [virtIdx?_none_ne hw k]

theorem hEnv_append_virt (env : List WireIndex) (i k : Nat) :
    hEnv (env ++ [WireIndex.Virtual i]) k =
      if k = i then hEnv env k + 1 else hEnv env k := by
  rw [hEnv_append, hEnv_cons, hEnv_nil]
  by_cases h : k = i
  · subst h
    simp
  · have hne : ¬(WireIndex.Virtual i = WireIndex.Virtual k) := by
      simp
      omega
    simp [h, hne]

theorem hEnv_eraseIdx (env : List WireIndex) (v : Nat) (hv : v < env.length)
    (k : Nat) :
    hEnv env k =
      (if envGet env v = WireIndex.Virtual k then 1 else 0) +
        hEnv (env.eraseIdx v) k := by
  induction env generalizing v with
  | nil => simp at hv
  | cons w rest ih =>
    cases v with
    | zero =>
      rw [hEnv_cons]
      simp [envGet, List.eraseIdx]
    | succ v =>
      have hv' : v < rest.length := by simpa using hv
      have hrec := ih v hv'
      rw [hEnv_cons]
      simp only [List.eraseIdx]
      rw [hEnv_cons]
      have hget : envGet (w :: rest) (v + 1) = envGet rest v := by
        simp [envGet]
      rw [hget]
      omega

theorem envGet_mem_or_one (env : List WireIndex) (v : Nat) :
    envGet env v ∈ env ∨ envGet env v = WireIndex.C 0 := by
  by_cases hv : v < env.length
  · left
    rw [envGet, List.getD_eq_getElem _ _ hv]
    exact List.getElem_mem hv
  · right
    rw [envGet, List.getD_eq_default]
    omega

theorem hEnv_pos_of_envGet (env : List WireIndex) (v k : Nat)
    (h : envGet env v = WireIndex.Virtual k) : 0 < hEnv env k := by
  rcases envGet_mem_or_one env v with hm | h1
  · exact hEnv_pos_of_mem env k (h ▸ hm)
  · rw [h] at h1
    cases h1

theorem cntV_pos_of_mem {F : Type} (l : List (WireIndex × Coeff F)) (k : Nat)
    (c : Coeff F) (h : (WireIndex.Virtual k, c) ∈ l) : 0 < cntV l k := by
  rw [cntV]
  exact List.length_pos_of_mem (List.mem_filter.mpr ⟨h, by simp⟩)

/-! ## Targets of collected and enforced linear combinations -/

theorem collectGo_target {F : Type} [Field F] :
    ∀ (l : List (RItem F)) (g : Coeff F) (p : WireIndex × Coeff F),
      p ∈ collectGo l g → ∃ c : Coeff F, RItem.term p.1 c ∈ l
  | [], _, p, h => by simp [collectGo] at h
  | .term w c :: rest, g, p, h => by
    rw [collectGo] at h
    rcases List.mem_cons.mp h with h | h
    · exact ⟨c, by simp [h]⟩
    · obtain ⟨c', hc'⟩ := collectGo_target rest g p h
      exact ⟨c', by simp [hc']⟩
  | .gain c :: rest, g, p, h => by
    rw [collectGo] at h
    obtain ⟨c', hc'⟩ := collectGo_target rest (g.mul c) p h
    exact ⟨c', by simp [hc']⟩

theorem resolveLC_target {F : Type} (env : List WireIndex)
    (lc : List (LCItem F)) (w : WireIndex) (c : Coeff F)
    (h : RItem.term w c ∈ resolveLC env lc) : ∃ v : Nat, w = envGet env v := by
  rw [resolveLC] at h
  obtain ⟨it, hit, heq⟩ := List.mem_map.mp h
  cases it with
  | term v c' =>
    simp at heq
    exact ⟨v, heq.1.symm⟩
  | gain c' => simp at heq

theorem addW_targets {F : Type} [Field F] (env : List WireIndex)
    (lc : List (LCItem F)) (p : WireIndex × Coeff F)
    (hp : p ∈ collectGo (resolveLC env lc) Coeff.One) :
    p.1 ∈ env ∨ p.1 = WireIndex.C 0 := by
  obtain ⟨c, hc⟩ := collectGo_target _ _ _ hp
  obtain ⟨v, hv⟩ := resolveLC_target env lc _ _ hc
  rw [hv]
  exact envGet_mem_or_one env v

/-- Growing the backward-view arrays (a fresh multiplication gate) keeps the
table invariant. -/
theorem TInvE_sy_grow {F : Type} (t : VirtualTable F) (h : Nat → Nat)
    (E : List Nat) (sy' : BackView F)
    (ha : t.sy.a.length ≤ sy'.a.length) (hb : t.sy.b.length ≤ sy'.b.length)
    (hc : t.sy.c.length ≤ sy'.c.length) (hInv : TInvE t h E) :
    TInvE { t with sy := sy' } h E := by
  constructor
  · exact hInv.refEq
  · exact hInv.hZero
  · intro j w hj p hp
    exact wixRange_mono t { t with sy := sy' } ha hb hc (le_refl _) p.1
      (hInv.termsRange j w hj p hp)
  · exact hInv.cleared
  · exact hInv.exclProp
  · exact hInv.exclLt
  · exact hInv.exclFree
  · exact hInv.freeNodup
  · exact hInv.freeLt
  · exact hInv.freeZero
  · exact hInv.zeroFree

/-- `VirtualTable::alloc` under the invariant: the cleared-slot asserts
cannot fire, the fresh slot carries no handle and no stored reference, and
the invariant is re-established with the new owning handle as one extra
ghost handle on the fresh slot. -/
theorem allocSlot_spec {F : Type} [Field F] [DecidableEq F]
    (t : VirtualTable F) (h : Nat → Nat) (hInv : TInvE t h []) :
    ∃ (t₁ : VirtualTable F) (i : Nat), t.allocSlot = some (t₁, i) ∧
      t₁.sy = t.sy ∧
      t.wires.length ≤ t₁.wires.length ∧ i < t₁.wires.length ∧
      h i = 0 ∧ SR t i = 0 ∧ (∀ k, SR t₁ k = SR t k) ∧
      t₁.wires[i]? = some ⟨1, [], Coeff.Zero⟩ ∧
      (∀ k, k ≠ i → t₁.wires[k]? = t.wires[k]?) ∧
      TInvE t₁ (fun k => if k = i then h k + 1 else h k) [] := by
  rcases hfree : t.free with _ | ⟨i, rest⟩
  · -- free list empty: grow the table
    refine ⟨{ t with wires := t.wires ++ [⟨1, [], Coeff.Zero⟩] },
      t.wires.length, ?_, rfl, by simp, by simp, ?_, ?_, ?_, ?_, ?_, ?_⟩
    · rw [VirtualTable.allocSlot, hfree]
    · exact hInv.hZero _ (le_refl _)
    · exact SR_eq_zero_of_termsRange t hInv.termsRange _ (le_refl _)
    · intro k
      rw [SR_append]
      simp [cntV_nil]
    · simp only
      rw [List.getElem?_concat_length]
    · intro k hk
      by_cases hlt : k < t.wires.length
      · simp only
        rw [List.getElem?_append_left hlt]
      · have h1 : t.wires.length + 1 ≤ k := by omega
        rw [List.getElem?_eq_none (by simpa using h1),
          List.getElem?_eq_none (by omega)]
    · have hSRa : ∀ k, SR { t with wires := t.wires ++ [(⟨1, [], Coeff.Zero⟩ : VirtualWire F)] } k = SR t k := by
        intro k
        rw [SR_append]
        simp [cntV_nil]
      constructor
      · intro k w₂ hk
        simp only at hk
        by_cases hki : k = t.wires.length
        · subst hki
          rw [List.getElem?_concat_length] at hk
          cases hk
          rw [hSRa, if_pos rfl, hInv.hZero _ (le_refl _),
            SR_eq_zero_of_termsRange t hInv.termsRange _ (le_refl _)]
        · rw [hSRa, if_neg hki]
          by_cases hlt : k < t.wires.length
          · rw [List.getElem?_append_left hlt] at hk
            exact hInv.refEq k w₂ hk
          · rw [List.getElem?_eq_none (by simpa using (by omega : t.wires.length + 1 ≤ k))] at hk
            cases hk
      · intro k hk
        simp only [List.length_append, List.length_cons, List.length_nil] at hk
        rw [if_neg (by omega)]
        exact hInv.hZero k (by omega)
      · intro j w₂ hj p hp
        have hxr := wixRange_mono t { t with wires := t.wires ++ [(⟨1, [], Coeff.Zero⟩ : VirtualWire F)] }
          (le_refl _) (le_refl _) (le_refl _) (by simp)
        simp only at hj
        by_cases hji : j = t.wires.length
        · subst hji
          rw [List.getElem?_concat_length] at hj
          cases hj
          simp at hp
        · by_cases hlt : j < t.wires.length
          · rw [List.getElem?_append_left hlt] at hj
            exact hxr p.1 (hInv.termsRange j w₂ hj p hp)
          · rw [List.getElem?_eq_none (by simpa using (by omega : t.wires.length + 1 ≤ j))] at hj
            cases hj
      · intro k w₂ hk hrc hkE
        simp only at hk
        by_cases hki : k = t.wires.length
        · subst hki
          rw [List.getElem?_concat_length] at hk
          cases hk
          simp at hrc
        · by_cases hlt : k < t.wires.length
          · rw [List.getElem?_append_left hlt] at hk
            exact hInv.cleared k w₂ hk hrc hkE
          · rw [List.getElem?_eq_none (by simpa using (by omega : t.wires.length + 1 ≤ k))] at hk
            cases hk
      · intro k hk
        simp at hk
      · intro k hk
        simp at hk
      · intro k hk
        simp at hk
      · simp only
        rw [hfree]
        exact List.nodup_nil
      · intro j hj
        simp only [hfree] at hj
        cases hj
      · intro j hj
        simp only [hfree] at hj
        cases hj
      · intro k w₂ hk hrc hkE
        exfalso
        simp only at hk
        by_cases hki : k = t.wires.length
        · subst hki
          rw [List.getElem?_concat_length] at hk
          cases hk
          simp at hrc
        · by_cases hlt : k < t.wires.length
          · rw [List.getElem?_append_left hlt] at hk
            have := hInv.zeroFree k w₂ hk hrc (by simp)
            rw [hfree] at this
            cases this
          · rw [List.getElem?_eq_none (by simpa using (by omega : t.wires.length + 1 ≤ k))] at hk
            cases hk
  · -- reuse a cleared slot from the free list
    have himem : i ∈ t.free := by
      rw [hfree]
      simp
    have hilt : i < t.wires.length := hInv.freeLt i himem
    obtain ⟨w, hw⟩ : ∃ w : VirtualWire F, t.wires[i]? = some w := by
      rw [List.getElem?_eq_getElem hilt]
      exact ⟨_, rfl⟩
    have hrz : w.refcount = 0 := hInv.freeZero i himem w hw
    have hcl := hInv.cleared i w hw hrz (by simp)
    have hwval : ({ w with refcount := 1 } : VirtualWire F) = ⟨1, [], Coeff.Zero⟩ := by
      cases w
      simp at hcl ⊢
      exact ⟨hcl.1, hcl.2⟩
    have hh0 : h i = 0 ∧ SR t i = 0 := by
      have := hInv.refEq i w hw
      omega
    have hSRa : ∀ k,
        SR { t with wires := t.wires.set i { w with refcount := 1 }, free := rest } k = SR t k := by
      intro k
      have := SR_set_same_terms t i w { w with refcount := 1 } hw rfl k
      simpa [SR] using this
    have hget : ∀ k, (t.wires.set i { w with refcount := 1 })[k]? =
        if k = i ∧ i < t.wires.length then some { w with refcount := 1 }
        else t.wires[k]? :=
      fun k => getElem?_set_cases t.wires i k _
    refine ⟨{ t with wires := t.wires.set i { w with refcount := 1 }, free := rest },
      i, ?_, rfl, by simp, by simp [hilt], hh0.1, hh0.2, hSRa, ?_, ?_, ?_⟩
    · rw [VirtualTable.allocSlot, hfree]
      dsimp only
      rw [hw]
      dsimp only
      rw [if_pos ⟨hrz, hcl.2, hcl.1⟩]
    · simp only
      rw [hget i, if_pos ⟨rfl, hilt⟩, hwval]
    · intro k hk
      simp only
      rw [hget k, if_neg (by intro hcon; exact hk hcon.1)]
    · have hnodup : t.free.Nodup := hInv.freeNodup
      rw [hfree] at hnodup
      constructor
      · intro k w₂ hk
        simp only at hk
        rw [hget k] at hk
        rw [hSRa]
        by_cases hki : k = i ∧ i < t.wires.length
        · rw [if_pos hki] at hk
          cases hk
          rw [hki.1, if_pos rfl]
          simp
          omega
        · rw [if_neg hki] at hk
          have hne : ¬k = i := fun hcon => hki ⟨hcon, hilt⟩
          rw [if_neg hne]
          exact hInv.refEq k w₂ hk
      · intro k hk
        simp only [List.length_set] at hk
        rw [if_neg (by omega)]
        exact hInv.hZero k hk
      · intro j w₂ hj p hp
        have hxr := wixRange_sy_congr t
          { t with wires := t.wires.set i { w with refcount := 1 }, free := rest }
          rfl rfl rfl (by simp)
        simp only at hj
        rw [hget j] at hj
        by_cases hji : j = i ∧ i < t.wires.length
        · rw [if_pos hji] at hj
          cases hj
          simp only [hcl.1] at hp
          cases hp
        · rw [if_neg hji] at hj
          exact hxr p.1 (hInv.termsRange j w₂ hj p hp)
      · intro k w₂ hk hrc hkE
        simp only at hk
        rw [hget k] at hk
        by_cases hki : k = i ∧ i < t.wires.length
        · rw [if_pos hki] at hk
          cases hk
          simp at hrc
        · rw [if_neg hki] at hk
          exact hInv.cleared k w₂ hk hrc hkE
      · intro k hk
        simp at hk
      · intro k hk
        simp at hk
      · intro k hk
        simp at hk
      · exact hnodup.of_cons
      · intro j hj
        simp only at hj
        simp only [List.length_set]
        exact hInv.freeLt j (by rw [hfree]; exact List.mem_cons_of_mem i hj)
      · intro j hj w₂ hk
        simp only at hj hk
        have hjne : j ≠ i := by
          intro hcon
          subst hcon
          exact (List.nodup_cons.mp hnodup).1 hj
        rw [hget j, if_neg (by intro hcon; exact hjne hcon.1)] at hk
        exact hInv.freeZero j (by rw [hfree]; exact List.mem_cons_of_mem i hj) w₂ hk
      · intro k w₂ hk hrc hkE
        simp only at hk ⊢
        rw [hget k] at hk
        by_cases hki : k = i ∧ i < t.wires.length
        · rw [if_pos hki] at hk
          cases hk
          simp at hrc
        · rw [if_neg hki] at hk
          have := hInv.zeroFree k w₂ hk hrc (by simp)
          rw [hfree] at this
          rcases List.mem_cons.mp this with hcon | hmem
          · exact absurd ⟨hcon, hilt⟩ hki
          · exact hmem

/-- Installing a freshly collected term list on the slot `alloc` just
returned (sy.rs:326-331): each stored reference bumps its target's refcount
(`TermCollector::add_term`), the terms are installed by `update`, and the
invariant is re-established with the same ghost handles. -/
theorem addW_install {F : Type} [Field F] [DecidableEq F]
    (t₁ : VirtualTable F) (h : Nat → Nat) (i : Nat)
    (terms : List (WireIndex × Coeff F))
    (hInv : TInvE t₁ (fun k => if k = i then h k + 1 else h k) [])
    (hslot : t₁.wires[i]? = some ⟨1, [], Coeff.Zero⟩)
    (hrange : ∀ p ∈ terms, wixRange t₁ p.1)
    (hlive : ∀ k : Nat, 0 < cntV terms k → 0 < h k) :
    ∃ (t₂ t₃ : VirtualTable F), incRefs t₁ terms = some t₂ ∧
      t₂.update i terms = some t₃ ∧
      TInvE t₃ (fun k => if k = i then h k + 1 else h k) [] ∧
      t₃.wires.length = t₁.wires.length ∧ t₃.sy = t₁.sy ∧ t₃.free = t₁.free ∧
      t₃.wires[i]? = some ⟨1, terms, Coeff.Zero⟩ ∧
      (∀ (k : Nat) (w : VirtualWire F), k ≠ i → t₁.wires[k]? = some w →
        ∃ w' : VirtualWire F, t₃.wires[k]? = some w' ∧ w'.terms = w.terms) := by
  have hi : i < t₁.wires.length := getElem?_some_lt _ _ _ hslot
  have hi0 : h i = 0 ∧ SR t₁ i = 0 := by
    have := hInv.refEq i _ hslot
    simp at this
    omega
  have hcnti : cntV terms i = 0 := by
    by_contra hc
    have := hlive i (by omega)
    omega
  obtain ⟨t₂, hrun, hlen₂, hfree₂, hsy₂, hSR₂, hpt₂⟩ :=
    incRefs_spec terms t₁ (fun p hp k hk => by
      have := hrange p hp
      rw [hk] at this
      exact this)
  obtain ⟨w₂, hw₂, hrc₂, ht₂, hv₂⟩ := hpt₂ i _ hslot
  have hilen₂ : i < t₂.wires.length := by omega
  have hupd : t₂.update i terms =
      some { t₂ with wires := t₂.wires.set i { w₂ with terms := terms } } := by
    rw [VirtualTable.update, hw₂]
  have hX : ({ w₂ with terms := terms } : VirtualWire F) =
      ⟨1, terms, Coeff.Zero⟩ := by
    rw [hcnti] at hrc₂
    cases w₂
    simp at hrc₂ hv₂ ⊢
    exact ⟨hrc₂, hv₂⟩
  have hget : ∀ k, (t₂.wires.set i { w₂ with terms := terms })[k]? =
      if k = i ∧ i < t₂.wires.length then some { w₂ with terms := terms }
      else t₂.wires[k]? :=
    fun k => getElem?_set_cases t₂.wires i k _
  have hSR₃ : ∀ k,
      SR { t₂ with wires := t₂.wires.set i { w₂ with terms := terms } } k =
        SR t₁ k + cntV terms k := by
    intro k
    have hs := SR_set t₂ i w₂ { w₂ with terms := terms } hw₂ k
    have hs2 := hSR₂ k
    rw [ht₂, cntV_nil] at hs
    dsimp only at hs
    omega
  have hback : ∀ (k : Nat) (w₃ : VirtualWire F), t₂.wires[k]? = some w₃ →
      ∃ w₁ : VirtualWire F, t₁.wires[k]? = some w₁ ∧
        w₃.refcount = w₁.refcount + cntV terms k ∧ w₃.terms = w₁.terms ∧
        w₃.value = w₁.value := by
    intro k w₃ hk
    have hklt : k < t₁.wires.length := by
      have := getElem?_some_lt _ _ _ hk
      omega
    obtain ⟨w₁, hw₁⟩ : ∃ w₁ : VirtualWire F, t₁.wires[k]? = some w₁ :=
      ⟨_, List.getElem?_eq_getElem hklt⟩
    obtain ⟨w', hw', hrc', ht', hv'⟩ := hpt₂ k w₁ hw₁
    rw [hk] at hw'
    cases hw'
    exact ⟨w₁, hw₁, hrc', ht', hv'⟩
  have hif : i ∉ t₁.free := by
    intro hmem
    have := hInv.freeZero i hmem _ hslot
    simp at this
  refine ⟨t₂, { t₂ with wires := t₂.wires.set i { w₂ with terms := terms } },
    hrun, hupd, ?_, by simp [hlen₂], by simpa using hsy₂, by simpa using hfree₂,
    ?_, ?_⟩
  · constructor
    · intro k w₃ hk
      simp only at hk
      rw [hget k] at hk
      by_cases hki : k = i ∧ i < t₂.wires.length
      · rw [if_pos hki] at hk
        cases hk
        obtain ⟨rfl, hlt⟩ := hki
        rw [hSR₃ k]
        dsimp only
        rw [if_pos rfl]
        dsimp only at hrc₂
        omega
      · rw [if_neg hki] at hk
        have hkne : k ≠ i := fun hcon => hki ⟨hcon, hilen₂⟩
        obtain ⟨w₁, hw₁, hrc', ht', hv'⟩ := hback k w₃ hk
        rw [hSR₃ k]
        have hr1 := hInv.refEq k w₁ hw₁
        simp only [if_neg hkne] at hr1 ⊢
        omega
    · intro k hk
      simp only [List.length_set] at hk
      exact hInv.hZero k (by omega)
    · intro j w₃ hj p hp
      have hxr : ∀ ix : WireIndex, wixRange t₁ ix →
          wixRange { t₂ with
            wires := t₂.wires.set i { w₂ with terms := terms } } ix := by
        intro ix hix
        refine wixRange_sy_congr t₁ _ ?_ ?_ ?_ ?_ ix hix
        · simp [hsy₂]
        · simp [hsy₂]
        · simp [hsy₂]
        · simp [hlen₂]
      simp only at hj
      rw [hget j] at hj
      by_cases hji : j = i ∧ i < t₂.wires.length
      · rw [if_pos hji] at hj
        cases hj
        dsimp only at hp
        exact hxr p.1 (hrange p hp)
      · rw [if_neg hji] at hj
        obtain ⟨w₁, hw₁, _, ht', _⟩ := hback j w₃ hj
        rw [ht'] at hp
        exact hxr p.1 (hInv.termsRange j w₁ hw₁ p hp)
    · intro k w₃ hk hrc hkE
      simp only at hk
      rw [hget k] at hk
      by_cases hki : k = i ∧ i < t₂.wires.length
      · rw [if_pos hki] at hk
        cases hk
        rw [hX] at hrc
        simp at hrc
      · rw [if_neg hki] at hk
        have hkne : k ≠ i := fun hcon => hki ⟨hcon, hilen₂⟩
        obtain ⟨w₁, hw₁, hrc', ht', hv'⟩ := hback k w₃ hk
        have hr1 := hInv.refEq k w₁ hw₁
        simp only [if_neg hkne] at hr1
        have hz : w₁.refcount = 0 := by omega
        have hcl := hInv.cleared k w₁ hw₁ hz (by simp)
        rw [ht', hv']
        exact hcl
    · intro k hk
      simp at hk
    · intro k hk
      simp at hk
    · intro k hk
      simp at hk
    · simp only
      rw [hfree₂]
      exact hInv.freeNodup
    · intro j hj
      simp only at hj ⊢
      rw [hfree₂] at hj
      simp only [List.length_set]
      have := hInv.freeLt j hj
      omega
    · intro j hj w₃ hk
      simp only at hj hk
      rw [hfree₂] at hj
      have hjne : j ≠ i := fun hcon => hif (hcon ▸ hj)
      rw [hget j, if_neg (by intro hcon; exact hjne hcon.1)] at hk
      obtain ⟨w₁, hw₁, hrc', ht', hv'⟩ := hback j w₃ hk
      have hz1 : w₁.refcount = 0 := hInv.freeZero j hj w₁ hw₁
      have hr1 := hInv.refEq j w₁ hw₁
      simp only [if_neg hjne] at hr1
      have hcv : cntV terms j = 0 := by
        by_contra hc
        have := hlive j (by omega)
        omega
      omega
    · intro k w₃ hk hrc hkE
      simp only at hk ⊢
      rw [hget k] at hk
      by_cases hki : k = i ∧ i < t₂.wires.length
      · rw [if_pos hki] at hk
        cases hk
        rw [hX] at hrc
        simp at hrc
      · rw [if_neg hki] at hk
        have hkne : k ≠ i := fun hcon => hki ⟨hcon, hilen₂⟩
        obtain ⟨w₁, hw₁, hrc', ht', hv'⟩ := hback k w₃ hk
        rw [hfree₂]
        exact hInv.zeroFree k w₁ hw₁ (by omega) (by simp)
  · simp only
    rw [hget i, if_pos ⟨rfl, hilen₂⟩, hX]
  · intro k w hk hw₁
    obtain ⟨w', hw', hrc', ht', hv'⟩ := hpt₂ k w hw₁
    refine ⟨w', ?_, ht'⟩
    simp only
    rw [hget k, if_neg (by intro hcon; exact hk hcon.1)]
    exact hw'

/-- `VirtualTable::add` under the invariant: adding into any in-range target
(with, for a virtual target, at least one live handle on it) succeeds and
only changes one backward-view entry or one virtual slot's value. -/
theorem add_spec {F : Type} [Field F] [DecidableEq F]
    (t : VirtualTable F) (h : Nat → Nat) (ix : WireIndex) (v : Coeff F)
    (hInv : TInvE t h []) (hr : wixRange t ix)
    (hlive : ∀ k : Nat, ix = WireIndex.Virtual k → 0 < h k) :
    ∃ t' : VirtualTable F, t.add ix v = some t' ∧ TInvE t' h [] ∧
      t'.wires.length = t.wires.length ∧
      t'.sy.a.length = t.sy.a.length ∧ t'.sy.b.length = t.sy.b.length ∧
      t'.sy.c.length = t.sy.c.length ∧ t'.free = t.free ∧ termShrink t t' := by
  cases ix with
  | A ii =>
    have hlt : ii < t.sy.a.length := hr
    obtain ⟨x, hx⟩ : ∃ x, t.sy.a[ii]? = some x :=
      ⟨_, List.getElem?_eq_getElem hlt⟩
    refine ⟨{ t with sy := { t.sy with a := t.sy.a.set ii (x + v.value) } },
      ?_, ?_, rfl, by simp, rfl, rfl, rfl, termShrink_wires_eq t _ rfl⟩
    · rw [VirtualTable.add, hx]
    · exact TInvE_sy_set t h [] _ (by simp) rfl rfl hInv
  | B ii =>
    have hlt : ii < t.sy.b.length := hr
    obtain ⟨x, hx⟩ : ∃ x, t.sy.b[ii]? = some x :=
      ⟨_, List.getElem?_eq_getElem hlt⟩
    refine ⟨{ t with sy := { t.sy with b := t.sy.b.set ii (x + v.value) } },
      ?_, ?_, rfl, rfl, by simp, rfl, rfl, termShrink_wires_eq t _ rfl⟩
    · rw [VirtualTable.add, hx]
    · exact TInvE_sy_set t h [] _ rfl (by simp) rfl hInv
  | C ii =>
    have hlt : ii < t.sy.c.length := hr
    obtain ⟨x, hx⟩ : ∃ x, t.sy.c[ii]? = some x :=
      ⟨_, List.getElem?_eq_getElem hlt⟩
    refine ⟨{ t with sy := { t.sy with c := t.sy.c.set ii (x + v.value) } },
      ?_, ?_, rfl, rfl, rfl, by simp, rfl, termShrink_wires_eq t _ rfl⟩
    · rw [VirtualTable.add, hx]
    · exact TInvE_sy_set t h [] _ rfl rfl (by simp) hInv
  | Virtual k =>
    have hlt : k < t.wires.length := hr
    obtain ⟨w, hw⟩ : ∃ w : VirtualWire F, t.wires[k]? = some w :=
      ⟨_, List.getElem?_eq_getElem hlt⟩
    have hrc : w.refcount ≠ 0 := by
      have h1 := hInv.refEq k w hw
      have h2 := hlive k rfl
      omega
    refine ⟨{ t with wires := t.wires.set k { w with value := w.value.add v } },
      ?_, ?_, by simp, rfl, rfl, rfl, rfl,
      termShrink_set t t.free t.sy k w _ hw (Or.inl rfl)⟩
    · rw [VirtualTable.add, hw]
    · exact TInvE_value_set t h [] k w _ hw rfl rfl hrc hInv

/-- The `TermEnforcer` fold under the invariant: with every target in range
(and live, if virtual), the fold succeeds, preserves the invariant, the
handle counts and the table shape, and never grows a term list. -/
theorem enforceGo_spec {F : Type} [Field F] [DecidableEq F] :
    ∀ (l : List (RItem F)) (g : Coeff F) (t : VirtualTable F) (h : Nat → Nat),
      TInvE t h [] →
      (∀ (w : WireIndex) (c : Coeff F), RItem.term w c ∈ l → wixRange t w ∧
        ∀ k : Nat, w = WireIndex.Virtual k → 0 < h k) →
      ∃ t' : VirtualTable F, enforceGo t l g = some t' ∧ TInvE t' h [] ∧
        t'.wires.length = t.wires.length ∧
        t'.sy.a.length = t.sy.a.length ∧ t'.sy.b.length = t.sy.b.length ∧
        t'.sy.c.length = t.sy.c.length ∧ t'.free = t.free ∧ termShrink t t'
  | [], g, t, h, hInv, htgt =>
    ⟨t, rfl, hInv, rfl, rfl, rfl, rfl, rfl, termShrink_refl t⟩
  | .term w c :: rest, g, t, h, hInv, htgt => by
    obtain ⟨hr, hlive⟩ := htgt w c (by simp)
    obtain ⟨t₁, hadd, hInv₁, hlen, ha, hb, hc, hfr, hts⟩ :=
      add_spec t h w (c.mul g) hInv hr hlive
    obtain ⟨t', hrun, hInv', hlen', ha', hb', hc', hfr', hts'⟩ :=
      enforceGo_spec rest g t₁ h hInv₁ (fun w' c' hm => by
        obtain ⟨hr', hlive'⟩ := htgt w' c' (by simp [hm])
        exact ⟨wixRange_sy_congr t t₁ ha hb hc hlen w' hr', hlive'⟩)
    refine ⟨t', ?_, hInv', by omega, by omega, by omega, by omega,
      by rw [hfr', hfr], termShrink_trans hts hts'⟩
    rw [enforceGo, hadd]
    exact hrun
  | .gain c :: rest, g, t, h, hInv, htgt => by
    obtain ⟨t', hrun, hInv', hlen', ha', hb', hc', hfr', hts'⟩ :=
      enforceGo_spec rest (g.mul c) t h hInv (fun w' c' hm =>
        htgt w' c' (by simp [hm]))
    refine ⟨t', ?_, hInv', hlen', ha', hb', hc', hfr', hts'⟩
    rw [enforceGo]
    exact hrun

/-! ## The configuration invariant of the deferred evaluator -/

/-- The driver-level invariant tying an evaluator configuration together:
the table invariant with the environment's handles as the ghost count, all
live handles in range, a non-virtual and in-range stashed `available_b`
leg, backward-view arrays of length `multiplication_constraints`, and a
nonempty `c` array (the `ONE` column allocated by the key gate). -/
def CInv {F : Type} (c : Config F) : Prop :=
  TInvE c.st.table (hEnv c.env) [] ∧
  (∀ w ∈ c.env, wixRange c.st.table w) ∧
  (∀ w : WireIndex, c.st.availableB = some w →
    w.virtIdx? = none ∧ wixRange c.st.table w) ∧
  c.st.table.sy.a.length = c.st.multiplicationConstraints ∧
  c.st.table.sy.b.length = c.st.multiplicationConstraints ∧
  c.st.table.sy.c.length = c.st.multiplicationConstraints ∧
  0 < c.st.table.sy.c.length

/-- Acyclicity of the stored-term reference graph: a rank function on slots
that strictly drops along every stored virtual reference.  `add_term` can
only reference already-existing wires, so the graph built by the evaluator
always has one. -/
def Acy {F : Type} (t : VirtualTable F) : Prop :=
  ∃ ts : Nat → Nat, ∀ (j : Nat) (w : VirtualWire F), t.wires[j]? = some w →
    ∀ p ∈ w.terms, ∀ k : Nat, p.1 = WireIndex.Virtual k → ts k < ts j

/-- The full evaluator invariant. -/
def EInv {F : Type} (c : Config F) : Prop := CInv c ∧ Acy c.st.table

theorem Acy_of_termShrink {F : Type} (t t' : VirtualTable F)
    (hts : termShrink t t') (hAcy : Acy t) : Acy t' := by
  obtain ⟨ts, hts0⟩ := hAcy
  refine ⟨ts, ?_⟩
  intro j w' hw' p hp k hk
  obtain ⟨w, hw, hc⟩ := hts j w' hw'
  rcases hc with hc | hc
  · rw [hc] at hp
    exact hts0 j w hw p hp k hk
  · rw [hc] at hp
    cases hp

/-- Acyclicity survives installing a fresh slot `i` whose terms reference
only older slots (and which nothing references): rank `i` above everything
previously ranked. -/
theorem Acy_install {F : Type} (t t₃ : VirtualTable F) (i : Nat)
    (terms : List (WireIndex × Coeff F)) (hAcy : Acy t)
    (hslot₃ : t₃.wires[i]? = some ⟨1, terms, Coeff.Zero⟩)
    (hoth : ∀ (k : Nat) (w₃ : VirtualWire F), k ≠ i → t₃.wires[k]? = some w₃ →
      ∃ w : VirtualWire F, t.wires[k]? = some w ∧ w₃.terms = w.terms)
    (htk : ∀ p ∈ terms, ∀ k : Nat, p.1 = WireIndex.Virtual k →
      k < t.wires.length ∧ k ≠ i)
    (hSRi : SR t i = 0) : Acy t₃ := by
  obtain ⟨ts, hts⟩ := hAcy
  refine ⟨fun k => if k = i then ((List.range t.wires.length).map ts).sum + 1
    else ts k, ?_⟩
  intro j w₃ hj p hp k hk
  by_cases hji : j = i
  · subst hji
    rw [hslot₃] at hj
    cases hj
    dsimp only at hp
    obtain ⟨hklt, hkni⟩ := htk p hp k hk
    have hle : ts k ≤ ((List.range t.wires.length).map ts).sum :=
      mem_le_sum _ _ (List.mem_map_of_mem ts (List.mem_range.mpr hklt))
    simpa [hkni] using Nat.lt_succ_of_le hle
  · obtain ⟨w, hw, hteq⟩ := hoth j w₃ hji hj
    rw [hteq] at hp
    obtain ⟨p1, p2⟩ := p
    simp only at hk
    subst hk
    have hkne : k ≠ i := by
      intro hcon
      subst hcon
      have hpos : 0 < cntV w.terms k := cntV_pos_of_mem w.terms k p2 hp
      have := cntV_le_SR t j w hw k
      omega
    simpa [hkne, hji] using hts j w hw (WireIndex.Virtual k, p2) hp k rfl

theorem hEnv_nonvirt_list (l : List WireIndex)
    (hl : ∀ w ∈ l, w.virtIdx? = none) (k : Nat) : hEnv l k = 0 := by
  induction l with
  | nil => rfl
  | cons w rest ih =>
    rw [hEnv_cons, ih (fun w' hw' => hl w' (by simp [hw']))]
    simp [virtIdx?_none_ne (hl w (by simp)) k]

/-- One driver operation from an invariant configuration: no Rust panic is
reachable, a returned error leaves the caller's configuration untouched,
and a successful step re-establishes the invariant. -/
theorem step_master {F : Type} [Field F] [DecidableEq F] (R : RankM)
    (c : Config F) (cmd : Cmd F) (hInv : EInv c) :
    stepCmd R c cmd ≠ StepRes.panic ∧
    (∀ (e : Error) (c' : Config F), stepCmd R c cmd = StepRes.err e c' →
      c' = c) ∧
    (∀ c' : Config F, stepCmd R c cmd = StepRes.ok c' → EInv c') := by
  obtain ⟨⟨hT, hEnvR, hAB, hLa, hLb, hLc, hOne⟩, hAcy⟩ := hInv
  have honew : wixRange c.st.table (WireIndex.C 0) := hOne
  cases cmd with
  | mulGate =>
    by_cases hn : c.st.multiplicationConstraints = R.n
    · have hstep : stepCmd R c Cmd.mulGate =
          StepRes.err (Error.MultiplicationBoundExceeded R.n) c := by
        rw [stepCmd, mulCore]
        dsimp only
        rw [if_pos hn]
      rw [hstep]
      refine ⟨by simp, ?_, ?_⟩
      · intro e c' hc'
        cases hc'
        rfl
      · intro c' hc'
        cases hc'
    · have hstep : stepCmd R c Cmd.mulGate = StepRes.ok
          ⟨{ c.st with
              multiplicationConstraints := c.st.multiplicationConstraints + 1,
              table := { c.st.table with sy :=
                { a := c.st.table.sy.a ++ [0], b := c.st.table.sy.b ++ [0],
                  c := c.st.table.sy.c ++ [0] } } },
            c.env ++ [WireIndex.A c.st.multiplicationConstraints,
              WireIndex.B c.st.multiplicationConstraints,
              WireIndex.C c.st.multiplicationConstraints]⟩ := by
        rw [stepCmd, mulCore]
        dsimp only
        rw [if_neg hn]
      rw [hstep]
      refine ⟨by simp, ?_, ?_⟩
      · intro e c' hc'
        cases hc'
      · intro c' hc'
        cases hc'
        have hEnv' : ∀ k, hEnv (c.env ++
            [WireIndex.A c.st.multiplicationConstraints,
              WireIndex.B c.st.multiplicationConstraints,
              WireIndex.C c.st.multiplicationConstraints]) k = hEnv c.env k := by
          intro k
          have h0 : hEnv [WireIndex.A c.st.multiplicationConstraints,
              WireIndex.B c.st.multiplicationConstraints,
              WireIndex.C c.st.multiplicationConstraints] k = 0 :=
            hEnv_nonvirt_list _ (by
              intro w hw
              simp at hw
              rcases hw with rfl | rfl | rfl <;> rfl) k
          rw [hEnv_append, h0]
          omega
        have hmono : ∀ ix : WireIndex, wixRange c.st.table ix →
            wixRange { c.st.table with sy :=
              { a := c.st.table.sy.a ++ [0], b := c.st.table.sy.b ++ [0],
                c := c.st.table.sy.c ++ [0] } } ix := by
          intro ix hix
          refine wixRange_mono c.st.table
            { c.st.table with sy :=
              { a := c.st.table.sy.a ++ [0], b := c.st.table.sy.b ++ [0],
                c := c.st.table.sy.c ++ [0] } } ?_ ?_ ?_ (le_refl _) ix hix
          · simp
          · simp
          · simp
        simp only [EInv, CInv]
        refine ⟨⟨?_, ?_, ?_, ?_, ?_, ?_, ?_⟩, ?_⟩
        · refine TInvE_h_congr _ _ _ [] (fun k => (hEnv' k).symm) ?_
          refine TInvE_sy_grow c.st.table (hEnv c.env) []
            { a := c.st.table.sy.a ++ [0], b := c.st.table.sy.b ++ [0],
              c := c.st.table.sy.c ++ [0] } ?_ ?_ ?_ hT
          · simp
          · simp
          · simp
        · intro w hw
          rcases List.mem_append.mp hw with hm | hm
          · exact hmono w (hEnvR w hm)
          · simp at hm
            rcases hm with rfl | rfl | rfl
            · simp [wixRange, hLa]
            · simp [wixRange, hLb]
            · simp [wixRange, hLc]
        · intro w hw
          obtain ⟨h1, h2⟩ := hAB w hw
          exact ⟨h1, hmono w h2⟩
        · simp [hLa]
        · simp [hLb]
        · simp [hLc]
        · simp
        · exact Acy_of_termShrink _ _ (termShrink_wires_eq _ _ rfl) hAcy
  | allocW =>
    cases hab : c.st.availableB with
    | some w =>
      have hstep : stepCmd R c Cmd.allocW =
          StepRes.ok ⟨{ c.st with availableB := none }, c.env ++ [w]⟩ := by
        rw [stepCmd, hab]
      rw [hstep]
      refine ⟨by simp, ?_, ?_⟩
      · intro e c' hc'
        cases hc'
      · intro c' hc'
        cases hc'
        obtain ⟨hnv, hwr⟩ := hAB w hab
        simp only [EInv, CInv]
        refine ⟨⟨?_, ?_, ?_, hLa, hLb, hLc, hOne⟩, hAcy⟩
        · refine TInvE_h_congr _ _ _ []
            (fun k => (hEnv_append_nonvirt c.env w hnv k).symm) hT
        · intro w' hw'
          rcases List.mem_append.mp hw' with hm | hm
          · exact hEnvR w' hm
          · simp at hm
            subst hm
            exact hwr
        · intro w' hw'
          cases hw'
    | none =>
      by_cases hn : c.st.multiplicationConstraints = R.n
      · have hstep : stepCmd R c Cmd.allocW =
            StepRes.err (Error.MultiplicationBoundExceeded R.n) c := by
          rw [stepCmd, hab]
          dsimp only
          rw [mulCore]
          dsimp only
          rw [if_pos hn]
        rw [hstep]
        refine ⟨by simp, ?_, ?_⟩
        · intro e c' hc'
          cases hc'
          rfl
        · intro c' hc'
          cases hc'
      · have hstep : stepCmd R c Cmd.allocW = StepRes.ok
            ⟨{ c.st with
                multiplicationConstraints := c.st.multiplicationConstraints + 1,
                table := { c.st.table with
                  sy := { a := c.st.table.sy.a ++ [0],
                          b := c.st.table.sy.b ++ [0],
                          c := c.st.table.sy.c ++ [0] } },
                availableB := some (WireIndex.B c.st.multiplicationConstraints) },
              c.env ++ [WireIndex.A c.st.multiplicationConstraints]⟩ := by
          rw [stepCmd, hab]
          dsimp only
          rw [mulCore]
          dsimp only
          rw [if_neg hn]
        rw [hstep]
        refine ⟨by simp, ?_, ?_⟩
        · intro e c' hc'
          cases hc'
        · intro c' hc'
          cases hc'
          have hmono : ∀ ix : WireIndex, wixRange c.st.table ix →
              wixRange { c.st.table with sy :=
                { a := c.st.table.sy.a ++ [0], b := c.st.table.sy.b ++ [0],
                  c := c.st.table.sy.c ++ [0] } } ix := by
            intro ix hix
            refine wixRange_mono c.st.table
              { c.st.table with sy :=
                { a := c.st.table.sy.a ++ [0], b := c.st.table.sy.b ++ [0],
                  c := c.st.table.sy.c ++ [0] } } ?_ ?_ ?_ (le_refl _) ix hix
            · simp
            · simp
            · simp
          simp only [EInv, CInv]
          refine ⟨⟨?_, ?_, ?_, ?_, ?_, ?_, ?_⟩, ?_⟩
          · refine TInvE_h_congr _ _ _ []
              (fun k => (hEnv_append_nonvirt c.env
                (WireIndex.A c.st.multiplicationConstraints) rfl k).symm) ?_
            refine TInvE_sy_grow c.st.table (hEnv c.env) []
              { a := c.st.table.sy.a ++ [0], b := c.st.table.sy.b ++ [0],
                c := c.st.table.sy.c ++ [0] } ?_ ?_ ?_ hT
            · simp
            · simp
            · simp
          · intro w' hw'
            rcases List.mem_append.mp hw' with hm | hm
            · exact hmono w' (hEnvR w' hm)
            · simp at hm
              subst hm
              simp [wixRange, hLa]
          · intro w' hw'
            cases hw'
            refine ⟨rfl, ?_⟩
            simp [wixRange, hLb]
          · simp [hLa]
          · simp [hLb]
          · simp [hLc]
          · simp
          · exact Acy_of_termShrink _ _ (termShrink_wires_eq _ _ rfl) hAcy
  | addW lc =>
    obtain ⟨t₁, i, halloc, hsy₁, hlen₁, hilt₁, hh0, hSR0, hSR₁, hslot₁, hoth₁,
      hInv₁⟩ := allocSlot_spec c.st.table (hEnv c.env) hT
    have htgt : ∀ p ∈ collectGo (resolveLC c.env lc) Coeff.One,
        p.1 ∈ c.env ∨ p.1 = WireIndex.C 0 :=
      fun p hp => addW_targets c.env lc p hp
    have hrange₁ : ∀ p ∈ collectGo (resolveLC c.env lc) Coeff.One,
        wixRange t₁ p.1 := by
      intro p hp
      have hmono : ∀ ix : WireIndex, wixRange c.st.table ix → wixRange t₁ ix := by
        intro ix hix
        refine wixRange_mono c.st.table t₁ ?_ ?_ ?_ hlen₁ ix hix
        · rw [hsy₁]
        · rw [hsy₁]
        · rw [hsy₁]
      rcases htgt p hp with hm | hone
      · exact hmono _ (hEnvR p.1 hm)
      · rw [hone]
        exact hmono _ honew
    have hlive : ∀ k : Nat, 0 < cntV (collectGo (resolveLC c.env lc) Coeff.One) k →
        0 < hEnv c.env k := by
      intro k hc
      obtain ⟨cc, hcc⟩ := cntV_pos_exists _ k hc
      rcases htgt _ hcc with hm | hone
      · exact hEnv_pos_of_mem _ _ hm
      · cases hone
    obtain ⟨t₂, t₃, hinc, hupd, hInv₃, hlen₃, hsy₃, hfree₃, hslot₃, hoth₃⟩ :=
      addW_install t₁ (hEnv c.env) i _ hInv₁ hslot₁ hrange₁ hlive
    have hstep : stepCmd R c (Cmd.addW lc) =
        StepRes.ok ⟨{ c.st with table := t₃ }, c.env ++ [WireIndex.Virtual i]⟩ := by
      rw [stepCmd, halloc]
      dsimp only
      rw [hinc]
      dsimp only
      rw [hupd]
    rw [hstep]
    refine ⟨by simp, ?_, ?_⟩
    · intro e c' hc'
      cases hc'
    · intro c' hc'
      cases hc'
      have hmono₃ : ∀ ix : WireIndex, wixRange c.st.table ix → wixRange t₃ ix := by
        intro ix hix
        refine wixRange_mono c.st.table t₃ ?_ ?_ ?_ (by omega) ix hix
        · rw [hsy₃, hsy₁]
        · rw [hsy₃, hsy₁]
        · rw [hsy₃, hsy₁]
      simp only [EInv, CInv]
      refine ⟨⟨?_, ?_, ?_, ?_, ?_, ?_, ?_⟩, ?_⟩
      · exact TInvE_h_congr _ _ _ []
          (fun k => (hEnv_append_virt c.env i k).symm) hInv₃
      · intro w hw
        rcases List.mem_append.mp hw with hm | hm
        · exact hmono₃ w (hEnvR w hm)
        · simp at hm
          subst hm
          have : i < t₃.wires.length := by omega
          exact this
      · intro w hw
        obtain ⟨h1, h2⟩ := hAB w hw
        exact ⟨h1, hmono₃ w h2⟩
      · rw [hsy₃, hsy₁]
        exact hLa
      · rw [hsy₃, hsy₁]
        exact hLb
      · rw [hsy₃, hsy₁]
        exact hLc
      · rw [hsy₃, hsy₁]
        exact hOne
      · refine Acy_install c.st.table t₃ i _ hAcy hslot₃ ?_ ?_ hSR0
        · intro k w₃ hk hw₃
          have hklt : k < t₁.wires.length := by
            have := getElem?_some_lt _ _ _ hw₃
            omega
          obtain ⟨w₁, hw₁⟩ : ∃ w₁ : VirtualWire F, t₁.wires[k]? = some w₁ :=
            ⟨_, List.getElem?_eq_getElem hklt⟩
          obtain ⟨w', hw', ht'⟩ := hoth₃ k w₁ hk hw₁
          rw [hw₃] at hw'
          cases hw'
          refine ⟨w₁, ?_, ht'⟩
          rw [← hoth₁ k hk]
          exact hw₁
        · intro p hp k hk
          rcases htgt p hp with hm | hone
          · rw [hk] at hm
            have hkl : k < c.st.table.wires.length := hEnvR _ hm
            have hkp : 0 < hEnv c.env k := hEnv_pos_of_mem _ _ hm
            exact ⟨hkl, by intro hcon; subst hcon; omega⟩
          · rw [hk] at hone
            cases hone
  | enforceZero lc =>
    by_cases hq : c.st.linearConstraints = R.numCoeffs
    · have hstep : stepCmd R c (Cmd.enforceZero lc) =
          StepRes.err (Error.LinearBoundExceeded R.numCoeffs) c := by
        rw [stepCmd, if_pos hq]
      rw [hstep]
      refine ⟨by simp, ?_, ?_⟩
      · intro e c' hc'
        cases hc'
        rfl
      · intro c' hc'
        cases hc'
    · have htgt : ∀ (w : WireIndex) (cc : Coeff F),
          RItem.term w cc ∈ resolveLC c.env lc → wixRange c.st.table w ∧
            ∀ k : Nat, w = WireIndex.Virtual k → 0 < hEnv c.env k := by
        intro w cc hm
        obtain ⟨v, hv⟩ := resolveLC_target c.env lc w cc hm
        constructor
        · rcases envGet_mem_or_one c.env v with hmm | hone
          · rw [hv]
            exact hEnvR _ hmm
          · rw [hv, hone]
            exact honew
        · intro k hk
          refine hEnv_pos_of_envGet c.env v k ?_
          rw [← hv]
          exact hk
      obtain ⟨t', hrunE, hInv', hlen', ha', hb', hc', hfr', hts'⟩ :=
        enforceGo_spec (resolveLC c.env lc) (Coeff.Arbitrary c.st.currentY)
          c.st.table (hEnv c.env) hT htgt
      have hstep : stepCmd R c (Cmd.enforceZero lc) = StepRes.ok
          ⟨{ c.st with
              linearConstraints := c.st.linearConstraints + 1,
              table := t',
              currentY := c.st.currentY * c.st.yInv,
              ys := c.st.ys ++ [c.st.currentY] }, c.env⟩ := by
        rw [stepCmd, if_neg hq, hrunE]
      rw [hstep]
      refine ⟨by simp, ?_, ?_⟩
      · intro e c' hc'
        cases hc'
      · intro c' hc'
        cases hc'
        simp only [EInv, CInv]
        refine ⟨⟨hInv', ?_, ?_, by omega, by omega, by omega, by omega⟩,
          Acy_of_termShrink _ _ hts' hAcy⟩
        · intro w hw
          exact wixRange_sy_congr c.st.table t' ha' hb' hc' hlen' w (hEnvR w hw)
        · intro w hw
          obtain ⟨h1, h2⟩ := hAB w hw
          exact ⟨h1, wixRange_sy_congr c.st.table t' ha' hb' hc' hlen' w h2⟩
  | cloneW v =>
    cases hw : envGet c.env v with
    | Virtual k =>
      have hmem : WireIndex.Virtual k ∈ c.env := by
        rcases envGet_mem_or_one c.env v with hm | hone
        · rw [hw] at hm
          exact hm
        · rw [hw] at hone
          cases hone
      have hk : k < c.st.table.wires.length := hEnvR _ hmem
      obtain ⟨w0, hw0⟩ : ∃ w0 : VirtualWire F, c.st.table.wires[k]? = some w0 :=
        ⟨_, List.getElem?_eq_getElem hk⟩
      have hrc : w0.refcount ≠ 0 := by
        have h1 := hT.refEq k w0 hw0
        have h2 := hEnv_pos_of_mem c.env k hmem
        omega
      have hstep : stepCmd R c (Cmd.cloneW v) = StepRes.ok
          ⟨{ c.st with
              table := { c.st.table with
                wires := c.st.table.wires.set k
                  { w0 with refcount := w0.refcount + 1 } } },
            c.env ++ [WireIndex.Virtual k]⟩ := by
        rw [stepCmd, hw]
        dsimp only
        rw [hw0]
      rw [hstep]
      refine ⟨by simp, ?_, ?_⟩
      · intro e c' hc'
        cases hc'
      · intro c' hc'
        cases hc'
        have hTi := TInvE_increment c.st.table (hEnv c.env) k w0 hw0 hrc hT
        have hmono : ∀ ix : WireIndex, wixRange c.st.table ix →
            wixRange { c.st.table with
              wires := c.st.table.wires.set k
                { w0 with refcount := w0.refcount + 1 } } ix := by
          intro ix hix
          refine wixRange_sy_congr c.st.table
            { c.st.table with
              wires := c.st.table.wires.set k
                { w0 with refcount := w0.refcount + 1 } } rfl rfl rfl ?_ ix hix
          simp
        simp only [EInv, CInv]
        refine ⟨⟨?_, ?_, ?_, hLa, hLb, hLc, hOne⟩, ?_⟩
        · exact TInvE_h_congr _ _ _ []
            (fun j => (hEnv_append_virt c.env k j).symm) hTi
        · intro w hwm
          rcases List.mem_append.mp hwm with hm | hm
          · exact hmono w (hEnvR w hm)
          · simp at hm
            subst hm
            have : k < (c.st.table.wires.set k
                { w0 with refcount := w0.refcount + 1 }).length := by
              simp [hk]
            exact this
        · intro w hwm
          obtain ⟨h1, h2⟩ := hAB w hwm
          exact ⟨h1, hmono w h2⟩
        · exact Acy_of_termShrink _ _
            (termShrink_set c.st.table c.st.table.free c.st.table.sy k w0 _
              hw0 (Or.inl rfl)) hAcy
    | A j =>
      have hstep : stepCmd R c (Cmd.cloneW v) =
          StepRes.ok ⟨c.st, c.env ++ [WireIndex.A j]⟩ := by
        rw [stepCmd, hw]
      rw [hstep]
      refine ⟨by simp, ?_, ?_⟩
      · intro e c' hc'
        cases hc'
      intro c' hc'
      cases hc'
      simp only [EInv, CInv]
      refine ⟨⟨?_, ?_, hAB, hLa, hLb, hLc, hOne⟩, hAcy⟩
      · exact TInvE_h_congr _ _ _ []
          (fun j' => (hEnv_append_nonvirt c.env (WireIndex.A j) rfl j').symm) hT
      · intro w hwm
        rcases List.mem_append.mp hwm with hm | hm
        · exact hEnvR w hm
        · simp at hm
          subst hm
          rcases envGet_mem_or_one c.env v with hmm | hone
          · rw [hw] at hmm
            exact hEnvR _ hmm
          · rw [hw] at hone
            cases hone
    | B j =>
      have hstep : stepCmd R c (Cmd.cloneW v) =
          StepRes.ok ⟨c.st, c.env ++ [WireIndex.B j]⟩ := by
        rw [stepCmd, hw]
      rw [hstep]
      refine ⟨by simp, ?_, ?_⟩
      · intro e c' hc'
        cases hc'
      intro c' hc'
      cases hc'
      simp only [EInv, CInv]
      refine ⟨⟨?_, ?_, hAB, hLa, hLb, hLc, hOne⟩, hAcy⟩
      · exact TInvE_h_congr _ _ _ []
          (fun j' => (hEnv_append_nonvirt c.env (WireIndex.B j) rfl j').symm) hT
      · intro w hwm
        rcases List.mem_append.mp hwm with hm | hm
        · exact hEnvR w hm
        · simp at hm
          subst hm
          rcases envGet_mem_or_one c.env v with hmm | hone
          · rw [hw] at hmm
            exact hEnvR _ hmm
          · rw [hw] at hone
            cases hone
    | C j =>
      have hstep : stepCmd R c (Cmd.cloneW v) =
          StepRes.ok ⟨c.st, c.env ++ [WireIndex.C j]⟩ := by
        rw [stepCmd, hw]
      rw [hstep]
      refine ⟨by simp, ?_, ?_⟩
      · intro e c' hc'
        cases hc'
      intro c' hc'
      cases hc'
      simp only [EInv, CInv]
      refine ⟨⟨?_, ?_, hAB, hLa, hLb, hLc, hOne⟩, hAcy⟩
      · exact TInvE_h_congr _ _ _ []
          (fun j' => (hEnv_append_nonvirt c.env (WireIndex.C j) rfl j').symm) hT
      · intro w hwm
        rcases List.mem_append.mp hwm with hm | hm
        · exact hEnvR w hm
        · simp at hm
          subst hm
          rcases envGet_mem_or_one c.env v with hmm | hone
          · rw [hw] at hmm
            exact hEnvR _ hmm
          · rw [hw] at hone
            cases hone
            exact honew
  | dropW v =>
    by_cases hv : v < c.env.length
    · have herase := hEnv_eraseIdx c.env v hv
      have hsub : ∀ w ∈ c.env.eraseIdx v, w ∈ c.env :=
        fun w hw => List.eraseIdx_subset _ _ hw
      cases hw : envGet c.env v with
      | Virtual k =>
        have hbump : ∀ j, hEnv c.env j =
            if j = k then hEnv (c.env.eraseIdx v) j + 1
            else hEnv (c.env.eraseIdx v) j := by
          intro j
          have hthis := herase j
          rw [hw] at hthis
          by_cases hj : j = k
          · subst hj
            simp at hthis
            rw [if_pos rfl]
            omega
          · have hne : ¬(WireIndex.Virtual k = WireIndex.Virtual j) := by
              simp
              omega
            rw [if_neg hne] at hthis
            rw [if_neg hj]
            omega
        have hT' : TInvE c.st.table
            (fun j => if j = k then hEnv (c.env.eraseIdx v) j + 1
              else hEnv (c.env.eraseIdx v) j) [] :=
          TInvE_h_congr _ _ _ [] hbump hT
        obtain ⟨t', heq, hT'', hlen', ha', hb', hc', htot', hts'⟩ :=
          free_master (totalRef c.st.table + 1) c.st.table k
            (hEnv (c.env.eraseIdx v)) [] hT' (by omega)
        have hstep : stepCmd R c (Cmd.dropW v) =
            StepRes.ok ⟨{ c.st with table := t' }, c.env.eraseIdx v⟩ := by
          rw [stepCmd, if_pos hv, hw, heq]
        rw [hstep]
        refine ⟨by simp, ?_, ?_⟩
        · intro e c' hc'
          cases hc'
        intro c' hc'
        cases hc'
        simp only [EInv, CInv]
        refine ⟨⟨hT'', ?_, ?_, by omega, by omega, by omega, by omega⟩,
          Acy_of_termShrink _ _ hts' hAcy⟩
        · intro w hwm
          exact wixRange_sy_congr c.st.table t' ha' hb' hc' hlen' w
            (hEnvR w (hsub w hwm))
        · intro w hwm
          obtain ⟨h1, h2⟩ := hAB w hwm
          exact ⟨h1, wixRange_sy_congr c.st.table t' ha' hb' hc' hlen' w h2⟩
      | A j =>
        have hstep : stepCmd R c (Cmd.dropW v) =
            StepRes.ok ⟨{ c.st with table := c.st.table }, c.env.eraseIdx v⟩ := by
          rw [stepCmd, if_pos hv, hw,
            freeFuel_nonvirt (totalRef c.st.table + 1) c.st.table
              (WireIndex.A j) rfl]
        rw [hstep]
        refine ⟨by simp, ?_, ?_⟩
        · intro e c' hc'
          cases hc'
        intro c' hc'
        cases hc'
        have hsame : ∀ j', hEnv (c.env.eraseIdx v) j' = hEnv c.env j' := by
          intro j'
          have hthis := herase j'
          rw [hw] at hthis
          simp at hthis
          omega
        simp only [EInv, CInv]
        refine ⟨⟨TInvE_h_congr _ _ _ [] (fun j' => (hsame j').symm) hT, ?_,
          hAB, hLa, hLb, hLc, hOne⟩, hAcy⟩
        intro w hwm
        exact hEnvR w (hsub w hwm)
      | B j =>
        have hstep : stepCmd R c (Cmd.dropW v) =
            StepRes.ok ⟨{ c.st with table := c.st.table }, c.env.eraseIdx v⟩ := by
          rw [stepCmd, if_pos hv, hw,
            freeFuel_nonvirt (totalRef c.st.table + 1) c.st.table
              (WireIndex.B j) rfl]
        rw [hstep]
        refine ⟨by simp, ?_, ?_⟩
        · intro e c' hc'
          cases hc'
        intro c' hc'
        cases hc'
        have hsame : ∀ j', hEnv (c.env.eraseIdx v) j' = hEnv c.env j' := by
          intro j'
          have hthis := herase j'
          rw [hw] at hthis
          simp at hthis
          omega
        simp only [EInv, CInv]
        refine ⟨⟨TInvE_h_congr _ _ _ [] (fun j' => (hsame j').symm) hT, ?_,
          hAB, hLa, hLb, hLc, hOne⟩, hAcy⟩
        intro w hwm
        exact hEnvR w (hsub w hwm)
      | C j =>
        have hstep : stepCmd R c (Cmd.dropW v) =
            StepRes.ok ⟨{ c.st with table := c.st.table }, c.env.eraseIdx v⟩ := by
          rw [stepCmd, if_pos hv, hw,
            freeFuel_nonvirt (totalRef c.st.table + 1) c.st.table
              (WireIndex.C j) rfl]
        rw [hstep]
        refine ⟨by simp, ?_, ?_⟩
        · intro e c' hc'
          cases hc'
        intro c' hc'
        cases hc'
        have hsame : ∀ j', hEnv (c.env.eraseIdx v) j' = hEnv c.env j' := by
          intro j'
          have hthis := herase j'
          rw [hw] at hthis
          simp at hthis
          omega
        simp only [EInv, CInv]
        refine ⟨⟨TInvE_h_congr _ _ _ [] (fun j' => (hsame j').symm) hT, ?_,
          hAB, hLa, hLb, hLc, hOne⟩, hAcy⟩
        intro w hwm
        exact hEnvR w (hsub w hwm)
    · have hstep : stepCmd R c (Cmd.dropW v) = StepRes.ok c := by
        rw [stepCmd, if_neg hv]
      rw [hstep]
      refine ⟨by simp, ?_, ?_⟩
      · intro e c' hc'
        cases hc'
      intro c' hc'
      cases hc'
      exact ⟨⟨hT, hEnvR, hAB, hLa, hLb, hLc, hOne⟩, hAcy⟩

/-- Running a command list from an invariant configuration never panics and
re-establishes the invariant on success. -/
theorem run_master {F : Type} [Field F] [DecidableEq F] (R : RankM) :
    ∀ (l : List (Cmd F)) (c : Config F), EInv c →
      runCmds R l c ≠ RunSt.panic ∧
      (∀ c' : Config F, runCmds R l c = RunSt.ok c' → EInv c')
  | [], c, hInv => ⟨by rw [runCmds]; simp, fun c' hc' => by
      rw [runCmds] at hc'
      cases hc'
      exact hInv⟩
  | cmd :: rest, c, hInv => by
    obtain ⟨hnp, herr, hok⟩ := step_master R c cmd hInv
    rw [runCmds]
    cases hstep : stepCmd R c cmd with
    | panic => exact absurd hstep hnp
    | err e c₁ =>
      refine ⟨by simp, ?_⟩
      intro c' hc'
      simp at hc'
    | ok c₁ =>
      obtain ⟨hnp', hok'⟩ := run_master R rest c₁ (hok c₁ hstep)
      exact ⟨hnp', hok'⟩

/-- The scope-exit drop of every remaining handle (sy.rs:427): under the
invariant the drops cannot panic and consume exactly the environment's
ghost handles. -/
theorem dropEnv_master {F : Type} [Field F] [DecidableEq F] :
    ∀ (env : List WireIndex) (t : VirtualTable F),
      TInvE t (hEnv env) [] → (∀ w ∈ env, wixRange t w) → Acy t →
      ∃ t' : VirtualTable F, dropEnv env t = some t' ∧
        TInvE t' (hEnv ([] : List WireIndex)) [] ∧ Acy t'
  | [], t, hT, _, hAcy => ⟨t, rfl, hT, hAcy⟩
  | w :: rest, t, hT, hr, hAcy => by
    cases w with
    | Virtual k =>
      have hbump : ∀ j, hEnv (WireIndex.Virtual k :: rest) j =
          if j = k then hEnv rest j + 1 else hEnv rest j := by
        intro j
        rw [hEnv_cons]
        by_cases hj : j = k
        · subst hj
          simp [Nat.add_comm]
        · have hne : ¬(WireIndex.Virtual k = WireIndex.Virtual j) := by
            simp
            omega
          rw [if_neg hne, if_neg hj]
          omega
      have hT' : TInvE t
          (fun j => if j = k then hEnv rest j + 1 else hEnv rest j) [] :=
        TInvE_h_congr _ _ _ [] hbump hT
      obtain ⟨t₁, heq, hT₁, hlen, ha, hb, hc, htot, hts⟩ :=
        free_master (totalRef t + 1) t k (hEnv rest) [] hT' (by omega)
      obtain ⟨t', hdrop, hT'', hAcy'⟩ := dropEnv_master rest t₁
        (TInvE_h_congr _ _ _ [] (fun j => rfl) hT₁)
        (fun w' hw' => wixRange_sy_congr t t₁ ha hb hc hlen w'
          (hr w' (by simp [hw'])))
        (Acy_of_termShrink t t₁ hts hAcy)
      refine ⟨t', ?_, hT'', hAcy'⟩
      rw [dropEnv, heq]
      exact hdrop
    | A j =>
      have hsame : ∀ j', hEnv (WireIndex.A j :: rest) j' = hEnv rest j' := by
        intro j'
        rw [hEnv_cons]
        simp
      obtain ⟨t', hdrop, hT'', hAcy'⟩ := dropEnv_master rest t
        (TInvE_h_congr _ _ _ [] hsame hT)
        (fun w' hw' => hr w' (by simp [hw'])) hAcy
      refine ⟨t', ?_, hT'', hAcy'⟩
      rw [dropEnv, freeFuel_nonvirt (totalRef t + 1) t (WireIndex.A j) rfl]
      exact hdrop
    | B j =>
      have hsame : ∀ j', hEnv (WireIndex.B j :: rest) j' = hEnv rest j' := by
        intro j'
        rw [hEnv_cons]
        simp
      obtain ⟨t', hdrop, hT'', hAcy'⟩ := dropEnv_master rest t
        (TInvE_h_congr _ _ _ [] hsame hT)
        (fun w' hw' => hr w' (by simp [hw'])) hAcy
      refine ⟨t', ?_, hT'', hAcy'⟩
      rw [dropEnv, freeFuel_nonvirt (totalRef t + 1) t (WireIndex.B j) rfl]
      exact hdrop
    | C j =>
      have hsame : ∀ j', hEnv (WireIndex.C j :: rest) j' = hEnv rest j' := by
        intro j'
        rw [hEnv_cons]
        simp
      obtain ⟨t', hdrop, hT'', hAcy'⟩ := dropEnv_master rest t
        (TInvE_h_congr _ _ _ [] hsame hT)
        (fun w' hw' => hr w' (by simp [hw'])) hAcy
      refine ⟨t', ?_, hT'', hAcy'⟩
      rw [dropEnv, freeFuel_nonvirt (totalRef t + 1) t (WireIndex.C j) rfl]
      exact hdrop

/-- With no handles left, acyclicity forces every slot's refcount to zero
and hence (through the invariant) every slot onto the free list. -/
theorem leak_lemma {F : Type} (t : VirtualTable F)
    (hT : TInvE t (fun _ => 0) []) (hAcy : Acy t) :
    t.free.length = t.wires.length := by
  obtain ⟨ts, hts⟩ := hAcy
  have hzero : ∀ (k : Nat) (w : VirtualWire F), t.wires[k]? = some w →
      w.refcount = 0 := by
    have hstep : ∀ (m : Nat) (k : Nat) (w : VirtualWire F),
        t.wires[k]? = some w →
        ((List.range t.wires.length).map ts).sum + 1 - ts k ≤ m →
        w.refcount = 0 := by
      intro m
      induction m with
      | zero =>
        intro k w hw hm
        exfalso
        have hk : k < t.wires.length := getElem?_some_lt _ _ _ hw
        have hle : ts k ≤ ((List.range t.wires.length).map ts).sum :=
          mem_le_sum _ _ (List.mem_map_of_mem ts (List.mem_range.mpr hk))
        omega
      | succ m ih =>
        intro k w hw hm
        by_contra hrc
        have hre := hT.refEq k w hw
        simp at hre
        have hSR : 0 < SR t k := by omega
        obtain ⟨j, wj, hwj, hcnt⟩ := SR_pos_exists t k hSR
        obtain ⟨cc, hcc⟩ := cntV_pos_exists wj.terms k hcnt
        have hlt : ts k < ts j := hts j wj hwj (WireIndex.Virtual k, cc) hcc k rfl
        have hj : j < t.wires.length := getElem?_some_lt _ _ _ hwj
        have hlej : ts j ≤ ((List.range t.wires.length).map ts).sum :=
          mem_le_sum _ _ (List.mem_map_of_mem ts (List.mem_range.mpr hj))
        have hjz : wj.refcount = 0 := ih j wj hwj (by omega)
        have hcl := hT.cleared j wj hwj hjz (by simp)
        rw [hcl.1] at hcc
        cases hcc
    intro k w hw
    exact hstep (((List.range t.wires.length).map ts).sum + 1 - ts k) k w hw
      (le_refl _)
  have hmemf : ∀ k, k < t.wires.length → k ∈ t.free := by
    intro k hk
    obtain ⟨w, hw⟩ : ∃ w : VirtualWire F, t.wires[k]? = some w :=
      ⟨_, List.getElem?_eq_getElem hk⟩
    exact hT.zeroFree k w hw (hzero k w hw) (by simp)
  have hfin : t.free.toFinset = Finset.range t.wires.length := by
    ext a
    simp only [List.mem_toFinset, Finset.mem_range]
    exact ⟨fun h => hT.freeLt a h, fun h => hmemf a h⟩
  have hcard := congrArg Finset.card hfin
  rw [List.toFinset_card_of_nodup hT.freeNodup, Finset.card_range] at hcard
  exact hcard

/-- The invariant holds for an empty table paired with handle-free ghosts. -/
theorem TInvE_empty {F : Type} (fr : List Nat) (sy' : BackView F)
    (hfr : fr = []) (h : Nat → Nat) (hz : ∀ k, h k = 0) :
    TInvE { wires := [], free := fr, sy := sy' } h [] := by
  subst hfr
  constructor
  · intro k w hw
    simp at hw
  · intro k hk
    exact hz k
  · intro j w hj
    simp at hj
  · intro k w hw
    simp at hw
  · intro k hk
    simp at hk
  · intro k hk
    simp at hk
  · intro k hk
    simp at hk
  · exact List.nodup_nil
  · intro i hi
    simp at hi
  · intro i hi
    simp at hi
  · intro k w hw
    simp at hw

/-- Propagation shape of the final leak assert (sy.rs:428-436): panics stay
panics, errors propagate, success returns the backward view. -/
def polyOf {F : Type} : EvalRes F → PolyRes F
  | .ok s => .ok s.table.sy
  | .err e => .err e
  | .panic => .panic

/-- C1 statement shell: if the inner evaluation succeeds (constraints all
enforced, handles all dropped), the free list covers every slot ever
allocated. -/
def leakFree {F : Type} [Field F] [DecidableEq F] (R : RankM)
    (prog : List (Cmd F)) (outputs : List Nat) (y key : F) (q : Nat) : Prop :=
  match evalInner R prog outputs y key q with
  | .ok s => s.table.free.length = s.table.wires.length
  | _ => True

/-- **C1** (zero-leak).  For `y ≠ 0`, whenever `eval`'s inner run completes
(the circuit executed, the trailing constraints were enforced, the
linear-count assert passed and every wire handle was dropped), the virtual
table's free-list length equals the number of slots ever allocated; the
final `assert_eq!(free.len(), wires.len())` therefore never fires, and
`eval` returns exactly the propagated result — a still-referenced slot
could only surface as the assert's panic, never as a returned error. -/
theorem zero_leak {F : Type} [Field F] [DecidableEq F] (R : RankM)
    (prog : List (Cmd F)) (outputs : List Nat) (y key : F) (q : Nat)
    (hy : y ≠ 0) :
    leakFree R prog outputs y key q ∧
      evalModel R prog outputs y key q =
        polyOf (evalInner R prog outputs y key q) := by
  have hcore : ∀ s : EvalSt F, evalInner R prog outputs y key q = EvalRes.ok s →
      s.table.free.length = s.table.wires.length := by
    intro s hs
    rw [evalInner] at hs
    cases hrun : runCmds R (evalCmds prog outputs key)
        (⟨evalInit y q, []⟩ : Config F) with
    | panic =>
      rw [hrun] at hs
      simp at hs
    | err e =>
      rw [hrun] at hs
      simp at hs
    | ok cfin =>
      rw [hrun] at hs
      dsimp only at hs
      have hrun' : runCmds R (Cmd.mulGate :: (Cmd.dropW 1 ::
          Cmd.enforceZero [LCItem.term 0 Coeff.One,
            LCItem.term 1 (Coeff.NegativeArbitrary key)] ::
          (prog ++ outputs.map (fun v => Cmd.enforceZero [LCItem.term v Coeff.One])
            ++ [Cmd.enforceZero [LCItem.term 1 Coeff.One]])))
          (⟨evalInit y q, []⟩ : Config F) = RunSt.ok cfin := hrun
      rw [runCmds] at hrun'
      have hsplit : (stepCmd R (⟨evalInit y q, []⟩ : Config F) Cmd.mulGate =
          StepRes.err (Error.MultiplicationBoundExceeded R.n)
            ⟨evalInit y q, []⟩) ∨
          stepCmd R (⟨evalInit y q, []⟩ : Config F) Cmd.mulGate = StepRes.ok
            ⟨{ evalInit y q with
                multiplicationConstraints := 1,
                table := { wires := [], free := [], sy := { a := [0], b := [0], c := [0] } } },
              [WireIndex.A 0, WireIndex.B 0, WireIndex.C 0]⟩ := by
        by_cases hn : (0 : Nat) = R.n
        · left
          rw [stepCmd, mulCore]
          dsimp only [evalInit]
          rw [if_pos hn]
        · right
          rw [stepCmd, mulCore]
          dsimp only [evalInit]
          rw [if_neg hn]
          rfl
      have hEg : EInv (⟨{ evalInit y q with
          multiplicationConstraints := 1,
          table := { wires := [], free := [], sy := { a := [0], b := [0], c := [0] } } },
        [WireIndex.A 0, WireIndex.B 0, WireIndex.C 0]⟩ : Config F) := by
        refine ⟨⟨?_, ?_, ?_, rfl, rfl, rfl, by simp⟩, ?_⟩
        · exact TInvE_empty [] _ rfl _ (fun k => hEnv_nonvirt_list _ (by
            intro w hw
            simp at hw
            rcases hw with rfl | rfl | rfl <;> rfl) k)
        · intro w hw
          simp at hw
          rcases hw with rfl | rfl | rfl <;> simp [wixRange]
        · intro w hw
          simp [evalInit] at hw
        · exact ⟨fun _ => 0, by intro j w hw; simp at hw⟩
      rcases hsplit with hstep | hstep
      · rw [hstep] at hrun'
        simp at hrun'
      · rw [hstep] at hrun'
        dsimp only at hrun'
        have hEfin : EInv cfin := (run_master R _ _ hEg).2 cfin hrun'
        obtain ⟨⟨hTf, hEnvRf, _, _, _, _, _⟩, hAcyf⟩ := hEfin
        obtain ⟨t'', hdrop', hT0, hAcy0⟩ :=
          dropEnv_master cfin.env cfin.st.table hTf hEnvRf hAcyf
        by_cases hq : cfin.st.linearConstraints = q
        · rw [if_pos hq, hdrop'] at hs
          dsimp only at hs
          cases hs
          dsimp only
          exact leak_lemma t''
            (TInvE_h_congr _ _ _ [] (fun k => hEnv_nil k) hT0) hAcy0
        · rw [if_neg hq] at hs
          cases hs
  refine ⟨?_, ?_⟩
  · rw [leakFree]
    cases hres : evalInner R prog outputs y key q with
    | panic => trivial
    | err e => trivial
    | ok s => exact hcore s hres
  · rw [evalModel, if_neg hy]
    cases hres : evalInner R prog outputs y key q with
    | panic => rfl
    | err e => rfl
    | ok s =>
      dsimp only [polyOf]
      rw [if_pos (hcore s hres)]

/-- Witness for the zero-leak theorem at a concrete evaluation point. -/
theorem zero_leak_witness :
    (2 : ℚ) ≠ 0 ∧ (leakFree ⟨1, 1⟩ [] [] (2 : ℚ) 3 1 ∧
      evalModel ⟨1, 1⟩ [] [] (2 : ℚ) 3 1 =
        polyOf (evalInner ⟨1, 1⟩ [] [] (2 : ℚ) 3 1)) :=
  ⟨by simp, zero_leak ⟨1, 1⟩ [] [] 2 3 1 (by simp)⟩

/-- **C2** (refcount exactness).  Under the evaluator invariant, every live
virtual wire's refcount equals the number of owned handles (the owning
handle plus its clones, counted by `hEnv`) plus the number of stored
term-references (`SR`); a refcount can never go negative because the
decrement at zero is the `assert!` panic of `VirtualTable::free`, never a
wrap-around or an error return; and every driver operation preserves the
invariant, errors returning the caller's configuration untouched. -/
theorem refcount_invariant {F : Type} [Field F] [DecidableEq F] (R : RankM)
    (c : Config F) (hInv : EInv c) :
    (∀ (k : Nat) (w : VirtualWire F), c.st.table.wires[k]? = some w →
      w.refcount = hEnv c.env k + SR c.st.table k) ∧
    (∀ (f i : Nat) (w : VirtualWire F), c.st.table.wires[i]? = some w →
      w.refcount = 0 →
      freeFuel (f + 1) c.st.table (WireIndex.Virtual i) = FreeRes.panic) ∧
    (∀ cmd : Cmd F, stepCmd R c cmd ≠ StepRes.panic) ∧
    (∀ (cmd : Cmd F) (c' : Config F), stepCmd R c cmd = StepRes.ok c' →
      EInv c') ∧
    (∀ (cmd : Cmd F) (e : Error) (c' : Config F),
      stepCmd R c cmd = StepRes.err e c' → c' = c) := by
  refine ⟨?_, ?_, ?_, ?_, ?_⟩
  · intro k w hw
    exact hInv.1.1.refEq k w hw
  · intro f i w hw hrc
    rw [freeFuel, hw]
    dsimp only
    rw [if_pos hrc]
  · intro cmd
    exact (step_master R c cmd hInv).1
  · intro cmd c' hc'
    exact (step_master R c cmd hInv).2.2 c' hc'
  · intro cmd e c' hc'
    exact (step_master R c cmd hInv).2.1 e c' hc'

/-- A concrete invariant configuration over `ℚ`: one multiplication gate
allocated, no live handles, no virtual wires. -/
def c2cfg : Config ℚ :=
  ⟨⟨1, 0, 1, 1, ⟨[], [], ⟨[0], [0], [0]⟩⟩, none, []⟩, []⟩

theorem c2cfg_inv : EInv c2cfg := by
  refine ⟨⟨?_, ?_, ?_, rfl, rfl, rfl, by simp [c2cfg]⟩, ?_⟩
  · exact TInvE_empty [] _ rfl _ (fun k => hEnv_nil k)
  · intro w hw
    simp [c2cfg] at hw
  · intro w hw
    simp [c2cfg] at hw
  · exact ⟨fun _ => 0, by intro j w hw; simp [c2cfg] at hw⟩

/-- Witness for the refcount-invariant theorem at a concrete
configuration. -/
theorem refcount_invariant_witness :
    EInv c2cfg ∧ stepCmd (⟨2, 2⟩ : RankM) c2cfg Cmd.mulGate ≠ StepRes.panic :=
  ⟨c2cfg_inv, (refcount_invariant ⟨2, 2⟩ c2cfg c2cfg_inv).2.2.1 Cmd.mulGate⟩

/-! ## C4: the evaluation-point schedule -/

/-- The running multiplier invariant (sy.rs:341-346, sy.rs:399-407):
`y_inv` caches `y⁻¹`, `current_y` is `y^(q-1)` divided by `y` once per
enforced constraint, and the recorded multipliers are the corresponding
prefix of the power schedule. -/
def YSched {F : Type} [Field F] (y : F) (q : Nat) (s : EvalSt F) : Prop :=
  s.yInv = y⁻¹ ∧
  s.currentY = y ^ (q - 1) * (y⁻¹) ^ s.linearConstraints ∧
  s.ys = (List.range s.linearConstraints).map
    (fun i => y ^ (q - 1) * (y⁻¹) ^ i)

theorem step_sched {F : Type} [Field F] [DecidableEq F] (R : RankM)
    (c : Config F) (cmd : Cmd F) (y : F) (q : Nat) (hs : YSched y q c.st) :
    ∀ c' : Config F, stepCmd R c cmd = StepRes.ok c' → YSched y q c'.st := by
  obtain ⟨h1, h2, h3⟩ := hs
  intro c' hc'
  cases cmd with
  | mulGate =>
    rw [stepCmd] at hc'
    cases hmc : mulCore R c.st with
    | error e =>
      rw [hmc] at hc'
      simp at hc'
    | ok res =>
      obtain ⟨s₁, a, b, cw⟩ := res
      rw [hmc] at hc'
      dsimp only at hc'
      cases hc'
      rw [mulCore] at hmc
      dsimp only at hmc
      by_cases hn : c.st.multiplicationConstraints = R.n
      · rw [if_pos hn] at hmc
        cases hmc
      · rw [if_neg hn] at hmc
        simp only [Except.ok.injEq, Prod.mk.injEq] at hmc
        obtain ⟨hse, _, _, _⟩ := hmc
        subst hse
        exact ⟨h1, h2, h3⟩
  | allocW =>
    rw [stepCmd] at hc'
    cases hab : c.st.availableB with
    | some w =>
      rw [hab] at hc'
      dsimp only at hc'
      cases hc'
      exact ⟨h1, h2, h3⟩
    | none =>
      rw [hab] at hc'
      dsimp only at hc'
      cases hmc : mulCore R c.st with
      | error e =>
        rw [hmc] at hc'
        simp at hc'
      | ok res =>
        obtain ⟨s₁, a, b, cw⟩ := res
        rw [hmc] at hc'
        dsimp only at hc'
        cases hc'
        rw [mulCore] at hmc
        dsimp only at hmc
        by_cases hn : c.st.multiplicationConstraints = R.n
        · rw [if_pos hn] at hmc
          cases hmc
        · rw [if_neg hn] at hmc
          simp only [Except.ok.injEq, Prod.mk.injEq] at hmc
          obtain ⟨hse, _, _, _⟩ := hmc
          subst hse
          exact ⟨h1, h2, h3⟩
  | addW lc =>
    rw [stepCmd] at hc'
    cases hx : c.st.table.allocSlot with
    | none =>
      rw [hx] at hc'
      simp at hc'
    | some pr =>
      obtain ⟨t₁, i⟩ := pr
      rw [hx] at hc'
      dsimp only at hc'
      cases hy2 : incRefs t₁ (collectGo (resolveLC c.env lc) Coeff.One) with
      | none =>
        rw [hy2] at hc'
        simp at hc'
      | some t₂ =>
        rw [hy2] at hc'
        dsimp only at hc'
        cases hz : t₂.update i (collectGo (resolveLC c.env lc) Coeff.One) with
        | none =>
          rw [hz] at hc'
          simp at hc'
        | some t₃ =>
          rw [hz] at hc'
          dsimp only at hc'
          cases hc'
          exact ⟨h1, h2, h3⟩
  | enforceZero lc =>
    rw [stepCmd] at hc'
    by_cases hq : c.st.linearConstraints = R.numCoeffs
    · rw [if_pos hq] at hc'
      simp at hc'
    · rw [if_neg hq] at hc'
      cases hE : enforceGo c.st.table (resolveLC c.env lc)
          (Coeff.Arbitrary c.st.currentY) with
      | none =>
        rw [hE] at hc'
        simp at hc'
      | some t' =>
        rw [hE] at hc'
        dsimp only at hc'
        cases hc'
        refine ⟨h1, ?_, ?_⟩
        · dsimp only
          rw [h2, h1, pow_succ, mul_assoc]
        · dsimp only
          rw [h3, h2, List.range_succ, List.map_append]
          simp
  | cloneW v =>
    rw [stepCmd] at hc'
    cases hw : envGet c.env v with
    | Virtual k =>
      rw [hw] at hc'
      dsimp only at hc'
      cases hw0 : c.st.table.wires[k]? with
      | none =>
        rw [hw0] at hc'
        simp at hc'
      | some w0 =>
        rw [hw0] at hc'
        dsimp only at hc'
        cases hc'
        exact ⟨h1, h2, h3⟩
    | A j =>
      rw [hw] at hc'
      dsimp only at hc'
      cases hc'
      exact ⟨h1, h2, h3⟩
    | B j =>
      rw [hw] at hc'
      dsimp only at hc'
      cases hc'
      exact ⟨h1, h2, h3⟩
    | C j =>
      rw [hw] at hc'
      dsimp only at hc'
      cases hc'
      exact ⟨h1, h2, h3⟩
  | dropW v =>
    rw [stepCmd] at hc'
    by_cases hv : v < c.env.length
    · rw [if_pos hv] at hc'
      cases hf : freeFuel (totalRef c.st.table + 1) c.st.table
          (envGet c.env v) with
      | panic =>
        rw [hf] at hc'
        simp at hc'
      | fuel =>
        rw [hf] at hc'
        simp at hc'
      | ok t' =>
        rw [hf] at hc'
        dsimp only at hc'
        cases hc'
        exact ⟨h1, h2, h3⟩
    · rw [if_neg hv] at hc'
      cases hc'
      exact ⟨h1, h2, h3⟩

theorem run_sched {F : Type} [Field F] [DecidableEq F] (R : RankM) (y : F)
    (q : Nat) :
    ∀ (l : List (Cmd F)) (c : Config F), YSched y q c.st →
      ∀ c' : Config F, runCmds R l c = RunSt.ok c' → YSched y q c'.st
  | [], c, hs, c', hc' => by
    rw [runCmds] at hc'
    cases hc'
    exact hs
  | cmd :: rest, c, hs, c', hc' => by
    rw [runCmds] at hc'
    cases hstep : stepCmd R c cmd with
    | panic =>
      rw [hstep] at hc'
      simp at hc'
    | err e c₁ =>
      rw [hstep] at hc'
      simp at hc'
    | ok c₁ =>
      rw [hstep] at hc'
      dsimp only at hc'
      exact run_sched R y q rest c₁ (step_sched R c cmd y q hs c₁ hstep) c' hc'

theorem pow_sub_inv {F : Type} [Field F] (y : F) (hy : y ≠ 0) (a i : Nat)
    (hi : i ≤ a) : y ^ a * (y⁻¹) ^ i = y ^ (a - i) := by
  have hyi : y ^ i ≠ 0 := pow_ne_zero i hy
  have key : y ^ (a - i) * y ^ i = y ^ a := by
    rw [← pow_add]
    congr 1
    omega
  rw [inv_pow, ← key, mul_assoc, mul_inv_cancel₀ hyi, mul_one]

/-- C4 statement shell: if the inner evaluation succeeds with `q` linear
constraints, the recorded constraint multipliers are exactly
`y^(q-1), y^(q-2), …, y^0` in enforcement order. -/
def scheduleOK {F : Type} [Field F] [DecidableEq F] (R : RankM)
    (prog : List (Cmd F)) (outputs : List Nat) (y key : F) (q : Nat) : Prop :=
  match evalInner R prog outputs y key q with
  | .ok s => s.ys = (List.range q).map (fun i => y ^ (q - 1 - i))
  | _ => True

/-- **C4** (evaluation-point schedule).  The cached multiplier starts at
`y^(q-1)`; every successful `enforce_zero` records the current power as the
constraint's gain and then steps it by `y⁻¹`, so a completed run (which the
final assert pins to exactly `q` constraints) assigns the `i`-th enforced
constraint the multiplier `y^(q-1-i)`, ending at `y^0`. -/
theorem evaluation_point_schedule {F : Type} [Field F] [DecidableEq F]
    (R : RankM) (prog : List (Cmd F)) (outputs : List Nat) (y key : F)
    (q : Nat) (hy : y ≠ 0) :
    (evalInit y q).currentY = y ^ (q - 1) ∧
      scheduleOK R prog outputs y key q := by
  refine ⟨rfl, ?_⟩
  rw [scheduleOK]
  cases hres : evalInner R prog outputs y key q with
  | panic => trivial
  | err e => trivial
  | ok s =>
    rw [evalInner] at hres
    cases hrun : runCmds R (evalCmds prog outputs key)
        (⟨evalInit y q, []⟩ : Config F) with
    | panic =>
      rw [hrun] at hres
      simp at hres
    | err e =>
      rw [hrun] at hres
      simp at hres
    | ok cfin =>
      rw [hrun] at hres
      dsimp only at hres
      have hsched := run_sched R y q (evalCmds prog outputs key)
        ⟨evalInit y q, []⟩ ⟨rfl, by simp [evalInit], rfl⟩ cfin hrun
      obtain ⟨hs1, hs2, hs3⟩ := hsched
      by_cases hq : cfin.st.linearConstraints = q
      · rw [if_pos hq] at hres
        cases hdrop : dropEnv cfin.env cfin.st.table with
        | none =>
          rw [hdrop] at hres
          simp at hres
        | some t' =>
          rw [hdrop] at hres
          dsimp only at hres
          cases hres
          dsimp only
          rw [hs3, hq]
          refine List.map_congr_left ?_
          intro i hi
          rw [List.mem_range] at hi
          exact pow_sub_inv y hy (q - 1) i (by omega)
      · rw [if_neg hq] at hres
        cases hres

/-- Witness for the evaluation-point-schedule theorem at a concrete
evaluation point. -/
theorem evaluation_point_schedule_witness :
    (2 : ℚ) ≠ 0 ∧ ((evalInit (2 : ℚ) 3).currentY = (2 : ℚ) ^ (3 - 1) ∧
      scheduleOK ⟨1, 1⟩ [] [] (2 : ℚ) 3 3) :=
  ⟨by simp, evaluation_point_schedule ⟨1, 1⟩ [] [] 2 3 3 (by simp)⟩

end Ragu
